import Mathlib

/-!
A verification development for a from-scratch hash-table library written in
Rust, provided in two designs:

* `Linear` — a classic open-addressing table with linear probing and
  tombstones (`src/lib.rs`);
* `Swiss` — a grouped control-byte ("Swiss table" style) design
  (`src/swiss.rs`).

The source is shallowly embedded: vectors become `List`s, `usize`/`u64`
become `Nat` (with explicit `% 2 ^ 64` where the 64-bit digest width
matters), the pluggable keyed hasher (`RandomState`) becomes an arbitrary
function `K → Nat`, and operations that can panic return `Option`
(`none` = panic).  The floating-point load-factor check
`(count as f64) / (len as f64) >= 0.9` is embedded as the exact rational
comparison `9 * len ≤ 10 * count`: the table's capacity is always a power
of two (64, 128, …), so `count / len` is computed exactly in `f64`
(for `count < 2 ^ 53`), it can never equal `9 / 10` exactly, and no dyadic
rational with such a denominator lies between `9 / 10` and the `f64`
rounding of `0.9`; hence the `f64` comparison and the exact rational one
agree on every state the table can be in.
-/


namespace Linear

variable {K V : Type} [DecidableEq K]

/-- The 64-bit digest space of the hasher (`hash_one` returns `u64`). -/
def U64 : Nat := 2 ^ 64

/-- `enum Slot<T> { Empty, Deleted, Occupied(T) }` from `src/lib.rs`. -/
inductive Slot (T : Type) where
  | Empty : Slot T
  | Deleted : Slot T
  | Occupied : T → Slot T
deriving DecidableEq

/-- `struct Entry<K, V> { key: K, value: V }` from `src/lib.rs`. -/
structure Entry (K V : Type) where
  key : K
  value : V
deriving DecidableEq

/-- `struct Map<K, V> { slots, count, hasher }` from `src/lib.rs`.
The `RandomState` hasher is embedded as a function `K → Nat`; the code
only ever uses it through `hash_one`, which yields a `u64`, so the model
truncates its result with `% U64` at the use site. -/
structure Map (K V : Type) where
  slots : List (Slot (Entry K V))
  count : Nat
  hasher : K → Nat

/-- `INITIAL_SIZE` from `src/lib.rs`. -/
def INITIAL_SIZE : Nat := 64

/-- `EXPANSION_FACTOR` from `src/lib.rs`. -/
def EXPANSION_FACTOR : Nat := 2

/-- `Map::new` from `src/lib.rs`: 64 `Empty` slots, count 0. -/
def Map.new (h : K → Nat) : Map K V :=
  { slots := List.replicate INITIAL_SIZE Slot.Empty, count := 0, hasher := h }

/-- `Map::hash` from `src/lib.rs`:
`self.hasher.hash_one(key) as usize % self.slots.len()`. -/
def Map.hash (m : Map K V) (k : K) : Nat :=
  m.hasher k % U64 % m.slots.length

/-- The loop body of `Map::find_index`.  The Rust loop starts at the home
index and walks forward with wraparound, terminating with `None` when it
comes back to its start index; since the step is `+1 (mod len)`, that
happens after exactly `slots.len()` visited slots, which the embedding
counts with the `fuel` argument (started at `slots.length`). -/
def findIndexGo (slots : List (Slot (Entry K V))) (k : K) :
    Nat → Nat → Option Nat
  | 0, _ => none
  | fuel + 1, i =>
    match slots[i]? with
    | some Slot.Empty => none
    | some (Slot.Occupied e) =>
      if e.key = k then some i
      else findIndexGo slots k fuel ((i + 1) % slots.length)
    | some Slot.Deleted => findIndexGo slots k fuel ((i + 1) % slots.length)
    | none => none

/-- `Map::find_index` from `src/lib.rs`. -/
def Map.find_index (m : Map K V) (k : K) : Option Nat :=
  findIndexGo m.slots k m.slots.length (m.hash k)

/-- The loop body of `Map::find_empty`, with the same fuel discipline as
`findIndexGo`; `none` corresponds to the `unreachable!` panic taken when
the probe wraps fully around. -/
def findEmptyGo (slots : List (Slot (Entry K V))) :
    Nat → Nat → Option Nat
  | 0, _ => none
  | fuel + 1, i =>
    match slots[i]? with
    | some Slot.Empty => some i
    | some Slot.Deleted => some i
    | some (Slot.Occupied _) => findEmptyGo slots fuel ((i + 1) % slots.length)
    | none => none

/-- `Map::find_empty` from `src/lib.rs`; `none` is the `unreachable!`
panic. -/
def Map.find_empty (m : Map K V) (k : K) : Option Nat :=
  findEmptyGo m.slots m.slots.length (m.hash k)

/-- `is_overloaded`-style check inlined in `Map::expand`
(`(count as f64) / (len as f64) < 0.9` returns early): the table expands
when the exact ratio is at least 9/10 (see the module comment for why the
exact comparison matches the `f64` one). -/
def Map.overloaded (m : Map K V) : Prop :=
  9 * m.slots.length ≤ 10 * m.count

instance (m : Map K V) : Decidable m.overloaded := by
  unfold Map.overloaded; infer_instance

/-- One re-insertion step of `Map::expand`'s rehash loop, without the
nested load-factor check: during the rehash the fresh table holds at most
`old len` entries in `2 * old len` slots, so the nested `expand` performed
by the `insert` calls in the Rust code always returns without doing
anything; the embedding inlines that fact to avoid mutual recursion. -/
def insertNoExpand (m : Map K V) (k : K) (v : V) :
    Option (Map K V × Option V) :=
  match m.find_index k with
  | some i =>
    match m.slots[i]? with
    | some (Slot.Occupied e) =>
      some ({ m with slots := m.slots.set i (Slot.Occupied ⟨e.key, v⟩) },
        some e.value)
    | _ => none
  | none =>
    (m.find_empty k).map fun i =>
      ({ m with slots := m.slots.set i (Slot.Occupied ⟨k, v⟩), count := m.count + 1 }, none)

/-- One step of `Map::expand`'s rehash loop
(`filter(is_occupied).map(unwrap).for_each(insert)` folded over the old
slots). -/
def refillStep (om : Option (Map K V)) (s : Slot (Entry K V)) :
    Option (Map K V) :=
  match s with
  | Slot.Occupied e =>
    om.bind fun m' => (insertNoExpand m' e.key e.value).map Prod.fst
  | _ => om

/-- `Map::expand` from `src/lib.rs`: return unchanged unless the load
factor has reached 0.9; otherwise drain every `Occupied` slot of the old
array into a fresh array of twice the size via ordinary inserts (whose
nested growth check never fires, see `insertNoExpand`).  `none` is a panic
during re-insertion (never reachable, proved below). -/
def Map.expand (m : Map K V) : Option (Map K V) :=
  if ¬ m.overloaded then some m
  else
    m.slots.foldl refillStep
      (some { slots := List.replicate (m.slots.length * EXPANSION_FACTOR) Slot.Empty, count := 0, hasher := m.hasher })

/-- `Map::insert` from `src/lib.rs`: replace in place if the key is
found, otherwise grow if needed, then place the entry in the first
empty-or-deleted slot of the key's probe sequence.  `none` is a panic. -/
def Map.insert (m : Map K V) (k : K) (v : V) :
    Option (Map K V × Option V) :=
  match m.find_index k with
  | some i =>
    match m.slots[i]? with
    | some (Slot.Occupied e) =>
      some ({ m with slots := m.slots.set i (Slot.Occupied ⟨e.key, v⟩) },
        some e.value)
    | _ => none
  | none =>
    m.expand.bind fun m1 =>
      (m1.find_empty k).map fun i =>
        ({ m1 with slots := m1.slots.set i (Slot.Occupied ⟨k, v⟩), count := m1.count + 1 }, none)

/-- `Map::get` from `src/lib.rs` (the `_ => none` arm is the
`as_ref().unwrap()` panic, dead because `find_index` only returns
occupied indices). -/
def Map.get (m : Map K V) (k : K) : Option V :=
  (m.find_index k).bind fun i =>
    match m.slots[i]? with
    | some (Slot.Occupied e) => some e.value
    | _ => none

/-- `Map::delete` from `src/lib.rs`: probe exactly as `get`; on a hit
replace the slot with `Deleted` and decrement the count.  The outer
`Option` is panic (`Slot::unwrap` on a non-occupied slot, dead code). -/
def Map.delete (m : Map K V) (k : K) : Option (Map K V × Option V) :=
  match m.find_index k with
  | none => some (m, none)
  | some i =>
    match m.slots[i]? with
    | some (Slot.Occupied e) =>
      some ({ m with slots := m.slots.set i Slot.Deleted, count := m.count - 1 }, some e.value)
    | _ => none

/-- The mutating public operations of the linear-probe table. -/
inductive Op (K V : Type) where
  | ins : K → V → Op K V
  | del : K → Op K V

/-- Apply one public mutating operation (`none` = panic). -/
def Map.step (m : Map K V) : Op K V → Option (Map K V)
  | Op.ins k v => (m.insert k v).map Prod.fst
  | Op.del k => (m.delete k).map Prod.fst

/-- Run a sequence of public operations. -/
def Map.run (m : Map K V) (ops : List (Op K V)) : Option (Map K V) :=
  ops.foldlM Map.step m

/-- States reachable from `Map::new` by public operations (`get`,
`get_mut` and a failed `delete` do not change the state, so only
`insert`/`delete` appear). -/
def Reachable (m : Map K V) : Prop :=
  ∃ (h : K → Nat) (ops : List (Op K V)), Map.run (Map.new h) ops = some m

end Linear

namespace Cyclic

/-- Distance walked from `s` to reach `j` by `+1 (mod len)` steps. -/
def dist (s j len : Nat) : Nat := (j + len - s) % len

end Cyclic

namespace Linear

variable {K V : Type} [DecidableEq K]

/-- `Slot::is_occupied` from `src/lib.rs`. -/
def isOcc : Slot (Entry K V) → Bool
  | Slot.Occupied _ => true
  | _ => false

/-- Number of occupied slots of the backing array. -/
def occCount (slots : List (Slot (Entry K V))) : Nat := slots.countP isOcc

/-- `(k, v)` is stored at some occupied slot. -/
def HasKV (m : Map K V) (k : K) (v : V) : Prop :=
  ∃ (j : Nat) (e : Entry K V),
    m.slots[j]? = some (Slot.Occupied e) ∧ e.key = k ∧ e.value = v

/-- `k` is stored at some occupied slot. -/
def HasKey (m : Map K V) (k : K) : Prop := ∃ v, HasKV m k v

/-- The representation invariant of the linear-probing table: the
capacity is `64 · 2^t`, `count` counts the occupied slots and leaves at
least one free slot, keys are unique, and no `Empty` slot sits strictly
between an entry's home index and its slot (so probes from the home index
always reach it). -/
structure Inv (m : Map K V) : Prop where
  size : ∃ t, m.slots.length = 64 * 2 ^ t
  count_eq : m.count = occCount m.slots
  count_lt : m.count < m.slots.length
  uniq : ∀ (i1 i2 : Nat) (e1 e2 : Entry K V),
    m.slots[i1]? = some (Slot.Occupied e1) →
    m.slots[i2]? = some (Slot.Occupied e2) → e1.key = e2.key → i1 = i2
  probe : ∀ (j : Nat) (e : Entry K V),
    m.slots[j]? = some (Slot.Occupied e) →
    ∀ d < Cyclic.dist (m.hash e.key) j m.slots.length,
      m.slots[(m.hash e.key + d) % m.slots.length]? ≠ some Slot.Empty

/-- Two slots hold entries with distinct keys. -/
def KeysOk : Slot (Entry K V) → Slot (Entry K V) → Prop := fun s1 s2 =>
  ∀ e1 e2, s1 = Slot.Occupied e1 → s2 = Slot.Occupied e2 → e1.key ≠ e2.key

/-- The operation does not touch key `k`. -/
def avoids (op : Op K V) (k : K) : Prop :=
  match op with
  | Op.ins k' _ => k' ≠ k
  | Op.del k' => k' ≠ k

end Linear

namespace Swiss

variable {K V : Type} [DecidableEq K]

/-- The 64-bit digest space of the hasher. -/
def U64 : Nat := 2 ^ 64

/-- `struct Entry<K, V>` from `src/swiss.rs`. -/
structure Entry (K V : Type) where
  key : K
  value : V
deriving DecidableEq

/-- `struct Ctrl([u8; 8])` from `src/swiss.rs`: the 8 control bytes of
one group (bytes are `Nat`s < 256). -/
structure Ctrl where
  bytes : List Nat
deriving DecidableEq

/-- `enum Slot { Deleted, Occupied(u8) }` from `src/swiss.rs` (the
argument of `Ctrl::set`). -/
inductive Slot where
  | Deleted : Slot
  | Occupied : Nat → Slot

/-- `GROUP_SIZE` from `src/swiss.rs`. -/
def GROUP_SIZE : Nat := 8

/-- `Ctrl::SLOT_EMPTY = 0b1000_0000` (the high bit alone). -/
def Ctrl.SLOT_EMPTY : Nat := 128

/-- `Ctrl::SLOT_DELETED = 0b1111_1110` (all ones but the lowest bit). -/
def Ctrl.SLOT_DELETED : Nat := 254

/-- `Ctrl::new`: all 8 bytes empty. -/
def Ctrl.new : Ctrl := ⟨List.replicate GROUP_SIZE Ctrl.SLOT_EMPTY⟩

/-- `Ctrl::set` from `src/swiss.rs`. -/
def Ctrl.set (c : Ctrl) (i : Nat) (s : Slot) : Ctrl :=
  ⟨c.bytes.set i
    (match s with
     | Slot.Deleted => Ctrl.SLOT_DELETED
     | Slot.Occupied h2 => h2)⟩

/-- The loop of `Ctrl::find_h2`: scan the bytes in order, stopping at
the first `SLOT_EMPTY` byte; collect the indices whose byte equals `h2`
seen before that point, and report whether an empty byte was seen. -/
def findH2Go (h2 : Nat) : List Nat → Nat → List Nat × Bool
  | [], _ => ([], false)
  | b :: rest, i =>
    if b = Ctrl.SLOT_EMPTY then ([], true)
    else
      let r := findH2Go h2 rest (i + 1)
      (if b = h2 then i :: r.1 else r.1, r.2)

/-- `Ctrl::find_h2` from `src/swiss.rs`. -/
def Ctrl.find_h2 (c : Ctrl) (h2 : Nat) : List Nat × Bool :=
  findH2Go h2 c.bytes 0

/-- The loop of `Ctrl::find_empty_and_deleted`: index of the first byte
that is `SLOT_EMPTY` or `SLOT_DELETED`. -/
def findEDGo : List Nat → Nat → Option Nat
  | [], _ => none
  | b :: rest, i =>
    if b = Ctrl.SLOT_EMPTY ∨ b = Ctrl.SLOT_DELETED then some i
    else findEDGo rest (i + 1)

/-- `Ctrl::find_empty_and_deleted` from `src/swiss.rs`. -/
def Ctrl.find_empty_and_deleted (c : Ctrl) : Option Nat :=
  findEDGo c.bytes 0

/-- `struct Map<K, V>` from `src/swiss.rs`; the `RandomState` hasher is
embedded as a `K → Nat` used through `hash_one` (a `u64`). -/
structure Map (K V : Type) where
  slots : List (Option (Entry K V))
  count : Nat
  group_count : Nat
  ctrl : List Ctrl
  hasher : K → Nat

/-- `Map::new` from `src/swiss.rs`: 8 groups of 8 slots. -/
def Map.new (h : K → Nat) : Map K V :=
  { slots := List.replicate (8 * GROUP_SIZE) none, count := 0,
    group_count := 8, ctrl := List.replicate 8 Ctrl.new, hasher := h }

/-- `Map::get_slot_index` from `src/swiss.rs`. -/
def Map.get_slot_index (m : Map K V) (g ci : Nat) : Nat :=
  g * GROUP_SIZE + ci

/-- `Map::get_group_and_ctrl_indices` from `src/swiss.rs`. -/
def Map.get_group_and_ctrl_indices (m : Map K V) (si : Nat) : Nat × Nat :=
  (si / GROUP_SIZE, si % GROUP_SIZE)

/-- `Map::is_overloaded` from `src/swiss.rs`
(`count as f64 / len as f64 >= 0.9`); the exact rational comparison
agrees with the `f64` one at every power-of-two capacity (see the module
comment). -/
def Map.is_overloaded (m : Map K V) : Prop :=
  9 * m.slots.length ≤ 10 * m.count

instance (m : Map K V) : Decidable m.is_overloaded := by
  unfold Map.is_overloaded; infer_instance

/-- `Map::hash` from `src/swiss.rs`: split the 64-bit digest into
`h1 = h >> 7` (whose remainder modulo `group_count` is the home group)
and `h2 = (h as u8) & 0b0111_1111` (mask 127). -/
def Map.hash (m : Map K V) (k : K) : Nat × Nat :=
  let h := m.hasher k % U64
  let h1 := h >>> 7
  let h2 := (h % 2 ^ 8) &&& 127
  (h1 % m.group_count, h2)

/-- The candidate check inside `Map::find_slot_index`'s group scan: try
each matching control index in order, returning the first slot whose
entry's key compares equal.  (Slot indexing is total under the length
invariant; an out-of-range index — impossible in a valid table — is
skipped.) -/
def scanCands (m : Map K V) (k : K) (g : Nat) : List Nat → Option Nat
  | [] => none
  | ci :: rest =>
    match m.slots[m.get_slot_index g ci]? with
    | some (some e) =>
      if e.key = k then some (m.get_slot_index g ci)
      else scanCands m k g rest
    | _ => scanCands m k g rest

/-- The group-by-group loop of `Map::find_slot_index`, with the same
fuel discipline as the linear design (`fuel = group_count` visits every
group once before the wraparound `None`).  A `none` control lookup
(out-of-range group, impossible under the length invariant) reports
not-found. -/
def findSlotGo (m : Map K V) (k : K) (h2 : Nat) :
    Nat → Nat → Option Nat
  | 0, _ => none
  | fuel + 1, i =>
    match m.ctrl[i]? with
    | none => none
    | some c =>
      let r := c.find_h2 h2
      match scanCands m k i r.1 with
      | some si => some si
      | none =>
        if r.2 then none
        else findSlotGo m k h2 fuel ((i + 1) % m.group_count)

/-- `Map::find_slot_index` from `src/swiss.rs`. -/
def Map.find_slot_index (m : Map K V) (k : K) (g h2 : Nat) : Option Nat :=
  findSlotGo m k h2 m.group_count g

/-- The loop of `Map::find_empty_slot_index`; `none` is the
`unreachable!` panic taken when every group is fully occupied. -/
def findEmptySlotGo (m : Map K V) : Nat → Nat → Option Nat
  | 0, _ => none
  | fuel + 1, i =>
    match m.ctrl[i]? with
    | none => none
    | some c =>
      match c.find_empty_and_deleted with
      | some ci => some (m.get_slot_index i ci)
      | none => findEmptySlotGo m fuel ((i + 1) % m.group_count)

/-- `Map::find_empty_slot_index` from `src/swiss.rs`. -/
def Map.find_empty_slot_index (m : Map K V) (g : Nat) : Option Nat :=
  findEmptySlotGo m m.group_count g

/-- The body of `Map::insert` after the growth check (recompute the
hash, replace in place on a hit, otherwise fill the first empty-or-
deleted slot, tag its control byte with `h2` and bump the count).
`none` is a panic. -/
def insertNoGrow (m : Map K V) (k : K) (v : V) :
    Option (Map K V × Option V) :=
  let gh := m.hash k
  match m.find_slot_index k gh.1 gh.2 with
  | some si =>
    match m.slots[si]? with
    | some (some e) =>
      some ({ m with slots := m.slots.set si (some ⟨e.key, v⟩) }, some e.value)
    | _ => none
  | none =>
    match m.find_empty_slot_index gh.1 with
    | none => none
    | some si =>
      let gi := m.get_group_and_ctrl_indices si
      match m.ctrl[gi.1]? with
      | none => none
      | some c =>
        some ({ m with slots := m.slots.set si (some ⟨k, v⟩), count := m.count + 1, ctrl := m.ctrl.set gi.1 (c.set gi.2 (Slot.Occupied gh.2)) }, none)

/-- One step of `Map::expand`'s rehash loop.  As in the linear design,
the nested growth check of the `insert` calls issued during the rehash
never fires (the fresh table holds at most half its capacity), so the
re-insertions are embedded as `insertNoGrow`. -/
def refillStep (om : Option (Map K V)) (s : Option (Entry K V)) :
    Option (Map K V) :=
  match s with
  | some e => om.bind fun m' => (insertNoGrow m' e.key e.value).map Prod.fst
  | none => om

/-- `Map::expand` from `src/swiss.rs`: build a brand-new table with
twice the groups and a fresh randomized hasher (`hf`, an input of the
model), and re-insert every live entry. -/
def Map.expand (m : Map K V) (hf : K → Nat) : Option (Map K V) :=
  m.slots.foldl refillStep
    (some { slots := List.replicate (m.group_count * 2 * GROUP_SIZE) none, count := 0, group_count := m.group_count * 2, ctrl := List.replicate (m.group_count * 2) Ctrl.new, hasher := hf })

/-- `Map::insert` from `src/swiss.rs`: grow first when overloaded (with
a fresh hasher), then find/replace or place.  `none` is a panic. -/
def Map.insert (m : Map K V) (hf : K → Nat) (k : K) (v : V) :
    Option (Map K V × Option V) :=
  if m.is_overloaded then (m.expand hf).bind fun m1 => insertNoGrow m1 k v
  else insertNoGrow m k v

/-- `Map::get` from `src/swiss.rs`. -/
def Map.get (m : Map K V) (k : K) : Option V :=
  (m.find_slot_index k (m.hash k).1 (m.hash k).2).bind fun si =>
    match m.slots[si]? with
    | some (some e) => some e.value
    | _ => none

/-- `Map::contains` from `src/swiss.rs`. -/
def Map.contains (m : Map K V) (k : K) : Bool :=
  (m.find_slot_index k (m.hash k).1 (m.hash k).2).isSome

/-- `Map::delete` from `src/swiss.rs`: on a hit, write the `Deleted`
sentinel into the control byte, take the entry out and decrement the
count. -/
def Map.delete (m : Map K V) (k : K) : Option (Map K V × Option V) :=
  match m.find_slot_index k (m.hash k).1 (m.hash k).2 with
  | none => some (m, none)
  | some si =>
    let gi := m.get_group_and_ctrl_indices si
    match m.ctrl[gi.1]? with
    | none => none
    | some c =>
      match m.slots[si]? with
      | some (some e) =>
        some ({ m with slots := m.slots.set si none, count := m.count - 1, ctrl := m.ctrl.set gi.1 (c.set gi.2 Slot.Deleted) }, some e.value)
      | _ => none

/-- The control byte guarding slot `si`, read from a control array. -/
def byteAtCtrl (ctrl : List Ctrl) (si : Nat) : Option Nat :=
  (ctrl[si / GROUP_SIZE]?).bind fun c => c.bytes[si % GROUP_SIZE]?

/-- The control byte guarding slot `si`. -/
def Map.byteAt (m : Map K V) (si : Nat) : Option Nat :=
  byteAtCtrl m.ctrl si

/-- The mutating public operations of the grouped table; an insert
carries the fresh hasher drawn if it triggers a growth. -/
inductive Op (K V : Type) where
  | ins : K → V → (K → Nat) → Op K V
  | del : K → Op K V

/-- Apply one public mutating operation (`none` = panic). -/
def Map.step (m : Map K V) : Op K V → Option (Map K V)
  | Op.ins k v hf => (m.insert hf k v).map Prod.fst
  | Op.del k => (m.delete k).map Prod.fst

/-- Run a sequence of public operations. -/
def Map.run (m : Map K V) (ops : List (Op K V)) : Option (Map K V) :=
  ops.foldlM Map.step m

/-- States reachable from `Map::new` by public operations. -/
def Reachable (m : Map K V) : Prop :=
  ∃ (h : K → Nat) (ops : List (Op K V)), Map.run (Map.new h) ops = some m

/-- Number of live (`some`) slots. -/
def liveCount (slots : List (Option (Entry K V))) : Nat :=
  slots.countP fun s => s.isSome

/-- `(k, v)` is stored at some live slot. -/
def HasKV (m : Map K V) (k : K) (v : V) : Prop :=
  ∃ (j : Nat) (e : Entry K V),
    m.slots[j]? = some (some e) ∧ e.key = k ∧ e.value = v

/-- `k` is stored at some live slot. -/
def HasKey (m : Map K V) (k : K) : Prop := ∃ v, HasKV m k v

/-- Representation invariant of the grouped table: sizes line up, every
live slot's control byte holds the short hash of its key, every free
slot's byte is a sentinel, `count` counts the live slots and leaves room,
keys are unique, and no `Empty` control byte sits on the group-probe path
from an entry's home group to its slot (nor before it inside its own
group). -/
structure Inv (m : Map K V) : Prop where
  size : ∃ t, m.group_count = 8 * 2 ^ t
  slots_len : m.slots.length = m.group_count * GROUP_SIZE
  ctrl_len : m.ctrl.length = m.group_count
  bytes_len : ∀ c ∈ m.ctrl, c.bytes.length = GROUP_SIZE
  coh_occ : ∀ (si : Nat) (e : Entry K V), m.slots[si]? = some (some e) →
    m.byteAt si = some ((m.hash e.key).2)
  coh_none : ∀ (si : Nat), m.slots[si]? = some none →
    m.byteAt si = some Ctrl.SLOT_EMPTY ∨ m.byteAt si = some Ctrl.SLOT_DELETED
  count_eq : m.count = liveCount m.slots
  count_lt : m.count < m.slots.length
  uniq : ∀ (i1 i2 : Nat) (e1 e2 : Entry K V),
    m.slots[i1]? = some (some e1) → m.slots[i2]? = some (some e2) →
    e1.key = e2.key → i1 = i2
  probe_groups : ∀ (si : Nat) (e : Entry K V),
    m.slots[si]? = some (some e) →
    ∀ d < Cyclic.dist ((m.hash e.key).1) (si / GROUP_SIZE) m.group_count,
      ∀ q < GROUP_SIZE,
        m.byteAt (((m.hash e.key).1 + d) % m.group_count * GROUP_SIZE + q)
          ≠ some Ctrl.SLOT_EMPTY
  probe_front : ∀ (si : Nat) (e : Entry K V),
    m.slots[si]? = some (some e) →
    ∀ q < si % GROUP_SIZE,
      m.byteAt (si / GROUP_SIZE * GROUP_SIZE + q) ≠ some Ctrl.SLOT_EMPTY

/-- Two slots hold entries with distinct keys. -/
def EntOk : Option (Entry K V) → Option (Entry K V) → Prop := fun s1 s2 =>
  ∀ e1 e2, s1 = some e1 → s2 = some e2 → e1.key ≠ e2.key

/-- The operation does not touch key `k`. -/
def avoids_sw (op : Op K V) (k : K) : Prop :=
  match op with
  | Op.ins k' _ _ => k' ≠ k
  | Op.del k' => k' ≠ k

end Swiss

namespace Cyclic

theorem dist_lt {s j len : Nat} (h : 0 < len) : dist s j len < len :=
  Nat.mod_lt _ h

theorem add_dist {s j len : Nat} (hs : s < len) (hj : j < len) :
    (s + dist s j len) % len = j := by
  unfold dist
  rcases Nat.lt_or_ge j s with h | h
  · have h1 : j + len - s < len := by omega
    rw [Nat.mod_eq_of_lt h1]
    have : s + (j + len - s) = j + len := by omega
    rw [this, Nat.add_mod_right, Nat.mod_eq_of_lt hj]
  · have h1 : j + len - s = (j - s) + len := by omega
    have h2 : j - s < len := by omega
    rw [h1, Nat.add_mod_right, Nat.mod_eq_of_lt h2]
    have : s + (j - s) = j := by omega
    rw [this, Nat.mod_eq_of_lt hj]

theorem dist_add {s d len : Nat} (hs : s < len) (hd : d < len) :
    dist s ((s + d) % len) len = d := by
  unfold dist
  rcases Nat.lt_or_ge (s + d) len with h | h
  · rw [Nat.mod_eq_of_lt h]
    have : s + d + len - s = d + len := by omega
    rw [this, Nat.add_mod_right, Nat.mod_eq_of_lt hd]
  · have h2 : (s + d) % len = s + d - len := by
      rw [Nat.mod_eq_sub_mod h, Nat.mod_eq_of_lt (by omega)]
    rw [h2]
    have : s + d - len + len - s = d := by omega
    rw [this, Nat.mod_eq_of_lt hd]

theorem add_inj {s d1 d2 len : Nat} (hs : s < len) (h1 : d1 < len)
    (h2 : d2 < len) (h : (s + d1) % len = (s + d2) % len) : d1 = d2 := by
  have e1 := dist_add hs h1
  have e2 := dist_add hs h2
  rw [← e1, ← e2, h]

theorem step_shift {i d len : Nat} :
    ((i + 1) % len + d) % len = (i + (d + 1)) % len := by
  have h : (i + 1) % len + d ≡ (i + 1) + d [MOD len] :=
    (Nat.mod_modEq (i + 1) len).add_right d
  have h2 : i + 1 + d = i + (d + 1) := by omega
  rw [Nat.ModEq, h2] at h
  exact h

end Cyclic

namespace Linear

variable {K V : Type} [DecidableEq K]

theorem getElem?_some_lt {α : Type _} {l : List α} {i : Nat} {a : α}
    (h : l[i]? = some a) : i < l.length := by
  by_contra hc
  rw [List.getElem?_eq_none (by omega)] at h
  exact absurd h (by simp)

theorem getElem?_total {α : Type _} {l : List α} {i : Nat}
    (h : i < l.length) : ∃ a, l[i]? = some a := by
  rw [List.getElem?_eq_getElem h]
  exact ⟨_, rfl⟩

/-- Soundness of the probe loop: a returned index always holds an
occupied entry whose key matches. -/
theorem findIndexGo_sound {slots : List (Slot (Entry K V))} {k : K} :
    ∀ fuel i j, findIndexGo slots k fuel i = some j →
      ∃ e, slots[j]? = some (Slot.Occupied e) ∧ e.key = k := by
  intro fuel
  induction fuel with
  | zero => intro i j h; simp [findIndexGo] at h
  | succ n ih =>
    intro i j h
    cases hs : slots[i]? with
    | none =>
      simp only [findIndexGo, hs] at h
      exact Option.noConfusion h
    | some s =>
      cases s with
      | Empty =>
        simp only [findIndexGo, hs] at h
        exact Option.noConfusion h
      | Deleted =>
        simp only [findIndexGo, hs] at h
        exact ih _ _ h
      | Occupied e =>
        simp only [findIndexGo, hs] at h
        by_cases he : e.key = k
        · rw [if_pos he] at h
          cases h
          exact ⟨e, hs, he⟩
        · rw [if_neg he] at h
          exact ih _ _ h

/-- If no occupied slot holds the key, the probe loop reports
not-found, whatever the table looks like. -/
theorem findIndexGo_none {slots : List (Slot (Entry K V))} {k : K}
    (habs : ∀ (j : Nat) (e : Entry K V),
      slots[j]? = some (Slot.Occupied e) → e.key ≠ k) :
    ∀ fuel i, findIndexGo slots k fuel i = none := by
  intro fuel
  induction fuel with
  | zero => intro i; rfl
  | succ n ih =>
    intro i
    cases hs : slots[i]? with
    | none => simp only [findIndexGo, hs]
    | some s =>
      cases s with
      | Empty => simp only [findIndexGo, hs]
      | Deleted => simp only [findIndexGo, hs]; exact ih _
      | Occupied e =>
        simp only [findIndexGo, hs]
        rw [if_neg (habs i e hs)]
        exact ih _

/-- Completeness of the probe loop: if slot `j` holds the key and no
slot on the walk from `i` to `j` is `Empty` or occupied by the key, the
loop reaches `j`. -/
theorem findIndexGo_reaches {slots : List (Slot (Entry K V))} {k : K}
    {e : Entry K V} {j : Nat}
    (hj : slots[j]? = some (Slot.Occupied e)) (hk : e.key = k) :
    ∀ d fuel i, i < slots.length → j = (i + d) % slots.length → d < fuel →
      (∀ d' < d, ∀ s, slots[(i + d') % slots.length]? = some s →
        s ≠ Slot.Empty ∧ ∀ e', s = Slot.Occupied e' → e'.key ≠ k) →
      findIndexGo slots k fuel i = some j := by
  intro d
  induction d with
  | zero =>
    intro fuel i hi hji hfuel _
    obtain ⟨f, rfl⟩ : ∃ f, fuel = f + 1 := ⟨fuel - 1, by omega⟩
    have hij : j = i := by rw [hji, Nat.add_zero, Nat.mod_eq_of_lt hi]
    subst hij
    simp only [findIndexGo, hj]
    rw [if_pos hk]
  | succ d ih =>
    intro fuel i hi hji hfuel hclear
    obtain ⟨f, rfl⟩ : ∃ f, fuel = f + 1 := ⟨fuel - 1, by omega⟩
    have hlen : 0 < slots.length := by
      have := getElem?_some_lt hj; omega
    have h0 := hclear 0 (by omega)
    rw [Nat.add_zero, Nat.mod_eq_of_lt hi] at h0
    have hstep : ∀ d', ((i + 1) % slots.length + d') % slots.length =
        (i + (d' + 1)) % slots.length := fun d' => Cyclic.step_shift
    have hnext : findIndexGo slots k f ((i + 1) % slots.length) = some j := by
      apply ih f ((i + 1) % slots.length) (Nat.mod_lt _ hlen)
      · rw [hstep d, ← hji]
      · omega
      · intro d' hd' s hs
        rw [hstep d'] at hs
        exact hclear (d' + 1) (by omega) s hs
    cases hs : slots[i]? with
    | none =>
      obtain ⟨a, ha⟩ := getElem?_total hi
      rw [ha] at hs; simp at hs
    | some s =>
      obtain ⟨hne, hocc⟩ := h0 s hs
      cases s with
      | Empty => exact absurd rfl hne
      | Deleted => simp only [findIndexGo, hs]; exact hnext
      | Occupied e' =>
        simp only [findIndexGo, hs]
        rw [if_neg (hocc e' rfl)]
        exact hnext

/-- Characterization of a successful empty-slot search: the returned
index is the first empty-or-deleted slot along the probe walk. -/
theorem findEmptyGo_some {slots : List (Slot (Entry K V))} :
    ∀ fuel i j, i < slots.length → findEmptyGo slots fuel i = some j →
      ∃ d < fuel, j = (i + d) % slots.length ∧
        (slots[j]? = some Slot.Empty ∨ slots[j]? = some Slot.Deleted) ∧
        ∀ d' < d, ∃ e,
          slots[(i + d') % slots.length]? = some (Slot.Occupied e) := by
  intro fuel
  induction fuel with
  | zero => intro i j _ h; simp [findEmptyGo] at h
  | succ n ih =>
    intro i j hi h
    have hlen : 0 < slots.length := by omega
    cases hs : slots[i]? with
    | none =>
      obtain ⟨a, ha⟩ := getElem?_total hi
      rw [ha] at hs; simp at hs
    | some s =>
      cases s with
      | Empty =>
        simp only [findEmptyGo, hs] at h
        cases h
        exact ⟨0, by omega, by rw [Nat.add_zero, Nat.mod_eq_of_lt hi],
          Or.inl hs, by omega⟩
      | Deleted =>
        simp only [findEmptyGo, hs] at h
        cases h
        exact ⟨0, by omega, by rw [Nat.add_zero, Nat.mod_eq_of_lt hi],
          Or.inr hs, by omega⟩
      | Occupied e =>
        simp only [findEmptyGo, hs] at h
        obtain ⟨d, hd, hj, hslot, hbefore⟩ :=
          ih ((i + 1) % slots.length) j (Nat.mod_lt _ hlen) h
        refine ⟨d + 1, by omega, ?_, hslot, ?_⟩
        · rw [hj, Cyclic.step_shift]
        · intro d' hd'
          cases d' with
          | zero =>
            exact ⟨e, by rw [Nat.add_zero, Nat.mod_eq_of_lt hi]; exact hs⟩
          | succ d'' =>
            have := hbefore d'' (by omega)
            rw [Cyclic.step_shift] at this
            exact this

/-- If the empty-slot search fails, every visited slot was occupied. -/
theorem findEmptyGo_none {slots : List (Slot (Entry K V))} :
    ∀ fuel i, i < slots.length → findEmptyGo slots fuel i = none →
      ∀ d < fuel, ∃ e,
        slots[(i + d) % slots.length]? = some (Slot.Occupied e) := by
  intro fuel
  induction fuel with
  | zero => intro i _ _ d hd; omega
  | succ n ih =>
    intro i hi h d hd
    have hlen : 0 < slots.length := by omega
    cases hs : slots[i]? with
    | none =>
      obtain ⟨a, ha⟩ := getElem?_total hi
      rw [ha] at hs; simp at hs
    | some s =>
      cases s with
      | Empty =>
        simp only [findEmptyGo, hs] at h
        exact Option.noConfusion h
      | Deleted =>
        simp only [findEmptyGo, hs] at h
        exact Option.noConfusion h
      | Occupied e =>
        simp only [findEmptyGo, hs] at h
        cases d with
        | zero => exact ⟨e, by rw [Nat.add_zero, Nat.mod_eq_of_lt hi]; exact hs⟩
        | succ d' =>
          have := ih ((i + 1) % slots.length) (Nat.mod_lt _ hlen) h d' (by omega)
          rw [Cyclic.step_shift] at this
          exact this

theorem occCount_set {slots : List (Slot (Entry K V))} :
    ∀ {i : Nat} {b : Slot (Entry K V)}, slots[i]? = some b →
    ∀ a, occCount (slots.set i a) =
      occCount slots - (if isOcc b then 1 else 0) +
        (if isOcc a then 1 else 0) := by
  induction slots with
  | nil => intro i b hb; simp at hb
  | cons c t ih =>
    intro i b hb a
    cases i with
    | zero =>
      simp only [List.getElem?_cons_zero] at hb
      injection hb with hb'
      subst hb'
      simp only [List.set_cons_zero, occCount, List.countP_cons]
      split_ifs <;> omega
    | succ i' =>
      simp only [List.getElem?_cons_succ] at hb
      simp only [List.set_cons_succ, occCount, List.countP_cons]
      have hrec := ih hb a
      simp only [occCount] at hrec
      rw [hrec]
      have hbpos : isOcc b = true → 1 ≤ t.countP isOcc := by
        intro hob
        refine List.countP_pos.mpr ⟨b, ?_, hob⟩
        rw [List.mem_iff_getElem?]
        exact ⟨i', hb⟩
      split_ifs
      all_goals
        first
        | omega
        | (have hx := hbpos (by assumption); omega)

theorem occCount_lt_exists_nonOcc {slots : List (Slot (Entry K V))}
    (h : occCount slots < slots.length) :
    ∃ (j : Nat) (s : Slot (Entry K V)), slots[j]? = some s ∧ isOcc s = false := by
  by_contra hc
  push_neg at hc
  have : ∀ s ∈ slots, isOcc s := by
    intro s hs
    obtain ⟨j, hj⟩ := List.mem_iff_getElem?.mp hs
    exact (Bool.not_eq_false _).mp (hc j s hj)
  exact absurd (List.countP_eq_length.mpr this) (by unfold occCount at h; omega)

theorem occCount_pos {slots : List (Slot (Entry K V))} {j : Nat}
    {e : Entry K V} (h : slots[j]? = some (Slot.Occupied e)) :
    1 ≤ occCount slots := by
  have hmem : Slot.Occupied e ∈ slots := by
    rw [List.mem_iff_getElem?]; exact ⟨j, h⟩
  have := List.countP_pos (p := isOcc) (l := slots)
  exact this.mpr ⟨_, hmem, rfl⟩

theorem Inv.len_pos {m : Map K V} (h : Inv m) : 0 < m.slots.length := by
  obtain ⟨t, ht⟩ := h.size
  rw [ht]; positivity

theorem Inv.len_ge {m : Map K V} (h : Inv m) : 64 ≤ m.slots.length := by
  obtain ⟨t, ht⟩ := h.size
  rw [ht]
  have : 1 ≤ 2 ^ t := Nat.one_le_two_pow
  omega

theorem hash_lt {m : Map K V} (h : 0 < m.slots.length) (k : K) :
    m.hash k < m.slots.length := Nat.mod_lt _ h

/-- Under the invariant, `find_index` finds the slot of a stored key. -/
theorem find_index_hit {m : Map K V} (hInv : Inv m) {j : Nat}
    {e : Entry K V} (hj : m.slots[j]? = some (Slot.Occupied e)) {k : K}
    (hk : e.key = k) : m.find_index k = some j := by
  have hlen : 0 < m.slots.length := hInv.len_pos
  have hjlt : j < m.slots.length := getElem?_some_lt hj
  have hstart : m.hash k < m.slots.length := hash_lt hlen k
  apply findIndexGo_reaches hj hk (Cyclic.dist (m.hash k) j m.slots.length)
    m.slots.length (m.hash k) hstart
  · rw [Cyclic.add_dist hstart hjlt]
  · exact Cyclic.dist_lt hlen
  · intro d' hd' s hs
    constructor
    · intro hem
      subst hem
      have := hInv.probe j e hj
      rw [hk] at this
      exact this d' hd' hs
    · intro e' he' hke'
      subst he'
      have heq := hInv.uniq _ _ e' e hs hj (by rw [hke', hk])
      have hdl : Cyclic.dist (m.hash k) j m.slots.length < m.slots.length :=
        Cyclic.dist_lt hlen
      have hdd : d' = Cyclic.dist (m.hash k) j m.slots.length := by
        apply Cyclic.add_inj hstart (by omega) hdl
        rw [heq, Cyclic.add_dist hstart hjlt]
      omega

/-- `find_index` reports `none` exactly on absent keys (no invariant
needed for this direction). -/
theorem find_index_absent {m : Map K V} {k : K}
    (habs : ∀ (j : Nat) (e : Entry K V),
      m.slots[j]? = some (Slot.Occupied e) → e.key ≠ k) :
    m.find_index k = none :=
  findIndexGo_none habs _ _

theorem find_index_none_not_haskey {m : Map K V} (hInv : Inv m) {k : K}
    (h : m.find_index k = none) : ¬ HasKey m k := by
  rintro ⟨v, j, e, hj, hk, hv⟩
  rw [find_index_hit hInv hj hk] at h
  exact Option.noConfusion h

/-- Under the invariant, `get` returns exactly the stored value. -/
theorem get_spec {m : Map K V} (hInv : Inv m) (k : K) (v : V) :
    m.get k = some v ↔ HasKV m k v := by
  constructor
  · intro h
    unfold Map.get at h
    cases hfi : m.find_index k with
    | none => rw [hfi] at h; simp at h
    | some i =>
      rw [hfi] at h
      obtain ⟨e, he, hek⟩ := findIndexGo_sound _ _ _ hfi
      simp only [Option.some_bind, he] at h
      cases h
      exact ⟨i, e, he, hek, rfl⟩
  · rintro ⟨j, e, hj, hk, hv⟩
    unfold Map.get
    rw [find_index_hit hInv hj hk]
    simp only [Option.some_bind, hj]
    rw [hv]

theorem hash_congr {m m' : Map K V} (hh : m'.hasher = m.hasher)
    (hl : m'.slots.length = m.slots.length) (k : K) :
    m'.hash k = m.hash k := by
  unfold Map.hash
  rw [hh, hl]

/-- Inserting a key that is not present, on a table that is not
overloaded, places the entry at the first empty-or-deleted slot of its
probe sequence and preserves the invariant. -/
theorem insertNoExpand_new_spec {m : Map K V} (hInv : Inv m) {k : K} (v : V)
    (habs : ∀ (j : Nat) (e : Entry K V),
      m.slots[j]? = some (Slot.Occupied e) → e.key ≠ k)
    (hnov : ¬ m.overloaded) :
    ∃ m', insertNoExpand m k v = some (m', none) ∧ Inv m' ∧
      m'.count = m.count + 1 ∧ m'.slots.length = m.slots.length ∧
      m'.hasher = m.hasher ∧
      ∀ k' v', HasKV m' k' v' ↔ (k' = k ∧ v' = v) ∨ HasKV m k' v' := by
  have hlen : 0 < m.slots.length := hInv.len_pos
  have hlen64 := hInv.len_ge
  have hstart : m.hash k < m.slots.length := hash_lt hlen k
  have hnov' : 10 * m.count < 9 * m.slots.length := by
    unfold Map.overloaded at hnov; omega
  have hcnt : occCount m.slots < m.slots.length := by
    have h1 := hInv.count_eq
    omega
  obtain ⟨i, hfe⟩ : ∃ i, m.find_empty k = some i := by
    cases hfe0 : m.find_empty k with
    | some i => exact ⟨i, rfl⟩
    | none =>
      exfalso
      obtain ⟨j0, s0, hj0, hs0⟩ := occCount_lt_exists_nonOcc hcnt
      have hj0lt : j0 < m.slots.length := getElem?_some_lt hj0
      have hfe0' : findEmptyGo m.slots m.slots.length (m.hash k) = none := hfe0
      have hocc := findEmptyGo_none m.slots.length (m.hash k) hstart hfe0'
        (Cyclic.dist (m.hash k) j0 m.slots.length) (Cyclic.dist_lt hlen)
      rw [Cyclic.add_dist hstart hj0lt] at hocc
      obtain ⟨e0, he0⟩ := hocc
      rw [hj0] at he0
      injection he0 with he0'
      rw [he0'] at hs0
      simp [isOcc] at hs0
  have hfe' : findEmptyGo m.slots m.slots.length (m.hash k) = some i := hfe
  obtain ⟨d, hdfuel, hieq, hislot, hbefore⟩ :=
    findEmptyGo_some m.slots.length (m.hash k) i hstart hfe'
  have hilt : i < m.slots.length := by
    rw [hieq]; exact Nat.mod_lt _ hlen
  have hfi : m.find_index k = none := find_index_absent habs
  have hnonocc : ∀ e0 : Entry K V, m.slots[i]? ≠ some (Slot.Occupied e0) := by
    intro e0 h
    rcases hislot with h' | h' <;> rw [h'] at h <;> exact Slot.noConfusion
      (Option.some.inj h)
  refine ⟨{ m with slots := m.slots.set i (Slot.Occupied ⟨k, v⟩), count := m.count + 1 }, ?_, ?_, rfl, by simp, rfl, ?_⟩
  · simp only [insertNoExpand, hfi, hfe, Option.map_some']
  · have hhash : ∀ key,
        Map.hash { m with slots := m.slots.set i (Slot.Occupied ⟨k, v⟩), count := m.count + 1 } key = m.hash key := by
      intro key
      unfold Map.hash
      simp only [List.length_set]
    constructor
    case size => simpa using hInv.size
    case count_eq =>
      rcases hislot with h' | h'
      · have hoc := occCount_set h' (Slot.Occupied ⟨k, v⟩)
        simp [isOcc] at hoc
        simp only [hoc]
        have := hInv.count_eq
        omega
      · have hoc := occCount_set h' (Slot.Occupied ⟨k, v⟩)
        simp [isOcc] at hoc
        simp only [hoc]
        have := hInv.count_eq
        omega
    case count_lt =>
      simp only [List.length_set]
      omega
    case uniq =>
      intro i1 i2 e1 e2 h1 h2 hkeq
      simp only [] at h1 h2
      by_cases hi1 : i1 = i <;> by_cases hi2 : i2 = i
      · rw [hi1, hi2]
      · subst hi1
        rw [List.getElem?_set_self hilt] at h1
        injection h1 with h1'
        injection h1' with h1''
        rw [List.getElem?_set_ne (Ne.symm hi2)] at h2
        exfalso
        apply habs i2 e2 h2
        rw [← hkeq, ← h1'']
      · subst hi2
        rw [List.getElem?_set_self hilt] at h2
        injection h2 with h2'
        injection h2' with h2''
        rw [List.getElem?_set_ne (Ne.symm hi1)] at h1
        exfalso
        apply habs i1 e1 h1
        rw [hkeq, ← h2'']
      · rw [List.getElem?_set_ne (Ne.symm hi1)] at h1
        rw [List.getElem?_set_ne (Ne.symm hi2)] at h2
        exact hInv.uniq i1 i2 e1 e2 h1 h2 hkeq
    case probe =>
      intro j' e' hj' dd hdd
      simp only [hhash, List.length_set] at hdd ⊢
      simp only [] at hj'
      by_cases hji : j' = i
      · rw [hji] at hj' hdd
        rw [List.getElem?_set_self hilt] at hj'
        injection hj' with h1
        injection h1 with h2
        have hke : e'.key = k := by rw [← h2]
        rw [hke] at hdd ⊢
        have hdlen : d < m.slots.length := hdfuel
        have hdist : Cyclic.dist (m.hash k) i m.slots.length = d := by
          rw [hieq]
          exact Cyclic.dist_add hstart hdlen
        rw [hdist] at hdd
        obtain ⟨e0, he0⟩ := hbefore dd hdd
        have hne : (m.hash k + dd) % m.slots.length ≠ i := by
          intro hcontra
          have : dd = d := by
            apply Cyclic.add_inj hstart (by omega) hdlen
            rw [hcontra, hieq]
          omega
        rw [List.getElem?_set_ne (Ne.symm hne), he0]
        intro hcontra
        exact Slot.noConfusion (Option.some.inj hcontra)
      · rw [List.getElem?_set_ne (Ne.symm hji)] at hj'
        by_cases hpos : (m.hash e'.key + dd) % m.slots.length = i
        · rw [hpos, List.getElem?_set_self hilt]
          intro hcontra
          exact Slot.noConfusion (Option.some.inj hcontra)
        · rw [List.getElem?_set_ne (Ne.symm hpos)]
          exact hInv.probe j' e' hj' dd hdd
  · intro k' v'
    constructor
    · rintro ⟨j', e', hj', hk', hv'⟩
      simp only [] at hj'
      by_cases hji : j' = i
      · rw [hji] at hj'
        rw [List.getElem?_set_self hilt] at hj'
        injection hj' with h1
        injection h1 with h2
        left
        rw [← h2] at hk' hv'
        exact ⟨hk'.symm, hv'.symm⟩
      · rw [List.getElem?_set_ne (Ne.symm hji)] at hj'
        right
        exact ⟨j', e', hj', hk', hv'⟩
    · rintro (⟨rfl, rfl⟩ | ⟨j', e', hj', hk', hv'⟩)
      · exact ⟨i, ⟨k', v'⟩, by
          simp only []
          rw [List.getElem?_set_self hilt], rfl, rfl⟩
      · have hji : j' ≠ i := by
          intro h
          subst h
          exact hnonocc e' hj'
        exact ⟨j', e', by
          simp only []
          rw [List.getElem?_set_ne (Ne.symm hji)]
          exact hj', hk', hv'⟩

/-- Replacing the value of a present key in place preserves the
invariant; the key component of the entry is left untouched. -/
theorem replace_spec {m : Map K V} (hInv : Inv m) {k : K} {i : Nat}
    (hfi : m.find_index k = some i) (v : V) :
    ∃ (e : Entry K V),
      m.slots[i]? = some (Slot.Occupied e) ∧ e.key = k ∧
      (Inv { m with slots := m.slots.set i (Slot.Occupied ⟨e.key, v⟩) } ∧
       ∀ k' v',
         HasKV { m with slots := m.slots.set i (Slot.Occupied ⟨e.key, v⟩) } k' v'
           ↔ (k' = k ∧ v' = v) ∨ (k' ≠ k ∧ HasKV m k' v')) := by
  obtain ⟨e, he, hek⟩ := findIndexGo_sound _ _ _ hfi
  have hilt : i < m.slots.length := getElem?_some_lt he
  have hhash : ∀ key,
      Map.hash { m with slots := m.slots.set i (Slot.Occupied ⟨e.key, v⟩) } key
        = m.hash key := by
    intro key
    unfold Map.hash
    simp only [List.length_set]
  refine ⟨e, he, hek, ?_, ?_⟩
  · constructor
    case size => simpa using hInv.size
    case count_eq =>
      have hoc := occCount_set he (Slot.Occupied ⟨e.key, v⟩)
      have hpos := occCount_pos he
      simp [isOcc] at hoc
      simp only [hoc]
      have := hInv.count_eq
      omega
    case count_lt =>
      simp only [List.length_set]
      exact hInv.count_lt
    case uniq =>
      intro i1 i2 e1 e2 h1 h2 hkeq
      simp only [] at h1 h2
      by_cases hi1 : i1 = i <;> by_cases hi2 : i2 = i
      · rw [hi1, hi2]
      · rw [hi1] at h1 ⊢
        rw [List.getElem?_set_self hilt] at h1
        injection h1 with h1'
        injection h1' with h1''
        rw [List.getElem?_set_ne (Ne.symm hi2)] at h2
        exact (hInv.uniq i i2 e e2 he h2 (by rw [← hkeq, ← h1''])).symm.symm
      · rw [hi2] at h2 ⊢
        rw [List.getElem?_set_self hilt] at h2
        injection h2 with h2'
        injection h2' with h2''
        rw [List.getElem?_set_ne (Ne.symm hi1)] at h1
        exact hInv.uniq i1 i e1 e h1 he (by rw [hkeq, ← h2''])
      · rw [List.getElem?_set_ne (Ne.symm hi1)] at h1
        rw [List.getElem?_set_ne (Ne.symm hi2)] at h2
        exact hInv.uniq i1 i2 e1 e2 h1 h2 hkeq
    case probe =>
      intro j' e' hj' dd hdd
      simp only [hhash, List.length_set] at hdd ⊢
      simp only [] at hj'
      have hgoal : ∀ (key' : K), m.slots[(m.hash key' + dd) % m.slots.length]?
          ≠ some Slot.Empty →
          (m.slots.set i (Slot.Occupied ⟨e.key, v⟩))[(m.hash key' + dd) %
            m.slots.length]? ≠ some Slot.Empty := by
        intro key' hold
        by_cases hpos : (m.hash key' + dd) % m.slots.length = i
        · rw [hpos, List.getElem?_set_self hilt]
          intro hcontra
          exact Slot.noConfusion (Option.some.inj hcontra)
        · rw [List.getElem?_set_ne (Ne.symm hpos)]
          exact hold
      by_cases hji : j' = i
      · rw [hji] at hj' hdd
        rw [List.getElem?_set_self hilt] at hj'
        injection hj' with h1
        injection h1 with h2
        have hke : e'.key = e.key := by rw [← h2]
        rw [hke] at hdd ⊢
        exact hgoal e.key (hInv.probe i e he dd hdd)
      · rw [List.getElem?_set_ne (Ne.symm hji)] at hj'
        exact hgoal e'.key (hInv.probe j' e' hj' dd hdd)
  · intro k' v'
    constructor
    · rintro ⟨j', e', hj', hk', hv'⟩
      simp only [] at hj'
      by_cases hji : j' = i
      · rw [hji] at hj'
        rw [List.getElem?_set_self hilt] at hj'
        injection hj' with h1
        injection h1 with h2
        left
        rw [← h2] at hk' hv'
        exact ⟨by rw [← hk', hek], hv'.symm⟩
      · rw [List.getElem?_set_ne (Ne.symm hji)] at hj'
        right
        refine ⟨?_, j', e', hj', hk', hv'⟩
        intro hkk
        exact hji (hInv.uniq j' i e' e hj' he (by rw [hk', hkk, hek]))
    · rintro (⟨rfl, rfl⟩ | ⟨hne, j', e', hj', hk', hv'⟩)
      · exact ⟨i, ⟨e.key, v'⟩, by
          simp only []
          rw [List.getElem?_set_self hilt], hek, rfl⟩
      · have hji : j' ≠ i := by
          intro h
          rw [h, he] at hj'
          injection hj' with h1
          injection h1 with h2
          rw [← h2] at hk'
          exact hne (by rw [← hk', hek])
        exact ⟨j', e', by
          simp only []
          rw [List.getElem?_set_ne (Ne.symm hji)]
          exact hj', hk', hv'⟩

/-- Deleting a present key tombstones its slot and preserves the
invariant. -/
theorem delete_found_spec {m : Map K V} (hInv : Inv m) {k : K} {i : Nat}
    (hfi : m.find_index k = some i) :
    ∃ (e : Entry K V),
      m.slots[i]? = some (Slot.Occupied e) ∧ e.key = k ∧ 1 ≤ m.count ∧
      m.delete k = some
        ({ m with slots := m.slots.set i Slot.Deleted, count := m.count - 1 },
          some e.value) ∧
      (Inv { m with slots := m.slots.set i Slot.Deleted, count := m.count - 1 } ∧
       ∀ k' v',
         HasKV { m with slots := m.slots.set i Slot.Deleted, count := m.count - 1 } k' v'
           ↔ (HasKV m k' v' ∧ k' ≠ k)) := by
  obtain ⟨e, he, hek⟩ := findIndexGo_sound _ _ _ hfi
  have hilt : i < m.slots.length := getElem?_some_lt he
  have hcpos : 1 ≤ m.count := by
    have := occCount_pos he
    have := hInv.count_eq
    omega
  have hhash : ∀ key,
      Map.hash { m with slots := m.slots.set i Slot.Deleted, count := m.count - 1 } key = m.hash key := by
    intro key
    unfold Map.hash
    simp only [List.length_set]
  refine ⟨e, he, hek, hcpos, ?_, ?_, ?_⟩
  · simp only [Map.delete, hfi, he]
  · constructor
    case size => simpa using hInv.size
    case count_eq =>
      have hoc := occCount_set he Slot.Deleted
      simp [isOcc] at hoc
      simp only [hoc]
      have := hInv.count_eq
      omega
    case count_lt =>
      simp only [List.length_set]
      have := hInv.count_lt
      omega
    case uniq =>
      intro i1 i2 e1 e2 h1 h2 hkeq
      simp only [] at h1 h2
      by_cases hi1 : i1 = i
      · rw [hi1, List.getElem?_set_self hilt] at h1
        exact absurd (Option.some.inj h1) (fun h => Slot.noConfusion h)
      · by_cases hi2 : i2 = i
        · rw [hi2, List.getElem?_set_self hilt] at h2
          exact absurd (Option.some.inj h2) (fun h => Slot.noConfusion h)
        · rw [List.getElem?_set_ne (Ne.symm hi1)] at h1
          rw [List.getElem?_set_ne (Ne.symm hi2)] at h2
          exact hInv.uniq i1 i2 e1 e2 h1 h2 hkeq
    case probe =>
      intro j' e' hj' dd hdd
      simp only [hhash, List.length_set] at hdd ⊢
      simp only [] at hj'
      by_cases hji : j' = i
      · rw [hji, List.getElem?_set_self hilt] at hj'
        exact absurd (Option.some.inj hj') (fun h => Slot.noConfusion h)
      · rw [List.getElem?_set_ne (Ne.symm hji)] at hj'
        by_cases hpos : (m.hash e'.key + dd) % m.slots.length = i
        · rw [hpos, List.getElem?_set_self hilt]
          intro hcontra
          exact Slot.noConfusion (Option.some.inj hcontra)
        · rw [List.getElem?_set_ne (Ne.symm hpos)]
          exact hInv.probe j' e' hj' dd hdd
  · intro k' v'
    constructor
    · rintro ⟨j', e', hj', hk', hv'⟩
      simp only [] at hj'
      by_cases hji : j' = i
      · rw [hji, List.getElem?_set_self hilt] at hj'
        exact absurd (Option.some.inj hj') (fun h => Slot.noConfusion h)
      · rw [List.getElem?_set_ne (Ne.symm hji)] at hj'
        refine ⟨⟨j', e', hj', hk', hv'⟩, ?_⟩
        intro hkk
        exact hji (hInv.uniq j' i e' e hj' he (by rw [hk', hkk, hek]))
    · rintro ⟨⟨j', e', hj', hk', hv'⟩, hne⟩
      have hji : j' ≠ i := by
        intro h
        rw [h, he] at hj'
        injection hj' with h1
        injection h1 with h2
        rw [← h2] at hk'
        exact hne (by rw [← hk', hek])
      exact ⟨j', e', by
        simp only []
        rw [List.getElem?_set_ne (Ne.symm hji)]
        exact hj', hk', hv'⟩

theorem occCount_cons_occ (e : Entry K V) (t : List (Slot (Entry K V))) :
    occCount (Slot.Occupied e :: t) = occCount t + 1 := by
  simp [occCount, List.countP_cons, isOcc]

theorem occCount_cons_nonocc {c : Slot (Entry K V)} (h : isOcc c = false)
    (t : List (Slot (Entry K V))) : occCount (c :: t) = occCount t := by
  simp [occCount, List.countP_cons, h]

theorem occCount_nil : occCount ([] : List (Slot (Entry K V))) = 0 := rfl

theorem pairwise_of_uniq {slots : List (Slot (Entry K V))}
    (huniq : ∀ (i1 i2 : Nat) (e1 e2 : Entry K V),
      slots[i1]? = some (Slot.Occupied e1) →
      slots[i2]? = some (Slot.Occupied e2) →
      e1.key = e2.key → i1 = i2) : slots.Pairwise KeysOk := by
  induction slots with
  | nil => exact List.Pairwise.nil
  | cons c t ih =>
    constructor
    · intro s hs e1 e2 hc hsOcc hkeq
      subst hc
      subst hsOcc
      obtain ⟨j, hj⟩ := List.mem_iff_getElem?.mp hs
      have h0 : (Slot.Occupied e1 :: t)[0]? = some (Slot.Occupied e1) := by
        simp
      have hj1 : (Slot.Occupied e1 :: t)[j + 1]? =
          some (Slot.Occupied e2) := by simpa using hj
      exact absurd (huniq 0 (j + 1) e1 e2 h0 hj1 hkeq) (by omega)
    · apply ih
      intro i1 i2 e1 e2 h1 h2 hkeq
      have := huniq (i1 + 1) (i2 + 1) e1 e2 (by simpa using h1)
        (by simpa using h2) hkeq
      omega

/-- The rehash loop of `expand`: starting from a table whose keys are
disjoint from the occupied entries of `l` (which are pairwise distinct),
folding `refillStep` inserts them all, leaving room at every step. -/
theorem refill_spec :
    ∀ (l : List (Slot (Entry K V))) (m : Map K V), Inv m →
      (∀ s ∈ l, ∀ (e : Entry K V), s = Slot.Occupied e → ¬ HasKey m e.key) →
      l.Pairwise KeysOk →
      10 * (m.count + occCount l) ≤ 9 * m.slots.length + 9 →
      ∃ m', l.foldl refillStep (some m) = some m' ∧ Inv m' ∧
        m'.count = m.count + occCount l ∧
        m'.slots.length = m.slots.length ∧ m'.hasher = m.hasher ∧
        ∀ k v, HasKV m' k v ↔ (HasKV m k v ∨
          ∃ e : Entry K V, Slot.Occupied e ∈ l ∧ e.key = k ∧ e.value = v) := by
  intro l
  induction l with
  | nil =>
    intro m hInv _ _ _
    refine ⟨m, rfl, hInv, by simp [occCount_nil], rfl, rfl, ?_⟩
    intro k v
    simp
  | cons c t ih =>
    intro m hInv hdisj hpair hcap
    obtain ⟨hphead, hptail⟩ := List.pairwise_cons.mp hpair
    cases c with
    | Empty =>
      have hocc : occCount (Slot.Empty :: t) = occCount t := by
        simp [occCount, List.countP_cons, isOcc]
      rw [hocc] at hcap
      obtain ⟨m', hfold, hInv', hc', hl', hh', hiff'⟩ := ih m hInv
        (fun s hs => hdisj s (List.mem_cons_of_mem _ hs)) hptail hcap
      refine ⟨m', by simpa [refillStep] using hfold, hInv',
        by rw [hocc]; exact hc', hl', hh', ?_⟩
      intro k v
      rw [hiff' k v]
      constructor
      · rintro (h | ⟨e, he, hk, hv⟩)
        · exact Or.inl h
        · exact Or.inr ⟨e, List.mem_cons_of_mem _ he, hk, hv⟩
      · rintro (h | ⟨e, he, hk, hv⟩)
        · exact Or.inl h
        · rcases List.mem_cons.mp he with h' | h'
          · exact absurd h' (by intro hc; exact Slot.noConfusion hc)
          · exact Or.inr ⟨e, h', hk, hv⟩
    | Deleted =>
      have hocc : occCount (Slot.Deleted :: t) = occCount t := by
        simp [occCount, List.countP_cons, isOcc]
      rw [hocc] at hcap
      obtain ⟨m', hfold, hInv', hc', hl', hh', hiff'⟩ := ih m hInv
        (fun s hs => hdisj s (List.mem_cons_of_mem _ hs)) hptail hcap
      refine ⟨m', by simpa [refillStep] using hfold, hInv',
        by rw [hocc]; exact hc', hl', hh', ?_⟩
      intro k v
      rw [hiff' k v]
      constructor
      · rintro (h | ⟨e, he, hk, hv⟩)
        · exact Or.inl h
        · exact Or.inr ⟨e, List.mem_cons_of_mem _ he, hk, hv⟩
      · rintro (h | ⟨e, he, hk, hv⟩)
        · exact Or.inl h
        · rcases List.mem_cons.mp he with h' | h'
          · exact absurd h' (by intro hc; exact Slot.noConfusion hc)
          · exact Or.inr ⟨e, h', hk, hv⟩
    | Occupied e =>
      have hocc : occCount (Slot.Occupied e :: t) = occCount t + 1 :=
        occCount_cons_occ e t
      rw [hocc] at hcap
      have hnov : ¬ m.overloaded := by
        unfold Map.overloaded
        omega
      have habs : ∀ (j : Nat) (e' : Entry K V),
          m.slots[j]? = some (Slot.Occupied e') → e'.key ≠ e.key := by
        intro j e' hj hkeq
        exact hdisj _ (List.mem_cons_self _ _) e rfl
          ⟨e'.value, j, e', hj, hkeq, rfl⟩
      obtain ⟨m1, hins, hInv1, hcount1, hlen1, hhash1, hiff1⟩ :=
        insertNoExpand_new_spec hInv e.value habs hnov
      have hdisj1 : ∀ s ∈ t, ∀ (e'' : Entry K V), s = Slot.Occupied e'' →
          ¬ HasKey m1 e''.key := by
        rintro s hs e'' hse ⟨v', hkv⟩
        rcases (hiff1 e''.key v').mp hkv with ⟨hk, _⟩ | h
        · exact hphead s hs e e'' rfl hse (by rw [hk])
        · exact hdisj s (List.mem_cons_of_mem _ hs) e'' hse ⟨v', h⟩
      have hcap1 : 10 * (m1.count + occCount t) ≤ 9 * m1.slots.length + 9 := by
        rw [hcount1, hlen1]
        omega
      obtain ⟨m', hfold, hInv', hc', hl', hh', hiff'⟩ :=
        ih m1 hInv1 hdisj1 hptail hcap1
      refine ⟨m', ?_, hInv', ?_, ?_, ?_, ?_⟩
      · rw [List.foldl_cons]
        have hstep : refillStep (some m) (Slot.Occupied e) = some m1 := by
          simp only [refillStep, Option.some_bind, hins, Option.map_some']
        rw [hstep]
        exact hfold
      · rw [hc', hcount1, hocc]
        omega
      · rw [hl', hlen1]
      · rw [hh', hhash1]
      · intro k v
        rw [hiff' k v]
        constructor
        · rintro (h | ⟨e'', he'', hk, hv⟩)
          · rcases (hiff1 k v).mp h with ⟨hk, hv⟩ | h'
            · exact Or.inr ⟨e, List.mem_cons_self _ _, hk.symm, hv.symm⟩
            · exact Or.inl h'
          · exact Or.inr ⟨e'', List.mem_cons_of_mem _ he'', hk, hv⟩
        · rintro (h | ⟨e'', he'', hk, hv⟩)
          · exact Or.inl ((hiff1 k v).mpr (Or.inr h))
          · rcases List.mem_cons.mp he'' with h' | h'
            · have he2 : e'' = e := by
                injection h'
              subst he2
              exact Or.inl ((hiff1 k v).mpr (Or.inl ⟨hk.symm, hv.symm⟩))
            · exact Or.inr ⟨e'', h', hk, hv⟩

theorem replicate_no_occ {n : Nat} :
    ∀ (i : Nat) (e : Entry K V),
      (List.replicate n Slot.Empty)[i]? ≠ some (Slot.Occupied e) := by
  intro i e h
  rw [List.getElem?_replicate] at h
  split_ifs at h
  exact Slot.noConfusion (Option.some.inj h)

/-- `Map::new` satisfies the representation invariant. -/
theorem Inv_new (h : K → Nat) : Inv (Map.new (V := V) h) := by
  constructor
  case size => exact ⟨0, by simp [Map.new, INITIAL_SIZE]⟩
  case count_eq =>
    simp only [Map.new]
    symm
    rw [occCount]
    rw [List.countP_eq_zero]
    intro a ha
    rw [List.eq_of_mem_replicate ha]
    simp [isOcc]
  case count_lt => simp [Map.new, INITIAL_SIZE]
  case uniq =>
    intro i1 i2 e1 e2 h1 h2 _
    exact absurd h1 (replicate_no_occ i1 e1)
  case probe =>
    intro j e hj
    exact absurd hj (replicate_no_occ j e)

/-- `Map::expand` never panics on a valid table, keeps its contents, and
doubles the capacity exactly when the table was overloaded. -/
theorem expand_spec {m : Map K V} (hInv : Inv m) :
    ∃ m', m.expand = some m' ∧ Inv m' ∧ m'.count = m.count ∧
      m'.hasher = m.hasher ∧
      m'.slots.length =
        (if m.overloaded then 2 * m.slots.length else m.slots.length) ∧
      10 * m'.count < 9 * m'.slots.length ∧
      ∀ k v, HasKV m' k v ↔ HasKV m k v := by
  by_cases hov : m.overloaded
  · have hlen : 0 < m.slots.length := hInv.len_pos
    have hfreshInv : Inv ({ slots := List.replicate (m.slots.length * EXPANSION_FACTOR) Slot.Empty, count := 0, hasher := m.hasher } : Map K V) := by
      constructor
      case size =>
        obtain ⟨t, ht⟩ := hInv.size
        exact ⟨t + 1, by simp [ht, EXPANSION_FACTOR]; ring⟩
      case count_eq =>
        symm
        rw [occCount, List.countP_eq_zero]
        intro a ha
        rw [List.eq_of_mem_replicate ha]
        simp [isOcc]
      case count_lt => simp [EXPANSION_FACTOR]; omega
      case uniq =>
        intro i1 i2 e1 e2 h1 h2 _
        exact absurd h1 (replicate_no_occ i1 e1)
      case probe =>
        intro j e hj
        exact absurd hj (replicate_no_occ j e)
    have hdisj : ∀ s ∈ m.slots, ∀ (e : Entry K V), s = Slot.Occupied e →
        ¬ HasKey ({ slots := List.replicate (m.slots.length * EXPANSION_FACTOR) Slot.Empty, count := 0, hasher := m.hasher } : Map K V) e.key := by
      rintro s _ e _ ⟨v', j, e', hj, _, _⟩
      exact absurd hj (replicate_no_occ j e')
    have hcap : 10 * (0 + occCount m.slots) ≤
        9 * (List.replicate (m.slots.length * EXPANSION_FACTOR)
          (Slot.Empty : Slot (Entry K V))).length + 9 := by
      have h1 := hInv.count_eq
      have h2 := hInv.count_lt
      simp [EXPANSION_FACTOR]
      omega
    obtain ⟨m', hfold, hInv', hc', hl', hh', hiff'⟩ :=
      refill_spec m.slots _ hfreshInv hdisj (pairwise_of_uniq hInv.uniq) hcap
    refine ⟨m', ?_, hInv', ?_, hh', ?_, ?_, ?_⟩
    · rw [Map.expand, if_neg (not_not_intro hov)]
      exact hfold
    · rw [hc', hInv.count_eq]
      simp
    · rw [if_pos hov, hl']
      simp [EXPANSION_FACTOR]
      ring
    · have h2 := hInv.count_lt
      have hc'' : m'.count = m.count := by
        rw [hc', hInv.count_eq]; simp
      rw [hc'', hl']
      simp [EXPANSION_FACTOR]
      omega
    · intro k v
      rw [hiff' k v]
      constructor
      · rintro (⟨j, e', hj, _, _⟩ | ⟨e, hmem, hk, hv⟩)
        · exact absurd hj (replicate_no_occ j e')
        · obtain ⟨j, hj⟩ := List.mem_iff_getElem?.mp hmem
          exact ⟨j, e, hj, hk, hv⟩
      · rintro ⟨j, e, hj, hk, hv⟩
        exact Or.inr ⟨e, List.mem_iff_getElem?.mpr ⟨j, hj⟩, hk, hv⟩
  · refine ⟨m, ?_, hInv, rfl, rfl, by rw [if_neg hov], ?_, fun k v => Iff.rfl⟩
    · rw [Map.expand, if_pos hov]
    · unfold Map.overloaded at hov
      omega

/-- `k` is absent (in index form). -/
theorem absent_of_not_haskey {m : Map K V} {k : K} (h : ¬ HasKey m k) :
    ∀ (j : Nat) (e : Entry K V),
      m.slots[j]? = some (Slot.Occupied e) → e.key ≠ k := by
  intro j e hj hkeq
  exact h ⟨e.value, j, e, hj, hkeq, rfl⟩

/-- Inserting an absent key: the result has the key, the count grows by
one, and the capacity doubles exactly when the pre-insert load factor had
reached 0.9 (the growth check runs before the new entry is placed). -/
theorem insert_absent_spec {m : Map K V} (hInv : Inv m) {k : K} (v : V)
    (habs0 : ¬ HasKey m k) :
    ∃ m₁, m.insert k v = some (m₁, none) ∧ Inv m₁ ∧
      m₁.count = m.count + 1 ∧
      m₁.slots.length =
        (if m.overloaded then 2 * m.slots.length else m.slots.length) ∧
      m₁.hasher = m.hasher ∧
      ∀ k' v', HasKV m₁ k' v' ↔ (k' = k ∧ v' = v) ∨ HasKV m k' v' := by
  have habs := absent_of_not_haskey habs0
  have hfi : m.find_index k = none := find_index_absent habs
  obtain ⟨mx, hexp, hInvx, hcx, hhx, hlx, hnovx, hiffx⟩ := expand_spec hInv
  have habsx : ∀ (j : Nat) (e' : Entry K V),
      mx.slots[j]? = some (Slot.Occupied e') → e'.key ≠ k := by
    intro j e' hj hkeq
    have : HasKV m e'.key e'.value :=
      (hiffx e'.key e'.value).mp ⟨j, e', hj, rfl, rfl⟩
    exact habs0 ⟨e'.value, by rw [← hkeq]; exact this⟩
  have hnovx' : ¬ mx.overloaded := by
    unfold Map.overloaded
    omega
  obtain ⟨m₁, hins, hInv1, hc1, hl1, hh1, hiff1⟩ :=
    insertNoExpand_new_spec hInvx v habsx hnovx'
  have hfix : mx.find_index k = none := find_index_absent habsx
  refine ⟨m₁, ?_, hInv1, by omega, by rw [hl1, hlx], by rw [hh1, hhx], ?_⟩
  · simp only [Map.insert, hfi, hexp, Option.some_bind]
    have hcalc : insertNoExpand mx k v = (mx.find_empty k).map fun i =>
        ({ mx with slots := mx.slots.set i (Slot.Occupied ⟨k, v⟩), count := mx.count + 1 }, none) := by
      simp only [insertNoExpand, hfix]
    rw [← hcalc, hins]
  · intro k' v'
    rw [hiff1 k' v']
    constructor
    · rintro (⟨rfl, rfl⟩ | h)
      · exact Or.inl ⟨rfl, rfl⟩
      · exact Or.inr ((hiffx k' v').mp h)
    · rintro (⟨rfl, rfl⟩ | h)
      · exact Or.inl ⟨rfl, rfl⟩
      · exact Or.inr ((hiffx k' v').mpr h)

/-- Inserting a present key replaces the value in place: no growth, the
old value is returned, count and capacity are unchanged. -/
theorem insert_present_spec {m : Map K V} (hInv : Inv m) {k : K} {i : Nat}
    (hfi : m.find_index k = some i) (v : V) :
    ∃ (e : Entry K V) (m₁ : Map K V),
      m.slots[i]? = some (Slot.Occupied e) ∧ e.key = k ∧
      m.insert k v = some (m₁, some e.value) ∧ Inv m₁ ∧
      m₁.count = m.count ∧ m₁.slots.length = m.slots.length ∧
      m₁.hasher = m.hasher ∧
      ∀ k' v', HasKV m₁ k' v' ↔ (k' = k ∧ v' = v) ∨ (k' ≠ k ∧ HasKV m k' v') := by
  obtain ⟨e, he, hek, hInv', hiff⟩ := replace_spec hInv hfi v
  refine ⟨e, _, he, hek, ?_, hInv', rfl, by simp, rfl, hiff⟩
  simp only [Map.insert, hfi, he]

/-- Uniform insert specification (either branch). -/
theorem insert_spec {m : Map K V} (hInv : Inv m) (k : K) (v : V) :
    ∃ m₁ old, m.insert k v = some (m₁, old) ∧ Inv m₁ ∧
      m₁.hasher = m.hasher ∧
      ∀ k' v', HasKV m₁ k' v' ↔ (k' = k ∧ v' = v) ∨ (k' ≠ k ∧ HasKV m k' v') := by
  cases hfi : m.find_index k with
  | some i =>
    obtain ⟨e, m₁, he, hek, heq, hInv', _, _, hh, hiff⟩ :=
      insert_present_spec hInv hfi v
    exact ⟨m₁, some e.value, heq, hInv', hh, hiff⟩
  | none =>
    have habs0 : ¬ HasKey m k := find_index_none_not_haskey hInv hfi
    obtain ⟨m₁, heq, hInv', _, _, hh, hiff⟩ := insert_absent_spec hInv v habs0
    refine ⟨m₁, none, heq, hInv', hh, ?_⟩
    intro k' v'
    rw [hiff k' v']
    constructor
    · rintro (⟨rfl, rfl⟩ | h)
      · exact Or.inl ⟨rfl, rfl⟩
      · refine Or.inr ⟨?_, h⟩
        rintro rfl
        exact habs0 ⟨v', h⟩
    · rintro (⟨rfl, rfl⟩ | ⟨_, h⟩)
      · exact Or.inl ⟨rfl, rfl⟩
      · exact Or.inr h

/-- Uniform delete specification (either branch). -/
theorem delete_spec {m : Map K V} (hInv : Inv m) (k : K) :
    ∃ m₁ old, m.delete k = some (m₁, old) ∧ Inv m₁ ∧
      m₁.hasher = m.hasher ∧
      ∀ k' v', HasKV m₁ k' v' ↔ (HasKV m k' v' ∧ k' ≠ k) := by
  cases hfi : m.find_index k with
  | none =>
    refine ⟨m, none, by simp only [Map.delete, hfi], hInv, rfl, ?_⟩
    intro k' v'
    constructor
    · intro h
      refine ⟨h, ?_⟩
      rintro rfl
      exact find_index_none_not_haskey hInv hfi ⟨v', h⟩
    · exact fun h => h.1
  | some i =>
    obtain ⟨e, he, hek, hcpos, heq, hInv', hiff⟩ := delete_found_spec hInv hfi
    exact ⟨_, some e.value, heq, hInv', rfl, hiff⟩

theorem step_spec {m : Map K V} (hInv : Inv m) (op : Op K V) :
    ∃ m₁, m.step op = some m₁ ∧ Inv m₁ := by
  cases op with
  | ins k v =>
    obtain ⟨m₁, old, heq, hInv', _, _⟩ := insert_spec hInv k v
    exact ⟨m₁, by simp [Map.step, heq], hInv'⟩
  | del k =>
    obtain ⟨m₁, old, heq, hInv', _, _⟩ := delete_spec hInv k
    exact ⟨m₁, by simp [Map.step, heq], hInv'⟩

theorem step_Inv {m m₁ : Map K V} (hInv : Inv m) {op : Op K V}
    (h : m.step op = some m₁) : Inv m₁ := by
  obtain ⟨m₂, h₂, hI⟩ := step_spec hInv op
  rw [h₂] at h
  cases h
  exact hI

theorem step_preserve_kv {m m₁ : Map K V} (hInv : Inv m) {k : K} {v : V}
    (hkv : HasKV m k v) {op : Op K V} (hav : avoids op k)
    (h : m.step op = some m₁) : HasKV m₁ k v := by
  cases op with
  | ins k' v' =>
    obtain ⟨m₂, old, heq, hInv', _, hiff⟩ := insert_spec hInv k' v'
    have : m₁ = m₂ := by
      simp only [Map.step, heq, Option.map_some'] at h
      exact (Option.some.inj h).symm
    subst this
    exact (hiff k v).mpr (Or.inr ⟨Ne.symm hav, hkv⟩)
  | del k' =>
    obtain ⟨m₂, old, heq, hInv', _, hiff⟩ := delete_spec hInv k'
    have : m₁ = m₂ := by
      simp only [Map.step, heq, Option.map_some'] at h
      exact (Option.some.inj h).symm
    subst this
    exact (hiff k v).mpr ⟨hkv, Ne.symm hav⟩

theorem run_total {m : Map K V} (hInv : Inv m) (ops : List (Op K V)) :
    ∃ m', m.run ops = some m' ∧ Inv m' := by
  induction ops generalizing m with
  | nil => exact ⟨m, rfl, hInv⟩
  | cons op t ih =>
    obtain ⟨m₁, h₁, hInv₁⟩ := step_spec hInv op
    obtain ⟨m', h', hInv'⟩ := ih hInv₁
    refine ⟨m', ?_, hInv'⟩
    rw [Map.run, List.foldlM_cons, h₁]
    exact h'

theorem run_Inv {m m' : Map K V} (hInv : Inv m) {ops : List (Op K V)}
    (h : m.run ops = some m') : Inv m' := by
  induction ops generalizing m with
  | nil =>
    cases h
    exact hInv
  | cons op t ih =>
    rw [Map.run, List.foldlM_cons] at h
    cases hstep : m.step op with
    | none => rw [hstep] at h; exact Option.noConfusion h
    | some m₁ =>
      rw [hstep] at h
      exact ih (step_Inv hInv hstep) h

theorem run_preserve_kv {m m' : Map K V} (hInv : Inv m) {k : K} {v : V}
    (hkv : HasKV m k v) {ops : List (Op K V)}
    (hall : ∀ op ∈ ops, avoids op k)
    (h : m.run ops = some m') : HasKV m' k v := by
  induction ops generalizing m with
  | nil =>
    cases h
    exact hkv
  | cons op t ih =>
    rw [Map.run, List.foldlM_cons] at h
    cases hstep : m.step op with
    | none => rw [hstep] at h; exact Option.noConfusion h
    | some m₁ =>
      rw [hstep] at h
      exact ih (step_Inv hInv hstep)
        (step_preserve_kv hInv hkv (hall op (List.mem_cons_self _ _)) hstep)
        (fun o ho => hall o (List.mem_cons_of_mem _ ho)) h

theorem Reachable_Inv {m : Map K V} (h : Reachable m) : Inv m := by
  obtain ⟨hsh, ops, hrun⟩ := h
  exact run_Inv (Inv_new hsh) hrun

end Linear

namespace Swiss

variable {K V : Type} [DecidableEq K]

theorem findH2Go_mem {h2 : Nat} (hne : h2 ≠ Ctrl.SLOT_EMPTY) :
    ∀ (bytes : List Nat) (j p : Nat), bytes[p]? = some h2 →
      (∀ q < p, bytes[q]? ≠ some Ctrl.SLOT_EMPTY) →
      (j + p) ∈ (findH2Go h2 bytes j).1 := by
  intro bytes
  induction bytes with
  | nil => intro j p hp _; simp at hp
  | cons b rest ih =>
    intro j p hp hq
    cases p with
    | zero =>
      simp only [List.getElem?_cons_zero] at hp
      injection hp with hp'
      subst hp'
      have hgoal : (findH2Go b (b :: rest) j).1 =
          j :: (findH2Go b rest (j + 1)).1 := by
        rw [findH2Go, if_neg hne]
        simp
      rw [hgoal]
      simp
    | succ p' =>
      have h0 : b ≠ Ctrl.SLOT_EMPTY := by
        intro h
        exact hq 0 (by omega) (by simp [h])
      simp only [List.getElem?_cons_succ] at hp
      have hq' : ∀ q < p', rest[q]? ≠ some Ctrl.SLOT_EMPTY := by
        intro q hql
        have := hq (q + 1) (by omega)
        simpa using this
      have hmem := ih (j + 1) p' hp hq'
      have hshift : j + 1 + p' = j + (p' + 1) := by omega
      rw [hshift] at hmem
      by_cases hbh : b = h2
      · have hgoal : (findH2Go h2 (b :: rest) j).1 =
            j :: (findH2Go h2 rest (j + 1)).1 := by
          rw [findH2Go, if_neg h0]
          simp [hbh]
        rw [hgoal]
        exact List.mem_cons_of_mem _ hmem
      · have hgoal : (findH2Go h2 (b :: rest) j).1 =
            (findH2Go h2 rest (j + 1)).1 := by
          rw [findH2Go, if_neg h0]
          simp [hbh]
        rw [hgoal]
        exact hmem

theorem findH2Go_no_empty {h2 : Nat} :
    ∀ (bytes : List Nat) (j : Nat), Ctrl.SLOT_EMPTY ∉ bytes →
      (findH2Go h2 bytes j).2 = false := by
  intro bytes
  induction bytes with
  | nil => intro j _; rfl
  | cons b rest ih =>
    intro j hmem
    have hb : b ≠ Ctrl.SLOT_EMPTY := by
      intro h
      exact hmem (by rw [h]; exact List.mem_cons_self _ _)
    rw [findH2Go, if_neg hb]
    by_cases hbh : b = h2 <;> simp [hbh, ih (j + 1)
      (fun h => hmem (List.mem_cons_of_mem _ h))]

theorem scanCands_sound {m : Map K V} {k : K} {g : Nat} :
    ∀ (l : List Nat) (si : Nat), scanCands m k g l = some si →
      ∃ e, m.slots[si]? = some (some e) ∧ e.key = k := by
  intro l
  induction l with
  | nil => intro si h; simp [scanCands] at h
  | cons ci rest ih =>
    intro si h
    cases hs : m.slots[m.get_slot_index g ci]? with
    | none =>
      simp only [scanCands, hs] at h
      exact ih _ h
    | some s =>
      cases s with
      | none =>
        simp only [scanCands, hs] at h
        exact ih _ h
      | some e =>
        simp only [scanCands, hs] at h
        by_cases he : e.key = k
        · rw [if_pos he] at h
          cases h
          exact ⟨e, hs, he⟩
        · rw [if_neg he] at h
          exact ih _ h

theorem scanCands_none {m : Map K V} {k : K} {g : Nat} :
    ∀ (l : List Nat),
      (∀ ci ∈ l, ∀ (e : Entry K V),
        m.slots[m.get_slot_index g ci]? = some (some e) → e.key ≠ k) →
      scanCands m k g l = none := by
  intro l
  induction l with
  | nil => intro _; rfl
  | cons ci rest ih =>
    intro hno
    cases hs : m.slots[m.get_slot_index g ci]? with
    | none =>
      simp only [scanCands, hs]
      exact ih (fun ci' h' => hno ci' (List.mem_cons_of_mem _ h'))
    | some s =>
      cases s with
      | none =>
        simp only [scanCands, hs]
        exact ih (fun ci' h' => hno ci' (List.mem_cons_of_mem _ h'))
      | some e =>
        simp only [scanCands, hs]
        rw [if_neg (hno ci (List.mem_cons_self _ _) e hs)]
        exact ih (fun ci' h' => hno ci' (List.mem_cons_of_mem _ h'))

theorem scanCands_hit {m : Map K V} {k : K} {g p : Nat} {e : Entry K V}
    (hp : m.slots[m.get_slot_index g p]? = some (some e)) (hek : e.key = k)
    (huniq : ∀ ci, ∀ (e' : Entry K V),
      m.slots[m.get_slot_index g ci]? = some (some e') → e'.key = k →
      ci = p) :
    ∀ (l : List Nat), p ∈ l → scanCands m k g l = some (m.get_slot_index g p) := by
  intro l
  induction l with
  | nil => intro h; simp at h
  | cons ci rest ih =>
    intro hmem
    by_cases hcp : ci = p
    · subst hcp
      simp only [scanCands, hp, if_pos hek]
    · have hmem' : p ∈ rest := by
        rcases List.mem_cons.mp hmem with h | h
        · exact absurd h.symm hcp
        · exact h
      cases hs : m.slots[m.get_slot_index g ci]? with
      | none =>
        simp only [scanCands, hs]
        exact ih hmem'
      | some s =>
        cases s with
        | none =>
          simp only [scanCands, hs]
          exact ih hmem'
        | some e' =>
          simp only [scanCands, hs]
          have hne : e'.key ≠ k := fun h => hcp (huniq ci e' hs h)
          rw [if_neg hne]
          exact ih hmem'

theorem findEDGo_some :
    ∀ (bytes : List Nat) (j p : Nat), findEDGo bytes j = some p →
      ∃ q, p = j + q ∧
        (bytes[q]? = some Ctrl.SLOT_EMPTY ∨
         bytes[q]? = some Ctrl.SLOT_DELETED) ∧
        ∀ q' < q, bytes[q']? ≠ some Ctrl.SLOT_EMPTY ∧
          bytes[q']? ≠ some Ctrl.SLOT_DELETED := by
  intro bytes
  induction bytes with
  | nil => intro j p h; simp [findEDGo] at h
  | cons b rest ih =>
    intro j p h
    rw [findEDGo] at h
    by_cases hb : b = Ctrl.SLOT_EMPTY ∨ b = Ctrl.SLOT_DELETED
    · rw [if_pos hb] at h
      cases h
      refine ⟨0, by omega, ?_, by omega⟩
      rcases hb with hb | hb <;> simp [hb]
    · rw [if_neg hb] at h
      obtain ⟨q, hpq, hbyte, hbefore⟩ := ih (j + 1) p h
      push_neg at hb
      refine ⟨q + 1, by omega, by simpa using hbyte, ?_⟩
      intro q' hq'
      cases q' with
      | zero => simp [hb.1, hb.2]
      | succ q'' =>
        have := hbefore q'' (by omega)
        simpa using this

theorem findEDGo_none :
    ∀ (bytes : List Nat) (j : Nat), findEDGo bytes j = none →
      ∀ (q : Nat), bytes[q]? ≠ some Ctrl.SLOT_EMPTY ∧
        bytes[q]? ≠ some Ctrl.SLOT_DELETED := by
  intro bytes
  induction bytes with
  | nil => intro j _ q; simp
  | cons b rest ih =>
    intro j h q
    rw [findEDGo] at h
    by_cases hb : b = Ctrl.SLOT_EMPTY ∨ b = Ctrl.SLOT_DELETED
    · rw [if_pos hb] at h; exact Option.noConfusion h
    · rw [if_neg hb] at h
      push_neg at hb
      cases q with
      | zero => simp [hb.1, hb.2]
      | succ q' => simpa using ih (j + 1) h q'

theorem byteAtCtrl_eq {ctrl : List Ctrl} {g : Nat} {c : Ctrl}
    (hg : ctrl[g]? = some c) {q : Nat} (hq : q < GROUP_SIZE) :
    byteAtCtrl ctrl (g * GROUP_SIZE + q) = c.bytes[q]? := by
  unfold byteAtCtrl
  have h1 : (g * GROUP_SIZE + q) / GROUP_SIZE = g := by
    unfold GROUP_SIZE at hq ⊢
    omega
  have h2 : (g * GROUP_SIZE + q) % GROUP_SIZE = q := by
    unfold GROUP_SIZE at hq ⊢
    omega
  rw [h1, h2, hg, Option.some_bind]

theorem byteAt_eq {m : Map K V} {g : Nat} {c : Ctrl}
    (hg : m.ctrl[g]? = some c) {q : Nat} (hq : q < GROUP_SIZE) :
    m.byteAt (g * GROUP_SIZE + q) = c.bytes[q]? :=
  byteAtCtrl_eq hg hq

theorem countP_set {α : Type _} (p : α → Bool) :
    ∀ (l : List α) {i : Nat} {b : α}, l[i]? = some b → ∀ a,
      (l.set i a).countP p =
        l.countP p - (if p b then 1 else 0) + (if p a then 1 else 0) := by
  intro l
  induction l with
  | nil => intro i b hb; simp at hb
  | cons c t ih =>
    intro i b hb a
    cases i with
    | zero =>
      simp only [List.getElem?_cons_zero] at hb
      injection hb with hb'
      subst hb'
      simp only [List.set_cons_zero, List.countP_cons]
      split_ifs <;> omega
    | succ i' =>
      simp only [List.getElem?_cons_succ] at hb
      simp only [List.set_cons_succ, List.countP_cons]
      rw [ih hb a]
      have hbpos : p b = true → 1 ≤ t.countP p := by
        intro hob
        refine List.countP_pos.mpr ⟨b, ?_, hob⟩
        rw [List.mem_iff_getElem?]
        exact ⟨i', hb⟩
      split_ifs
      all_goals
        first
        | omega
        | (have hx := hbpos (by assumption); omega)

theorem liveCount_lt_exists_none {slots : List (Option (Entry K V))}
    (h : liveCount slots < slots.length) :
    ∃ (j : Nat), slots[j]? = some none := by
  by_contra hc
  push_neg at hc
  have : ∀ s ∈ slots, s.isSome := by
    intro s hs
    obtain ⟨j, hj⟩ := List.mem_iff_getElem?.mp hs
    cases s with
    | none => exact absurd hj (hc j)
    | some e => rfl
  have hlen : slots.countP (fun s : Option (Entry K V) => s.isSome) =
      slots.length := List.countP_eq_length.mpr this
  unfold liveCount at h
  omega

theorem liveCount_pos {slots : List (Option (Entry K V))} {j : Nat}
    {e : Entry K V} (h : slots[j]? = some (some e)) :
    1 ≤ liveCount slots := by
  have hmem : some e ∈ slots := by
    rw [List.mem_iff_getElem?]; exact ⟨j, h⟩
  exact List.countP_pos.mpr ⟨_, hmem, rfl⟩

theorem Inv.gc_pos {m : Map K V} (h : Inv m) : 0 < m.group_count := by
  obtain ⟨t, ht⟩ := h.size
  rw [ht]; positivity

theorem Inv.len_pos_sw {m : Map K V} (h : Inv m) : 0 < m.slots.length := by
  rw [h.slots_len]
  have := h.gc_pos
  unfold GROUP_SIZE
  omega

theorem Inv.len_ge_sw {m : Map K V} (h : Inv m) : 64 ≤ m.slots.length := by
  obtain ⟨t, ht⟩ := h.size
  rw [h.slots_len, ht]
  have : 1 ≤ 2 ^ t := Nat.one_le_two_pow
  unfold GROUP_SIZE
  omega

/-- `h2` is the low 7 bits of the digest. -/
theorem hash_h2_eq (m : Map K V) (k : K) :
    (m.hash k).2 = m.hasher k % U64 % 2 ^ 7 := by
  unfold Map.hash
  simp only []
  have h127 : (127 : Nat) = 2 ^ 7 - 1 := by norm_num
  rw [h127, Nat.and_pow_two_sub_one_eq_mod]
  have : m.hasher k % U64 % 2 ^ 8 % 2 ^ 7 = m.hasher k % U64 % 2 ^ 7 := by
    rw [Nat.mod_mod_of_dvd]
    norm_num
  exact this

theorem hash_h2_lt (m : Map K V) (k : K) : (m.hash k).2 < 128 := by
  rw [hash_h2_eq]
  have : (0 : Nat) < 2 ^ 7 := by norm_num
  have := Nat.mod_lt (m.hasher k % U64) this
  omega

/-- `h1` is the digest shifted right by 7 bits; the home group is its
remainder modulo the group count. -/
theorem hash_h1_eq (m : Map K V) (k : K) :
    (m.hash k).1 = m.hasher k % U64 / 2 ^ 7 % m.group_count := by
  unfold Map.hash
  simp only []
  rw [Nat.shiftRight_eq_div_pow]

theorem hash_g_lt {m : Map K V} (hgc : 0 < m.group_count) (k : K) :
    (m.hash k).1 < m.group_count := by
  rw [hash_h1_eq]
  exact Nat.mod_lt _ hgc

theorem findH2Go_mem_bound {h2 : Nat} :
    ∀ (bytes : List Nat) (j q : Nat), q ∈ (findH2Go h2 bytes j).1 →
      j ≤ q ∧ q < j + bytes.length := by
  intro bytes
  induction bytes with
  | nil => intro j q h; simp [findH2Go] at h
  | cons b rest ih =>
    intro j q h
    rw [findH2Go] at h
    by_cases hb : b = Ctrl.SLOT_EMPTY
    · rw [if_pos hb] at h
      simp at h
    · rw [if_neg hb] at h
      simp only [] at h
      by_cases hbh : b = h2
      · rw [if_pos hbh] at h
        rcases List.mem_cons.mp h with h' | h'
        · subst h'
          simp
        · have := ih (j + 1) q h'
          simp only [List.length_cons]
          omega
      · rw [if_neg hbh] at h
        have := ih (j + 1) q h
        simp only [List.length_cons]
        omega

theorem no_empty_of_clear {c : Ctrl} (hb8 : c.bytes.length = GROUP_SIZE)
    (h : ∀ q < GROUP_SIZE, c.bytes[q]? ≠ some Ctrl.SLOT_EMPTY) :
    Ctrl.SLOT_EMPTY ∉ c.bytes := by
  intro hmem
  obtain ⟨q, hq⟩ := List.mem_iff_getElem?.mp hmem
  have hqlt : q < GROUP_SIZE := by
    rw [← hb8]; exact Linear.getElem?_some_lt hq
  exact h q hqlt hq

theorem findSlotGo_sound {m : Map K V} {k : K} {h2 : Nat} :
    ∀ (fuel i si : Nat), findSlotGo m k h2 fuel i = some si →
      ∃ e, m.slots[si]? = some (some e) ∧ e.key = k := by
  intro fuel
  induction fuel with
  | zero => intro i si h; simp [findSlotGo] at h
  | succ n ih =>
    intro i si h
    cases hc : m.ctrl[i]? with
    | none =>
      simp only [findSlotGo, hc] at h
      exact Option.noConfusion h
    | some c =>
      simp only [findSlotGo, hc] at h
      cases hsc : scanCands m k i (c.find_h2 h2).1 with
      | some si' =>
        rw [hsc] at h
        cases h
        exact scanCands_sound _ _ hsc
      | none =>
        rw [hsc] at h
        cases hfe : (c.find_h2 h2).2 with
        | true => rw [hfe] at h; simp at h
        | false =>
          rw [hfe] at h
          simp only [Bool.false_eq_true, if_false] at h
          exact ih _ _ h

theorem findSlotGo_absent {m : Map K V} {k : K} {h2 : Nat}
    (habs : ∀ (si : Nat) (e : Entry K V),
      m.slots[si]? = some (some e) → e.key ≠ k) :
    ∀ (fuel i : Nat), findSlotGo m k h2 fuel i = none := by
  intro fuel
  induction fuel with
  | zero => intro i; rfl
  | succ n ih =>
    intro i
    cases hc : m.ctrl[i]? with
    | none => simp only [findSlotGo, hc]
    | some c =>
      have hsc : scanCands m k i (c.find_h2 h2).1 = none :=
        scanCands_none _ (fun ci _ e he => habs _ e he)
      simp only [findSlotGo, hc, hsc]
      cases hfe : (c.find_h2 h2).2 with
      | true => simp
      | false =>
        simp only [Bool.false_eq_true, if_false]
        exact ih _

/-- Completeness of the group probe: under the invariant's path
conditions, the loop reaches the slot of a stored key. -/
theorem findSlotGo_reaches {m : Map K V} (hInv : Inv m) {k : K}
    {si : Nat} {e : Entry K V} (hsi : m.slots[si]? = some (some e))
    (hek : e.key = k) :
    ∀ (d fuel i : Nat), i < m.group_count →
      si / GROUP_SIZE = (i + d) % m.group_count → d < fuel →
      d < m.group_count →
      (∀ d' < d, ∀ q < GROUP_SIZE,
        m.byteAt ((i + d') % m.group_count * GROUP_SIZE + q)
          ≠ some Ctrl.SLOT_EMPTY) →
      findSlotGo m k ((m.hash k).2) fuel i = some si := by
  have hsilt : si < m.slots.length := Linear.getElem?_some_lt hsi
  have hsplit : si = si / GROUP_SIZE * GROUP_SIZE + si % GROUP_SIZE := by
    unfold GROUP_SIZE
    omega
  have hglt : si / GROUP_SIZE < m.group_count := by
    have := hInv.slots_len
    unfold GROUP_SIZE at *
    omega
  have hplt : si % GROUP_SIZE < GROUP_SIZE := by
    unfold GROUP_SIZE
    omega
  have hh2ne : (m.hash k).2 ≠ Ctrl.SLOT_EMPTY := by
    have := hash_h2_lt m k
    unfold Ctrl.SLOT_EMPTY
    omega
  intro d
  induction d with
  | zero =>
    intro fuel i hi hig hfuel _ _
    obtain ⟨f, rfl⟩ : ∃ f, fuel = f + 1 := ⟨fuel - 1, by omega⟩
    rw [Nat.add_zero, Nat.mod_eq_of_lt hi] at hig
    subst hig
    obtain ⟨c, hc⟩ := Linear.getElem?_total
      (show si / GROUP_SIZE < m.ctrl.length by rw [hInv.ctrl_len]; exact hglt)
    have hb8 : c.bytes.length = GROUP_SIZE :=
      hInv.bytes_len c (List.mem_iff_getElem?.mpr ⟨_, hc⟩)
    have hbyte : m.byteAt si = some ((m.hash k).2) := by
      rw [← hek]
      exact hInv.coh_occ si e hsi
    have hbytes_p : c.bytes[si % GROUP_SIZE]? = some ((m.hash k).2) := by
      rw [← byteAtCtrl_eq hc hplt]
      rw [← Map.byteAt, ← hsplit]
      exact hbyte
    have hfront : ∀ q < si % GROUP_SIZE,
        c.bytes[q]? ≠ some Ctrl.SLOT_EMPTY := by
      intro q hq
      rw [← byteAtCtrl_eq hc (by omega), ← Map.byteAt]
      exact hInv.probe_front si e hsi q hq
    have hpmem : si % GROUP_SIZE ∈ (c.find_h2 ((m.hash k).2)).1 := by
      have := findH2Go_mem hh2ne c.bytes 0 (si % GROUP_SIZE) hbytes_p hfront
      simpa [Ctrl.find_h2] using this
    have hscan : scanCands m k (si / GROUP_SIZE)
        (c.find_h2 ((m.hash k).2)).1 = some
          (m.get_slot_index (si / GROUP_SIZE) (si % GROUP_SIZE)) := by
      apply scanCands_hit
      · show m.slots[m.get_slot_index (si / GROUP_SIZE) (si % GROUP_SIZE)]? =
          some (some e)
        unfold Map.get_slot_index
        rw [← hsplit]
        exact hsi
      · exact hek
      · intro ci e' hci hkey
        have heq := hInv.uniq _ si e' e hci hsi (by rw [hkey, hek])
        unfold Map.get_slot_index at heq
        omega
      · exact hpmem
    simp only [findSlotGo, hc, hscan]
    unfold Map.get_slot_index
    rw [← hsplit]
  | succ d ih =>
    intro fuel i hi hig hfuel hdgc hclear
    obtain ⟨f, rfl⟩ : ∃ f, fuel = f + 1 := ⟨fuel - 1, by omega⟩
    have hgc : 0 < m.group_count := hInv.gc_pos
    obtain ⟨c, hc⟩ := Linear.getElem?_total
      (show i < m.ctrl.length by rw [hInv.ctrl_len]; exact hi)
    have hb8 : c.bytes.length = GROUP_SIZE :=
      hInv.bytes_len c (List.mem_iff_getElem?.mpr ⟨_, hc⟩)
    have hclear0 : ∀ q < GROUP_SIZE,
        c.bytes[q]? ≠ some Ctrl.SLOT_EMPTY := by
      intro q hq
      rw [← byteAtCtrl_eq hc hq, ← Map.byteAt]
      have := hclear 0 (by omega) q hq
      rw [Nat.add_zero, Nat.mod_eq_of_lt hi] at this
      exact this
    have hfe : (c.find_h2 ((m.hash k).2)).2 = false := by
      unfold Ctrl.find_h2
      exact findH2Go_no_empty c.bytes 0 (no_empty_of_clear hb8 hclear0)
    have hscan : scanCands m k i (c.find_h2 ((m.hash k).2)).1 = none := by
      apply scanCands_none
      intro ci hcimem e' he' hkey
      have hcib := findH2Go_mem_bound c.bytes 0 ci
        (by simpa [Ctrl.find_h2] using hcimem)
      rw [hb8] at hcib
      have heq := hInv.uniq _ si e' e he' hsi (by rw [hkey, hek])
      unfold Map.get_slot_index at heq
      have hdiv : si / GROUP_SIZE = i := by
        rw [← heq]
        unfold GROUP_SIZE at *
        omega
      rw [hig] at hdiv
      have : d + 1 = 0 :=
        Cyclic.add_inj hi hdgc hgc (by rw [hdiv, Nat.add_zero,
          Nat.mod_eq_of_lt hi])
      omega
    simp only [findSlotGo, hc, hscan, hfe, Bool.false_eq_true, if_false]
    apply ih f ((i + 1) % m.group_count) (Nat.mod_lt _ hgc)
    · rw [Cyclic.step_shift, ← hig]
    · omega
    · omega
    · intro d' hd' q hq
      rw [Cyclic.step_shift]
      exact hclear (d' + 1) (by omega) q hq

/-- Under the invariant, `find_slot_index` from the home group finds the
slot of a stored key. -/
theorem find_slot_hit {m : Map K V} (hInv : Inv m) {si : Nat}
    {e : Entry K V} (hsi : m.slots[si]? = some (some e)) {k : K}
    (hek : e.key = k) :
    m.find_slot_index k ((m.hash k).1) ((m.hash k).2) = some si := by
  have hgc : 0 < m.group_count := hInv.gc_pos
  have hglt : si / GROUP_SIZE < m.group_count := by
    have h1 := hInv.slots_len
    have h2 := Linear.getElem?_some_lt hsi
    unfold GROUP_SIZE at *
    omega
  have hstart : (m.hash k).1 < m.group_count := hash_g_lt hgc k
  apply findSlotGo_reaches hInv hsi hek
    (Cyclic.dist ((m.hash k).1) (si / GROUP_SIZE) m.group_count)
    m.group_count ((m.hash k).1) hstart
  · rw [Cyclic.add_dist hstart hglt]
  · exact Cyclic.dist_lt hgc
  · exact Cyclic.dist_lt hgc
  · intro d' hd' q hq
    have hp := hInv.probe_groups si e hsi d' (by rw [hek]; exact hd') q hq
    rw [hek] at hp
    exact hp

theorem find_slot_absent {m : Map K V} {k : K}
    (habs : ∀ (si : Nat) (e : Entry K V),
      m.slots[si]? = some (some e) → e.key ≠ k) (g h2 : Nat) :
    m.find_slot_index k g h2 = none :=
  findSlotGo_absent habs _ _

theorem find_slot_none_not_haskey {m : Map K V} (hInv : Inv m) {k : K}
    (h : m.find_slot_index k ((m.hash k).1) ((m.hash k).2) = none) :
    ¬ HasKey m k := by
  rintro ⟨v, j, e, hj, hk, hv⟩
  rw [find_slot_hit hInv hj hk] at h
  exact Option.noConfusion h

/-- Under the invariant, `get` returns exactly the stored value. -/
theorem get_spec_sw {m : Map K V} (hInv : Inv m) (k : K) (v : V) :
    m.get k = some v ↔ HasKV m k v := by
  constructor
  · intro h
    unfold Map.get at h
    cases hfi : m.find_slot_index k ((m.hash k).1) ((m.hash k).2) with
    | none => rw [hfi] at h; simp at h
    | some si =>
      rw [hfi] at h
      obtain ⟨e, he, hek⟩ := findSlotGo_sound _ _ _ hfi
      simp only [Option.some_bind, he] at h
      cases h
      exact ⟨si, e, he, hek, rfl⟩
  · rintro ⟨j, e, hj, hk, hv⟩
    unfold Map.get
    rw [find_slot_hit hInv hj hk]
    simp only [Option.some_bind, hj]
    rw [hv]

theorem findEmptySlotGo_some {m : Map K V} (hInv : Inv m) :
    ∀ (fuel i si : Nat), i < m.group_count →
      findEmptySlotGo m fuel i = some si →
      ∃ d < fuel, ∃ q < GROUP_SIZE,
        si = (i + d) % m.group_count * GROUP_SIZE + q ∧
        (m.byteAt si = some Ctrl.SLOT_EMPTY ∨
         m.byteAt si = some Ctrl.SLOT_DELETED) ∧
        (∀ q' < q,
          m.byteAt ((i + d) % m.group_count * GROUP_SIZE + q')
            ≠ some Ctrl.SLOT_EMPTY ∧
          m.byteAt ((i + d) % m.group_count * GROUP_SIZE + q')
            ≠ some Ctrl.SLOT_DELETED) ∧
        ∀ d' < d, ∀ q' < GROUP_SIZE,
          m.byteAt ((i + d') % m.group_count * GROUP_SIZE + q')
            ≠ some Ctrl.SLOT_EMPTY ∧
          m.byteAt ((i + d') % m.group_count * GROUP_SIZE + q')
            ≠ some Ctrl.SLOT_DELETED := by
  intro fuel
  induction fuel with
  | zero => intro i si _ h; simp [findEmptySlotGo] at h
  | succ n ih =>
    intro i si hi h
    have hgc : 0 < m.group_count := by omega
    obtain ⟨c, hc⟩ := Linear.getElem?_total
      (show i < m.ctrl.length by rw [hInv.ctrl_len]; exact hi)
    have hb8 : c.bytes.length = GROUP_SIZE :=
      hInv.bytes_len c (List.mem_iff_getElem?.mpr ⟨_, hc⟩)
    cases hed : c.find_empty_and_deleted with
    | some ci =>
      simp only [findEmptySlotGo, hc, hed] at h
      cases h
      obtain ⟨q, hq0, hbyte, hbefore⟩ := findEDGo_some c.bytes 0 ci hed
      have hqci : ci = q := by omega
      subst hqci
      have hcilt : ci < GROUP_SIZE := by
        rw [← hb8]
        rcases hbyte with hb | hb <;> exact Linear.getElem?_some_lt hb
      have hii : (i + 0) % m.group_count = i := by
        rw [Nat.add_zero, Nat.mod_eq_of_lt hi]
      refine ⟨0, by omega, ci, hcilt, ?_, ?_, ?_, by omega⟩
      · rw [hii]; rfl
      · show m.byteAt (m.get_slot_index i ci) = _ ∨ _
        unfold Map.get_slot_index
        rw [byteAt_eq hc hcilt]
        exact hbyte
      · intro q' hq'
        rw [hii, byteAt_eq hc (by omega)]
        exact hbefore q' hq'
    | none =>
      simp only [findEmptySlotGo, hc, hed] at h
      obtain ⟨d, hd, q, hqlt, hsi, hbyte, hfront, hgroups⟩ :=
        ih ((i + 1) % m.group_count) si (Nat.mod_lt _ hgc) h
      have hclear := findEDGo_none c.bytes 0 hed
      refine ⟨d + 1, by omega, q, hqlt, ?_, hbyte, ?_, ?_⟩
      · rw [← Cyclic.step_shift]
        exact hsi
      · rw [← Cyclic.step_shift]
        exact hfront
      · intro d' hd' q' hq'
        cases d' with
        | zero =>
          have hii : (i + 0) % m.group_count = i := by
            rw [Nat.add_zero, Nat.mod_eq_of_lt hi]
          rw [hii, byteAt_eq hc hq']
          exact hclear q'
        | succ d'' =>
          rw [← Cyclic.step_shift]
          exact hgroups d'' (by omega) q' hq'

theorem findEmptySlotGo_none {m : Map K V} (hInv : Inv m) :
    ∀ (fuel i : Nat), i < m.group_count →
      findEmptySlotGo m fuel i = none →
      ∀ d < fuel, ∀ q < GROUP_SIZE,
        m.byteAt ((i + d) % m.group_count * GROUP_SIZE + q)
          ≠ some Ctrl.SLOT_EMPTY ∧
        m.byteAt ((i + d) % m.group_count * GROUP_SIZE + q)
          ≠ some Ctrl.SLOT_DELETED := by
  intro fuel
  induction fuel with
  | zero => intro i _ _ d hd; omega
  | succ n ih =>
    intro i hi h d hd q hq
    have hgc : 0 < m.group_count := by omega
    obtain ⟨c, hc⟩ := Linear.getElem?_total
      (show i < m.ctrl.length by rw [hInv.ctrl_len]; exact hi)
    cases hed : c.find_empty_and_deleted with
    | some ci =>
      simp only [findEmptySlotGo, hc, hed] at h
      exact Option.noConfusion h
    | none =>
      simp only [findEmptySlotGo, hc, hed] at h
      cases d with
      | zero =>
        have hii : (i + 0) % m.group_count = i := by
          rw [Nat.add_zero, Nat.mod_eq_of_lt hi]
        rw [hii, byteAt_eq hc hq]
        exact findEDGo_none c.bytes 0 hed q
      | succ d' =>
        have := ih ((i + 1) % m.group_count) (Nat.mod_lt _ hgc) h d'
          (by omega) q hq
        rw [Cyclic.step_shift] at this
        exact this

theorem find_empty_slot_total {m : Map K V} (hInv : Inv m)
    (hroom : liveCount m.slots < m.slots.length) {g : Nat}
    (hg : g < m.group_count) :
    ∃ si, m.find_empty_slot_index g = some si := by
  cases hfe : m.find_empty_slot_index g with
  | some si => exact ⟨si, rfl⟩
  | none =>
    exfalso
    have hgc : 0 < m.group_count := hInv.gc_pos
    obtain ⟨sj, hsj⟩ := liveCount_lt_exists_none hroom
    have hsjlt : sj < m.slots.length := Linear.getElem?_some_lt hsj
    have hsplit : sj = sj / GROUP_SIZE * GROUP_SIZE + sj % GROUP_SIZE := by
      unfold GROUP_SIZE
      omega
    have hglt : sj / GROUP_SIZE < m.group_count := by
      have := hInv.slots_len
      unfold GROUP_SIZE at *
      omega
    have hfe' : findEmptySlotGo m m.group_count g = none := hfe
    have hall := findEmptySlotGo_none hInv m.group_count g hg hfe'
      (Cyclic.dist g (sj / GROUP_SIZE) m.group_count) (Cyclic.dist_lt hgc)
      (sj % GROUP_SIZE) (by unfold GROUP_SIZE; omega)
    rw [Cyclic.add_dist hg hglt, ← hsplit] at hall
    rcases hInv.coh_none sj hsj with h | h
    · exact hall.1 h
    · exact hall.2 h

theorem byteAtCtrl_set {ctrl : List Ctrl} {g : Nat} {c : Ctrl}
    (hg : ctrl[g]? = some c) (hb8 : c.bytes.length = GROUP_SIZE)
    {q : Nat} (hq : q < GROUP_SIZE) (b : Nat) (si : Nat) :
    byteAtCtrl (ctrl.set g ⟨c.bytes.set q b⟩) si =
      if si = g * GROUP_SIZE + q then some b else byteAtCtrl ctrl si := by
  have hglen : g < ctrl.length := Linear.getElem?_some_lt hg
  by_cases hdiv : si / GROUP_SIZE = g
  · unfold byteAtCtrl
    rw [hdiv, List.getElem?_set_self hglen, Option.some_bind, hg,
      Option.some_bind]
    by_cases hmod : si % GROUP_SIZE = q
    · have hsieq : si = g * GROUP_SIZE + q := by
        unfold GROUP_SIZE at *
        omega
      rw [hmod, if_pos hsieq,
        List.getElem?_set_self (by rw [hb8]; exact hq)]
    · have hsine : si ≠ g * GROUP_SIZE + q := by
        intro hcon
        apply hmod
        rw [hcon]
        unfold GROUP_SIZE at *
        omega
      rw [if_neg hsine, List.getElem?_set_ne (fun hcm => hmod hcm.symm)]
  · have hsine : si ≠ g * GROUP_SIZE + q := by
      intro hcon
      apply hdiv
      rw [hcon]
      unfold GROUP_SIZE at *
      omega
    rw [if_neg hsine]
    unfold byteAtCtrl
    rw [List.getElem?_set_ne (fun h => hdiv h.symm)]

/-- Inserting an absent key on a non-overloaded grouped table places
the entry at the first empty-or-deleted slot of its group probe
sequence, tags its control byte with `h2`, and preserves the
invariant. -/
theorem insertNoGrow_new_spec {m : Map K V} (hInv : Inv m) {k : K} (v : V)
    (habs : ∀ (j : Nat) (e : Entry K V),
      m.slots[j]? = some (some e) → e.key ≠ k)
    (hnov : 10 * m.count < 9 * m.slots.length) :
    ∃ m₁, insertNoGrow m k v = some (m₁, none) ∧ Inv m₁ ∧
      m₁.count = m.count + 1 ∧ m₁.group_count = m.group_count ∧
      m₁.slots.length = m.slots.length ∧ m₁.hasher = m.hasher ∧
      ∀ k' v', HasKV m₁ k' v' ↔ (k' = k ∧ v' = v) ∨ HasKV m k' v' := by
  have hgc : 0 < m.group_count := hInv.gc_pos
  have hlen64 := hInv.len_ge_sw
  have hstart : (m.hash k).1 < m.group_count := hash_g_lt hgc k
  have hroom : liveCount m.slots < m.slots.length := by
    have := hInv.count_eq
    omega
  have hfsi : m.find_slot_index k ((m.hash k).1) ((m.hash k).2) = none :=
    find_slot_absent habs _ _
  obtain ⟨si, hfes⟩ := find_empty_slot_total hInv hroom hstart
  have hfes' : findEmptySlotGo m m.group_count ((m.hash k).1) = some si :=
    hfes
  obtain ⟨d, hd, q, hqlt, hsieq, hbyteED, hfront, hgroups⟩ :=
    findEmptySlotGo_some hInv m.group_count ((m.hash k).1) si hstart hfes'
  have hglt : ((m.hash k).1 + d) % m.group_count < m.group_count :=
    Nat.mod_lt _ hgc
  have hsilt : si < m.slots.length := by
    rw [hInv.slots_len, hsieq]
    unfold GROUP_SIZE at *
    omega
  have hsidiv : si / GROUP_SIZE = ((m.hash k).1 + d) % m.group_count := by
    rw [hsieq]
    unfold GROUP_SIZE at *
    omega
  have hsimod : si % GROUP_SIZE = q := by
    rw [hsieq]
    unfold GROUP_SIZE at *
    omega
  obtain ⟨c, hcg⟩ := Linear.getElem?_total
    (show si / GROUP_SIZE < m.ctrl.length by
      rw [hInv.ctrl_len, hsidiv]; exact hglt)
  have hb8 : c.bytes.length = GROUP_SIZE :=
    hInv.bytes_len c (List.mem_iff_getElem?.mpr ⟨_, hcg⟩)
  have hmodlt : si % GROUP_SIZE < GROUP_SIZE := by
    unfold GROUP_SIZE
    omega
  have hslotnone : m.slots[si]? = some none := by
    obtain ⟨s, hs⟩ := Linear.getElem?_total hsilt
    cases s with
    | none => exact hs
    | some e =>
      exfalso
      have hocc := hInv.coh_occ si e hs
      have hlt := hash_h2_lt m e.key
      rcases hbyteED with hb | hb <;> rw [hocc] at hb <;>
        injection hb with hb' <;>
        simp only [Ctrl.SLOT_EMPTY, Ctrl.SLOT_DELETED] at hb' <;> omega
  have hcset : c.set (si % GROUP_SIZE) (Slot.Occupied ((m.hash k).2)) =
      ⟨c.bytes.set (si % GROUP_SIZE) ((m.hash k).2)⟩ := rfl
  have haux : ∀ x, byteAtCtrl (m.ctrl.set (si / GROUP_SIZE)
      (c.set (si % GROUP_SIZE) (Slot.Occupied ((m.hash k).2)))) x =
      if x = si then some ((m.hash k).2) else m.byteAt x := by
    intro x
    rw [hcset]
    have hb := byteAtCtrl_set hcg hb8 hmodlt ((m.hash k).2) x
    have hseq : si / GROUP_SIZE * GROUP_SIZE + si % GROUP_SIZE = si := by
      unfold GROUP_SIZE
      omega
    rw [hseq] at hb
    exact hb
  have hh2ne : ∀ x, (if x = si then some ((m.hash k).2) else m.byteAt x) =
      some Ctrl.SLOT_EMPTY → m.byteAt x = some Ctrl.SLOT_EMPTY := by
    intro x hx
    split_ifs at hx with hxi
    · exfalso
      injection hx with hx'
      have := hash_h2_lt m k
      unfold Ctrl.SLOT_EMPTY at hx'
      omega
    · exact hx
  refine ⟨{ m with slots := m.slots.set si (some ⟨k, v⟩), count := m.count + 1, ctrl := m.ctrl.set (si / GROUP_SIZE) (c.set (si % GROUP_SIZE) (Slot.Occupied ((m.hash k).2))) }, ?_, ?_, rfl, rfl, by simp, rfl, ?_⟩
  · simp only [insertNoGrow, hfsi, hfes, Map.get_group_and_ctrl_indices,
      hcg]
  · constructor
    case size => exact hInv.size
    case slots_len => simp [hInv.slots_len]
    case ctrl_len => simp [hInv.ctrl_len]
    case bytes_len =>
      intro c' hc'
      obtain ⟨gidx, hgidx⟩ := List.mem_iff_getElem?.mp hc'
      by_cases hgi : gidx = si / GROUP_SIZE
      · rw [hgi, List.getElem?_set_self (Linear.getElem?_some_lt hcg)]
          at hgidx
        injection hgidx with hgidx'
        rw [← hgidx', hcset]
        simp [hb8]
      · rw [List.getElem?_set_ne (fun h => hgi h.symm)] at hgidx
        exact hInv.bytes_len c' (List.mem_iff_getElem?.mpr ⟨_, hgidx⟩)
    case coh_occ =>
      intro x e' hx
      show byteAtCtrl _ x = some ((m.hash e'.key).2)
      rw [haux x]
      simp only [] at hx
      by_cases hxi : x = si
      · rw [hxi, List.getElem?_set_self hsilt] at hx
        injection hx with hx'
        injection hx' with hx''
        rw [if_pos hxi, ← hx'']
      · rw [List.getElem?_set_ne (fun h => hxi h.symm)] at hx
        rw [if_neg hxi]
        exact hInv.coh_occ x e' hx
    case coh_none =>
      intro x hx
      show byteAtCtrl _ x = _ ∨ byteAtCtrl _ x = _
      rw [haux x]
      simp only [] at hx
      by_cases hxi : x = si
      · rw [hxi, List.getElem?_set_self hsilt] at hx
        injection hx with hx'
        exact Option.noConfusion hx'
      · rw [List.getElem?_set_ne (fun h => hxi h.symm)] at hx
        rw [if_neg hxi]
        exact hInv.coh_none x hx
    case count_eq =>
      have hoc := countP_set (fun s : Option (Entry K V) => s.isSome)
        m.slots hslotnone (some ⟨k, v⟩)
      simp only [Option.isSome_none, Option.isSome_some,
        Bool.false_eq_true, if_false, if_true, eq_self_iff_true,
        Nat.sub_zero] at hoc
      show m.count + 1 = liveCount (m.slots.set si (some ⟨k, v⟩))
      unfold liveCount
      rw [hoc]
      have hce := hInv.count_eq
      unfold liveCount at hce
      omega
    case count_lt =>
      simp only [List.length_set]
      omega
    case uniq =>
      intro i1 i2 e1 e2 h1 h2 hkeq
      simp only [] at h1 h2
      by_cases hi1 : i1 = si <;> by_cases hi2 : i2 = si
      · rw [hi1, hi2]
      · rw [hi1, List.getElem?_set_self hsilt] at h1
        injection h1 with h1'
        injection h1' with h1''
        rw [List.getElem?_set_ne (fun h => hi2 h.symm)] at h2
        exfalso
        apply habs i2 e2 h2
        rw [← hkeq, ← h1'']
      · rw [hi2, List.getElem?_set_self hsilt] at h2
        injection h2 with h2'
        injection h2' with h2''
        rw [List.getElem?_set_ne (fun h => hi1 h.symm)] at h1
        exfalso
        apply habs i1 e1 h1
        rw [hkeq, ← h2'']
      · rw [List.getElem?_set_ne (fun h => hi1 h.symm)] at h1
        rw [List.getElem?_set_ne (fun h => hi2 h.symm)] at h2
        exact hInv.uniq i1 i2 e1 e2 h1 h2 hkeq
    case probe_groups =>
      intro x e' hx dd hdd qq hqq
      have hdd' : dd < Cyclic.dist ((m.hash e'.key).1) (x / GROUP_SIZE)
          m.group_count := hdd
      show byteAtCtrl _ (((m.hash e'.key).1 + dd) % m.group_count
        * GROUP_SIZE + qq) ≠ some Ctrl.SLOT_EMPTY
      rw [haux]
      simp only [] at hx
      by_cases hxi : x = si
      · rw [hxi, List.getElem?_set_self hsilt] at hx
        injection hx with hx'
        injection hx' with hx''
        have hkey : e'.key = k := by rw [← hx'']
        rw [hkey] at hdd' ⊢
        rw [hxi, hsidiv, Cyclic.dist_add hstart (by omega)] at hdd'
        intro hcon
        have hold := hh2ne _ hcon
        exact (hgroups dd hdd' qq hqq).1 hold
      · rw [List.getElem?_set_ne (fun h => hxi h.symm)] at hx
        intro hcon
        have hold := hh2ne _ hcon
        exact hInv.probe_groups x e' hx dd hdd' qq hqq hold
    case probe_front =>
      intro x e' hx qq hqq
      have hqq' : qq < x % GROUP_SIZE := hqq
      show byteAtCtrl _ (x / GROUP_SIZE * GROUP_SIZE + qq)
        ≠ some Ctrl.SLOT_EMPTY
      rw [haux]
      simp only [] at hx
      by_cases hxi : x = si
      · rw [hxi, List.getElem?_set_self hsilt] at hx
        injection hx with hx'
        injection hx' with hx''
        rw [hxi] at hqq' ⊢
        intro hcon
        have hold := hh2ne _ hcon
        rw [hsimod] at hqq'
        have := (hfront qq hqq').1
        rw [hsidiv] at hold
        exact this hold
      · rw [List.getElem?_set_ne (fun h => hxi h.symm)] at hx
        intro hcon
        have hold := hh2ne _ hcon
        exact hInv.probe_front x e' hx qq hqq' hold
  · intro k' v'
    constructor
    · rintro ⟨j', e', hj', hk', hv'⟩
      simp only [] at hj'
      by_cases hji : j' = si
      · rw [hji, List.getElem?_set_self hsilt] at hj'
        injection hj' with h1
        injection h1 with h2
        left
        rw [← h2] at hk' hv'
        exact ⟨hk'.symm, hv'.symm⟩
      · rw [List.getElem?_set_ne (fun h => hji h.symm)] at hj'
        right
        exact ⟨j', e', hj', hk', hv'⟩
    · rintro (⟨rfl, rfl⟩ | ⟨j', e', hj', hk', hv'⟩)
      · exact ⟨si, ⟨k', v'⟩, by
          simp only []
          rw [List.getElem?_set_self hsilt], rfl, rfl⟩
      · have hji : j' ≠ si := by
          intro h
          rw [h, hslotnone] at hj'
          injection hj' with h1
          exact Option.noConfusion h1
        exact ⟨j', e', by
          simp only []
          rw [List.getElem?_set_ne (fun h => hji h.symm)]
          exact hj', hk', hv'⟩

/-- Replacing the value of a present key in place (grouped design):
control bytes, count and capacity are untouched. -/
theorem replace_spec_sw {m : Map K V} (hInv : Inv m) {k : K} {si : Nat}
    (hfi : m.find_slot_index k ((m.hash k).1) ((m.hash k).2) = some si)
    (v : V) :
    ∃ (e : Entry K V),
      m.slots[si]? = some (some e) ∧ e.key = k ∧
      insertNoGrow m k v =
        some ({ m with slots := m.slots.set si (some ⟨e.key, v⟩) },
          some e.value) ∧
      Inv { m with slots := m.slots.set si (some ⟨e.key, v⟩) } ∧
      ∀ k' v',
        HasKV { m with slots := m.slots.set si (some ⟨e.key, v⟩) } k' v' ↔
          (k' = k ∧ v' = v) ∨ (k' ≠ k ∧ HasKV m k' v') := by
  obtain ⟨e, he, hek⟩ := findSlotGo_sound _ _ _ hfi
  have hsilt : si < m.slots.length := Linear.getElem?_some_lt he
  refine ⟨e, he, hek, ?_, ?_, ?_⟩
  · simp only [insertNoGrow, hfi, he]
  · constructor
    case size => exact hInv.size
    case slots_len => simp [hInv.slots_len]
    case ctrl_len => exact hInv.ctrl_len
    case bytes_len => exact hInv.bytes_len
    case coh_occ =>
      intro x e' hx
      show byteAtCtrl m.ctrl x = some ((m.hash e'.key).2)
      simp only [] at hx
      by_cases hxi : x = si
      · rw [hxi, List.getElem?_set_self hsilt] at hx
        injection hx with hx'
        injection hx' with hx''
        have := hInv.coh_occ si e he
        rw [← hx'']
        rw [hxi]
        exact this
      · rw [List.getElem?_set_ne (fun h => hxi h.symm)] at hx
        exact hInv.coh_occ x e' hx
    case coh_none =>
      intro x hx
      show byteAtCtrl m.ctrl x = _ ∨ byteAtCtrl m.ctrl x = _
      simp only [] at hx
      by_cases hxi : x = si
      · rw [hxi, List.getElem?_set_self hsilt] at hx
        injection hx with hx'
        exact Option.noConfusion hx'
      · rw [List.getElem?_set_ne (fun h => hxi h.symm)] at hx
        exact hInv.coh_none x hx
    case count_eq =>
      have hoc := countP_set (fun s : Option (Entry K V) => s.isSome)
        m.slots he (some ⟨e.key, v⟩)
      simp only [Option.isSome_some, if_true, eq_self_iff_true] at hoc
      show m.count = liveCount (m.slots.set si (some ⟨e.key, v⟩))
      unfold liveCount
      rw [hoc]
      have hce := hInv.count_eq
      have hpos := liveCount_pos he
      unfold liveCount at hce hpos
      omega
    case count_lt =>
      simp only [List.length_set]
      exact hInv.count_lt
    case uniq =>
      intro i1 i2 e1 e2 h1 h2 hkeq
      simp only [] at h1 h2
      by_cases hi1 : i1 = si <;> by_cases hi2 : i2 = si
      · rw [hi1, hi2]
      · rw [hi1, List.getElem?_set_self hsilt] at h1
        injection h1 with h1'
        injection h1' with h1''
        rw [List.getElem?_set_ne (fun h => hi2 h.symm)] at h2
        rw [hi1]
        exact (hInv.uniq si i2 e e2 he h2 (by rw [← hkeq, ← h1''])).symm.symm
      · rw [hi2, List.getElem?_set_self hsilt] at h2
        injection h2 with h2'
        injection h2' with h2''
        rw [List.getElem?_set_ne (fun h => hi1 h.symm)] at h1
        rw [hi2]
        exact hInv.uniq i1 si e1 e h1 he (by rw [hkeq, ← h2''])
      · rw [List.getElem?_set_ne (fun h => hi1 h.symm)] at h1
        rw [List.getElem?_set_ne (fun h => hi2 h.symm)] at h2
        exact hInv.uniq i1 i2 e1 e2 h1 h2 hkeq
    case probe_groups =>
      intro x e' hx dd hdd qq hqq
      have hdd' : dd < Cyclic.dist ((m.hash e'.key).1) (x / GROUP_SIZE)
          m.group_count := hdd
      show byteAtCtrl m.ctrl (((m.hash e'.key).1 + dd) % m.group_count
        * GROUP_SIZE + qq) ≠ some Ctrl.SLOT_EMPTY
      simp only [] at hx
      by_cases hxi : x = si
      · rw [hxi, List.getElem?_set_self hsilt] at hx
        injection hx with hx'
        injection hx' with hx''
        have hkey : e'.key = e.key := by rw [← hx'']
        rw [hkey] at hdd' ⊢
        rw [hxi] at hdd'
        exact hInv.probe_groups si e he dd hdd' qq hqq
      · rw [List.getElem?_set_ne (fun h => hxi h.symm)] at hx
        exact hInv.probe_groups x e' hx dd hdd' qq hqq
    case probe_front =>
      intro x e' hx qq hqq
      have hqq' : qq < x % GROUP_SIZE := hqq
      show byteAtCtrl m.ctrl (x / GROUP_SIZE * GROUP_SIZE + qq)
        ≠ some Ctrl.SLOT_EMPTY
      simp only [] at hx
      by_cases hxi : x = si
      · rw [hxi, List.getElem?_set_self hsilt] at hx
        injection hx with hx'
        injection hx' with hx''
        rw [hxi] at hqq' ⊢
        exact hInv.probe_front si e he qq hqq'
      · rw [List.getElem?_set_ne (fun h => hxi h.symm)] at hx
        exact hInv.probe_front x e' hx qq hqq'
  · intro k' v'
    constructor
    · rintro ⟨j', e', hj', hk', hv'⟩
      simp only [] at hj'
      by_cases hji : j' = si
      · rw [hji, List.getElem?_set_self hsilt] at hj'
        injection hj' with h1
        injection h1 with h2
        left
        rw [← h2] at hk' hv'
        exact ⟨by rw [← hk', hek], hv'.symm⟩
      · rw [List.getElem?_set_ne (fun h => hji h.symm)] at hj'
        right
        refine ⟨?_, j', e', hj', hk', hv'⟩
        intro hkk
        exact hji (hInv.uniq j' si e' e hj' he (by rw [hk', hkk, hek]))
    · rintro (⟨rfl, rfl⟩ | ⟨hne, j', e', hj', hk', hv'⟩)
      · exact ⟨si, ⟨e.key, v'⟩, by
          simp only []
          rw [List.getElem?_set_self hsilt], hek, rfl⟩
      · have hji : j' ≠ si := by
          intro h
          rw [h, he] at hj'
          injection hj' with h1
          injection h1 with h2
          rw [← h2] at hk'
          exact hne (by rw [← hk', hek])
        exact ⟨j', e', by
          simp only []
          rw [List.getElem?_set_ne (fun h => hji h.symm)]
          exact hj', hk', hv'⟩

/-- Deleting a present key (grouped design): the control byte becomes
the `Deleted` sentinel, the entry is taken out, the count drops. -/
theorem delete_found_spec_sw {m : Map K V} (hInv : Inv m) {k : K}
    {si : Nat}
    (hfi : m.find_slot_index k ((m.hash k).1) ((m.hash k).2) = some si) :
    ∃ (e : Entry K V) (c : Ctrl),
      m.slots[si]? = some (some e) ∧ e.key = k ∧ 1 ≤ m.count ∧
      m.ctrl[si / GROUP_SIZE]? = some c ∧
      m.delete k = some
        ({ m with slots := m.slots.set si none, count := m.count - 1, ctrl := m.ctrl.set (si / GROUP_SIZE) (c.set (si % GROUP_SIZE) Slot.Deleted) },
          some e.value) ∧
      Inv { m with slots := m.slots.set si none, count := m.count - 1, ctrl := m.ctrl.set (si / GROUP_SIZE) (c.set (si % GROUP_SIZE) Slot.Deleted) } ∧
      ∀ k' v',
        HasKV { m with slots := m.slots.set si none, count := m.count - 1, ctrl := m.ctrl.set (si / GROUP_SIZE) (c.set (si % GROUP_SIZE) Slot.Deleted) } k' v'
          ↔ (HasKV m k' v' ∧ k' ≠ k) := by
  obtain ⟨e, he, hek⟩ := findSlotGo_sound _ _ _ hfi
  have hsilt : si < m.slots.length := Linear.getElem?_some_lt he
  have hglt : si / GROUP_SIZE < m.group_count := by
    have := hInv.slots_len
    unfold GROUP_SIZE at *
    omega
  obtain ⟨c, hcg⟩ := Linear.getElem?_total
    (show si / GROUP_SIZE < m.ctrl.length by
      rw [hInv.ctrl_len]; exact hglt)
  have hb8 : c.bytes.length = GROUP_SIZE :=
    hInv.bytes_len c (List.mem_iff_getElem?.mpr ⟨_, hcg⟩)
  have hmodlt : si % GROUP_SIZE < GROUP_SIZE := by
    unfold GROUP_SIZE
    omega
  have hcpos : 1 ≤ m.count := by
    have := liveCount_pos he
    have := hInv.count_eq
    omega
  have hcset : c.set (si % GROUP_SIZE) Slot.Deleted =
      ⟨c.bytes.set (si % GROUP_SIZE) Ctrl.SLOT_DELETED⟩ := rfl
  have haux : ∀ x, byteAtCtrl (m.ctrl.set (si / GROUP_SIZE)
      (c.set (si % GROUP_SIZE) Slot.Deleted)) x =
      if x = si then some Ctrl.SLOT_DELETED else m.byteAt x := by
    intro x
    rw [hcset]
    have hb := byteAtCtrl_set hcg hb8 hmodlt Ctrl.SLOT_DELETED x
    have hseq : si / GROUP_SIZE * GROUP_SIZE + si % GROUP_SIZE = si := by
      unfold GROUP_SIZE
      omega
    rw [hseq] at hb
    exact hb
  have hdne : ∀ x, (if x = si then some Ctrl.SLOT_DELETED else m.byteAt x) =
      some Ctrl.SLOT_EMPTY → m.byteAt x = some Ctrl.SLOT_EMPTY := by
    intro x hx
    split_ifs at hx with hxi
    · exfalso
      injection hx with hx'
      simp only [Ctrl.SLOT_DELETED, Ctrl.SLOT_EMPTY] at hx'
      omega
    · exact hx
  refine ⟨e, c, he, hek, hcpos, hcg, ?_, ?_, ?_⟩
  · simp only [Map.delete, hfi, Map.get_group_and_ctrl_indices, hcg, he]
  · constructor
    case size => exact hInv.size
    case slots_len => simp [hInv.slots_len]
    case ctrl_len => simp [hInv.ctrl_len]
    case bytes_len =>
      intro c' hc'
      obtain ⟨gidx, hgidx⟩ := List.mem_iff_getElem?.mp hc'
      by_cases hgi : gidx = si / GROUP_SIZE
      · rw [hgi, List.getElem?_set_self (Linear.getElem?_some_lt hcg)]
          at hgidx
        injection hgidx with hgidx'
        rw [← hgidx', hcset]
        simp [hb8]
      · rw [List.getElem?_set_ne (fun h => hgi h.symm)] at hgidx
        exact hInv.bytes_len c' (List.mem_iff_getElem?.mpr ⟨_, hgidx⟩)
    case coh_occ =>
      intro x e' hx
      show byteAtCtrl _ x = some ((m.hash e'.key).2)
      rw [haux x]
      simp only [] at hx
      by_cases hxi : x = si
      · rw [hxi, List.getElem?_set_self hsilt] at hx
        injection hx with hx'
        exact Option.noConfusion hx'
      · rw [List.getElem?_set_ne (fun h => hxi h.symm)] at hx
        rw [if_neg hxi]
        exact hInv.coh_occ x e' hx
    case coh_none =>
      intro x hx
      show byteAtCtrl _ x = _ ∨ byteAtCtrl _ x = _
      rw [haux x]
      simp only [] at hx
      by_cases hxi : x = si
      · rw [if_pos hxi]
        right
        rfl
      · rw [List.getElem?_set_ne (fun h => hxi h.symm)] at hx
        rw [if_neg hxi]
        exact hInv.coh_none x hx
    case count_eq =>
      have hoc := countP_set (fun s : Option (Entry K V) => s.isSome)
        m.slots he (none : Option (Entry K V))
      simp only [Option.isSome_none, Option.isSome_some,
        Bool.false_eq_true, if_false, if_true, eq_self_iff_true,
        Nat.add_zero] at hoc
      show m.count - 1 = liveCount (m.slots.set si none)
      unfold liveCount
      rw [hoc]
      have hce := hInv.count_eq
      unfold liveCount at hce
      omega
    case count_lt =>
      simp only [List.length_set]
      have := hInv.count_lt
      omega
    case uniq =>
      intro i1 i2 e1 e2 h1 h2 hkeq
      simp only [] at h1 h2
      by_cases hi1 : i1 = si
      · rw [hi1, List.getElem?_set_self hsilt] at h1
        injection h1 with h1'
        exact Option.noConfusion h1'
      · by_cases hi2 : i2 = si
        · rw [hi2, List.getElem?_set_self hsilt] at h2
          injection h2 with h2'
          exact Option.noConfusion h2'
        · rw [List.getElem?_set_ne (fun h => hi1 h.symm)] at h1
          rw [List.getElem?_set_ne (fun h => hi2 h.symm)] at h2
          exact hInv.uniq i1 i2 e1 e2 h1 h2 hkeq
    case probe_groups =>
      intro x e' hx dd hdd qq hqq
      have hdd' : dd < Cyclic.dist ((m.hash e'.key).1) (x / GROUP_SIZE)
          m.group_count := hdd
      show byteAtCtrl _ (((m.hash e'.key).1 + dd) % m.group_count
        * GROUP_SIZE + qq) ≠ some Ctrl.SLOT_EMPTY
      rw [haux]
      simp only [] at hx
      by_cases hxi : x = si
      · rw [hxi, List.getElem?_set_self hsilt] at hx
        injection hx with hx'
        exact Option.noConfusion hx'
      · rw [List.getElem?_set_ne (fun h => hxi h.symm)] at hx
        intro hcon
        exact hInv.probe_groups x e' hx dd hdd' qq hqq (hdne _ hcon)
    case probe_front =>
      intro x e' hx qq hqq
      have hqq' : qq < x % GROUP_SIZE := hqq
      show byteAtCtrl _ (x / GROUP_SIZE * GROUP_SIZE + qq)
        ≠ some Ctrl.SLOT_EMPTY
      rw [haux]
      simp only [] at hx
      by_cases hxi : x = si
      · rw [hxi, List.getElem?_set_self hsilt] at hx
        injection hx with hx'
        exact Option.noConfusion hx'
      · rw [List.getElem?_set_ne (fun h => hxi h.symm)] at hx
        intro hcon
        exact hInv.probe_front x e' hx qq hqq' (hdne _ hcon)
  · intro k' v'
    constructor
    · rintro ⟨j', e', hj', hk', hv'⟩
      simp only [] at hj'
      by_cases hji : j' = si
      · rw [hji, List.getElem?_set_self hsilt] at hj'
        injection hj' with h1
        exact Option.noConfusion h1
      · rw [List.getElem?_set_ne (fun h => hji h.symm)] at hj'
        refine ⟨⟨j', e', hj', hk', hv'⟩, ?_⟩
        intro hkk
        exact hji (hInv.uniq j' si e' e hj' he (by rw [hk', hkk, hek]))
    · rintro ⟨⟨j', e', hj', hk', hv'⟩, hne⟩
      have hji : j' ≠ si := by
        intro h
        rw [h, he] at hj'
        injection hj' with h1
        injection h1 with h2
        rw [← h2] at hk'
        exact hne (by rw [← hk', hek])
      exact ⟨j', e', by
        simp only []
        rw [List.getElem?_set_ne (fun h => hji h.symm)]
        exact hj', hk', hv'⟩

theorem liveCount_cons_some (e : Entry K V)
    (t : List (Option (Entry K V))) :
    liveCount (some e :: t) = liveCount t + 1 := by
  simp [liveCount, List.countP_cons]

theorem liveCount_cons_none (t : List (Option (Entry K V))) :
    liveCount (none :: t) = liveCount t := by
  simp [liveCount, List.countP_cons]

theorem pairwise_of_uniq_sw {slots : List (Option (Entry K V))}
    (huniq : ∀ (i1 i2 : Nat) (e1 e2 : Entry K V),
      slots[i1]? = some (some e1) → slots[i2]? = some (some e2) →
      e1.key = e2.key → i1 = i2) : slots.Pairwise EntOk := by
  induction slots with
  | nil => exact List.Pairwise.nil
  | cons c t ih =>
    constructor
    · intro s hs e1 e2 hc hsOcc hkeq
      subst hc
      subst hsOcc
      obtain ⟨j, hj⟩ := List.mem_iff_getElem?.mp hs
      have h0 : (some e1 :: t)[0]? = some (some e1) := by simp
      have hj1 : (some e1 :: t)[j + 1]? = some (some e2) := by simpa using hj
      exact absurd (huniq 0 (j + 1) e1 e2 h0 hj1 hkeq) (by omega)
    · apply ih
      intro i1 i2 e1 e2 h1 h2 hkeq
      have := huniq (i1 + 1) (i2 + 1) e1 e2 (by simpa using h1)
        (by simpa using h2) hkeq
      omega

/-- The rehash loop of the grouped `expand`. -/
theorem refill_spec_sw :
    ∀ (l : List (Option (Entry K V))) (m : Map K V), Inv m →
      (∀ s ∈ l, ∀ (e : Entry K V), s = some e → ¬ HasKey m e.key) →
      l.Pairwise EntOk →
      10 * (m.count + liveCount l) ≤ 9 * m.slots.length + 9 →
      ∃ m', l.foldl refillStep (some m) = some m' ∧ Inv m' ∧
        m'.count = m.count + liveCount l ∧
        m'.group_count = m.group_count ∧
        m'.slots.length = m.slots.length ∧ m'.hasher = m.hasher ∧
        ∀ k v, HasKV m' k v ↔ (HasKV m k v ∨
          ∃ e : Entry K V, some e ∈ l ∧ e.key = k ∧ e.value = v) := by
  intro l
  induction l with
  | nil =>
    intro m hInv _ _ _
    refine ⟨m, rfl, hInv, by simp [liveCount], rfl, rfl, rfl, ?_⟩
    intro k v
    simp
  | cons c t ih =>
    intro m hInv hdisj hpair hcap
    obtain ⟨hphead, hptail⟩ := List.pairwise_cons.mp hpair
    cases c with
    | none =>
      rw [liveCount_cons_none] at hcap
      obtain ⟨m', hfold, hInv', hc', hg', hl', hh', hiff'⟩ := ih m hInv
        (fun s hs => hdisj s (List.mem_cons_of_mem _ hs)) hptail hcap
      refine ⟨m', by simpa [refillStep] using hfold, hInv',
        by rw [liveCount_cons_none]; exact hc', hg', hl', hh', ?_⟩
      intro k v
      rw [hiff' k v]
      constructor
      · rintro (h | ⟨e, he, hk, hv⟩)
        · exact Or.inl h
        · exact Or.inr ⟨e, List.mem_cons_of_mem _ he, hk, hv⟩
      · rintro (h | ⟨e, he, hk, hv⟩)
        · exact Or.inl h
        · rcases List.mem_cons.mp he with h' | h'
          · exact absurd h' (by intro hc; exact Option.noConfusion hc)
          · exact Or.inr ⟨e, h', hk, hv⟩
    | some e =>
      rw [liveCount_cons_some] at hcap
      have hnov : 10 * m.count < 9 * m.slots.length := by omega
      have habs : ∀ (j : Nat) (e' : Entry K V),
          m.slots[j]? = some (some e') → e'.key ≠ e.key := by
        intro j e' hj hkeq
        exact hdisj _ (List.mem_cons_self _ _) e rfl
          ⟨e'.value, j, e', hj, hkeq, rfl⟩
      obtain ⟨m1, hins, hInv1, hcount1, hgc1, hlen1, hhash1, hiff1⟩ :=
        insertNoGrow_new_spec hInv e.value habs hnov
      have hdisj1 : ∀ s ∈ t, ∀ (e'' : Entry K V), s = some e'' →
          ¬ HasKey m1 e''.key := by
        rintro s hs e'' hse ⟨v', hkv⟩
        rcases (hiff1 e''.key v').mp hkv with ⟨hk, _⟩ | h
        · exact hphead s hs e e'' rfl hse (by rw [hk])
        · exact hdisj s (List.mem_cons_of_mem _ hs) e'' hse ⟨v', h⟩
      have hcap1 : 10 * (m1.count + liveCount t) ≤
          9 * m1.slots.length + 9 := by
        rw [hcount1, hlen1]
        omega
      obtain ⟨m', hfold, hInv', hc', hg', hl', hh', hiff'⟩ :=
        ih m1 hInv1 hdisj1 hptail hcap1
      refine ⟨m', ?_, hInv', ?_, ?_, ?_, ?_, ?_⟩
      · rw [List.foldl_cons]
        have hstep : refillStep (some m) (some e) = some m1 := by
          simp only [refillStep, Option.some_bind, hins, Option.map_some']
        rw [hstep]
        exact hfold
      · rw [hc', hcount1, liveCount_cons_some]
        omega
      · rw [hg', hgc1]
      · rw [hl', hlen1]
      · rw [hh', hhash1]
      · intro k v
        rw [hiff' k v]
        constructor
        · rintro (h | ⟨e'', he'', hk, hv⟩)
          · rcases (hiff1 k v).mp h with ⟨hk, hv⟩ | h'
            · exact Or.inr ⟨e, List.mem_cons_self _ _, hk.symm, hv.symm⟩
            · exact Or.inl h'
          · exact Or.inr ⟨e'', List.mem_cons_of_mem _ he'', hk, hv⟩
        · rintro (h | ⟨e'', he'', hk, hv⟩)
          · exact Or.inl ((hiff1 k v).mpr (Or.inr h))
          · rcases List.mem_cons.mp he'' with h' | h'
            · have he2 : e'' = e := by injection h'
              subst he2
              exact Or.inl ((hiff1 k v).mpr (Or.inl ⟨hk.symm, hv.symm⟩))
            · exact Or.inr ⟨e'', h', hk, hv⟩

theorem replicate_none_no_some {n : Nat} :
    ∀ (i : Nat) (e : Entry K V),
      (List.replicate n (none : Option (Entry K V)))[i]? ≠
        some (some e) := by
  intro i e h
  rw [List.getElem?_replicate] at h
  split_ifs at h
  exact Option.noConfusion (Option.some.inj h)

/-- A fresh grouped table (all slots free, all control bytes empty)
satisfies the invariant. -/
theorem Inv_fresh_sw (gc : Nat) (hgc : ∃ t, gc = 8 * 2 ^ t)
    (h : K → Nat) :
    Inv ({ slots := List.replicate (gc * GROUP_SIZE) none, count := 0, group_count := gc, ctrl := List.replicate gc Ctrl.new, hasher := h } : Map K V) := by
  have hgcpos : 0 < gc := by
    obtain ⟨t, ht⟩ := hgc
    rw [ht]
    positivity
  constructor
  case size => exact hgc
  case slots_len => simp
  case ctrl_len => simp
  case bytes_len =>
    intro c hc
    rw [List.eq_of_mem_replicate hc]
    simp [Ctrl.new]
  case coh_occ =>
    intro si e hsi
    exact absurd hsi (replicate_none_no_some si e)
  case coh_none =>
    intro si hsi
    left
    have hsilt : si < gc * GROUP_SIZE := by
      have := Linear.getElem?_some_lt hsi
      simpa using this
    have hdiv : si / GROUP_SIZE < gc := by
      unfold GROUP_SIZE at *
      omega
    show byteAtCtrl _ si = _
    unfold byteAtCtrl
    rw [List.getElem?_replicate, if_pos hdiv, Option.some_bind]
    unfold Ctrl.new
    rw [List.getElem?_replicate, if_pos]
    unfold GROUP_SIZE
    omega
  case count_eq =>
    symm
    unfold liveCount
    rw [List.countP_eq_zero]
    intro a ha
    rw [List.eq_of_mem_replicate ha]
    simp
  case count_lt =>
    unfold GROUP_SIZE
    simp
    omega
  case uniq =>
    intro i1 i2 e1 e2 h1 h2 _
    exact absurd h1 (replicate_none_no_some i1 e1)
  case probe_groups =>
    intro si e hsi
    exact absurd hsi (replicate_none_no_some si e)
  case probe_front =>
    intro si e hsi
    exact absurd hsi (replicate_none_no_some si e)

/-- `Map::new` (grouped) satisfies the invariant. -/
theorem Inv_new_sw (h : K → Nat) : Inv (Map.new (V := V) h) :=
  Inv_fresh_sw 8 ⟨0, by norm_num⟩ h

/-- `Map::expand` (grouped) never panics on a valid table, keeps its
contents, doubles the group count, and installs the fresh hasher. -/
theorem expand_spec_sw {m : Map K V} (hInv : Inv m) (hf : K → Nat) :
    ∃ m', m.expand hf = some m' ∧ Inv m' ∧ m'.count = m.count ∧
      m'.group_count = 2 * m.group_count ∧
      m'.slots.length = 2 * m.slots.length ∧ m'.hasher = hf ∧
      10 * m'.count < 9 * m'.slots.length ∧
      ∀ k v, HasKV m' k v ↔ HasKV m k v := by
  have hgc : 0 < m.group_count := hInv.gc_pos
  have hfresh : Inv ({ slots := List.replicate (m.group_count * 2 * GROUP_SIZE) none, count := 0, group_count := m.group_count * 2, ctrl := List.replicate (m.group_count * 2) Ctrl.new, hasher := hf } : Map K V) := by
    apply Inv_fresh_sw
    obtain ⟨t, ht⟩ := hInv.size
    exact ⟨t + 1, by rw [ht]; ring⟩
  have hdisj : ∀ s ∈ m.slots, ∀ (e : Entry K V), s = some e →
      ¬ HasKey ({ slots := List.replicate (m.group_count * 2 * GROUP_SIZE) none, count := 0, group_count := m.group_count * 2, ctrl := List.replicate (m.group_count * 2) Ctrl.new, hasher := hf } : Map K V) e.key := by
    rintro s _ e _ ⟨v', j, e', hj, _, _⟩
    exact absurd hj (replicate_none_no_some j e')
  have hcap : 10 * (0 + liveCount m.slots) ≤
      9 * (List.replicate (m.group_count * 2 * GROUP_SIZE)
        (none : Option (Entry K V))).length + 9 := by
    have h1 := hInv.count_eq
    have h2 := hInv.count_lt
    have h3 := hInv.slots_len
    simp
    unfold GROUP_SIZE at *
    omega
  obtain ⟨m', hfold, hInv', hc', hg', hl', hh', hiff'⟩ :=
    refill_spec_sw m.slots _ hfresh hdisj (pairwise_of_uniq_sw hInv.uniq)
      hcap
  have hcm : m'.count = m.count := by
    rw [hc', hInv.count_eq]
    simp
  have hlm : m'.slots.length = 2 * m.slots.length := by
    rw [hl']
    simp
    rw [hInv.slots_len]
    ring
  refine ⟨m', hfold, hInv', hcm, ?_, hlm, hh', ?_, ?_⟩
  · rw [hg']
    simp
    ring
  · have := hInv.count_lt
    rw [hcm, hlm]
    omega
  · intro k v
    rw [hiff' k v]
    constructor
    · rintro (⟨j, e', hj, _, _⟩ | ⟨e, hmem, hk, hv⟩)
      · exact absurd hj (replicate_none_no_some j e')
      · obtain ⟨j, hj⟩ := List.mem_iff_getElem?.mp hmem
        exact ⟨j, e, hj, hk, hv⟩
    · rintro ⟨j, e, hj, hk, hv⟩
      exact Or.inr ⟨e, List.mem_iff_getElem?.mpr ⟨j, hj⟩, hk, hv⟩

theorem absent_of_not_haskey_sw {m : Map K V} {k : K}
    (h : ¬ HasKey m k) :
    ∀ (j : Nat) (e : Entry K V),
      m.slots[j]? = some (some e) → e.key ≠ k := by
  intro j e hj hkeq
  exact h ⟨e.value, j, e, hj, hkeq, rfl⟩

/-- Inserting an absent key (grouped design): the count grows by one and
the capacity doubles exactly when the pre-insert load factor had reached
0.9 (the check runs before anything else in `insert`). -/
theorem insert_absent_spec_sw {m : Map K V} (hInv : Inv m) {k : K}
    (v : V) (hf : K → Nat) (habs0 : ¬ HasKey m k) :
    ∃ m₁, m.insert hf k v = some (m₁, none) ∧ Inv m₁ ∧
      m₁.count = m.count + 1 ∧
      m₁.slots.length =
        (if m.is_overloaded then 2 * m.slots.length else m.slots.length) ∧
      ∀ k' v', HasKV m₁ k' v' ↔ (k' = k ∧ v' = v) ∨ HasKV m k' v' := by
  by_cases hov : m.is_overloaded
  · obtain ⟨mx, hexp, hInvx, hcx, hgx, hlx, hhx, hnovx, hiffx⟩ :=
      expand_spec_sw hInv hf
    have habsx : ∀ (j : Nat) (e' : Entry K V),
        mx.slots[j]? = some (some e') → e'.key ≠ k := by
      intro j e' hj hkeq
      have : HasKV m e'.key e'.value :=
        (hiffx e'.key e'.value).mp ⟨j, e', hj, rfl, rfl⟩
      exact habs0 ⟨e'.value, by rw [← hkeq]; exact this⟩
    obtain ⟨m₁, hins, hInv1, hc1, hg1, hl1, hh1, hiff1⟩ :=
      insertNoGrow_new_spec hInvx v habsx hnovx
    refine ⟨m₁, ?_, hInv1, by omega, by rw [hl1, hlx, if_pos hov], ?_⟩
    · rw [Map.insert, if_pos hov, hexp, Option.some_bind]
      exact hins
    · intro k' v'
      rw [hiff1 k' v']
      constructor
      · rintro (⟨rfl, rfl⟩ | h)
        · exact Or.inl ⟨rfl, rfl⟩
        · exact Or.inr ((hiffx k' v').mp h)
      · rintro (⟨rfl, rfl⟩ | h)
        · exact Or.inl ⟨rfl, rfl⟩
        · exact Or.inr ((hiffx k' v').mpr h)
  · have hnov : 10 * m.count < 9 * m.slots.length := by
      unfold Map.is_overloaded at hov
      omega
    obtain ⟨m₁, hins, hInv1, hc1, hg1, hl1, hh1, hiff1⟩ :=
      insertNoGrow_new_spec hInv v (absent_of_not_haskey_sw habs0) hnov
    refine ⟨m₁, ?_, hInv1, hc1, by rw [hl1, if_neg hov], hiff1⟩
    rw [Map.insert, if_neg hov]
    exact hins

/-- Uniform insert specification for the grouped design. -/
theorem insert_spec_sw {m : Map K V} (hInv : Inv m) (hf : K → Nat)
    (k : K) (v : V) :
    ∃ m₁ old, m.insert hf k v = some (m₁, old) ∧ Inv m₁ ∧
      m₁.slots.length =
        (if m.is_overloaded then 2 * m.slots.length else m.slots.length) ∧
      (∀ k' v', HasKV m₁ k' v' ↔
        (k' = k ∧ v' = v) ∨ (k' ≠ k ∧ HasKV m k' v')) := by
  by_cases hk0 : HasKey m k
  · obtain ⟨v0, j0, e0, hj0, hk0e, hv0⟩ := hk0
    by_cases hov : m.is_overloaded
    · obtain ⟨mx, hexp, hInvx, hcx, hgx, hlx, hhx, hnovx, hiffx⟩ :=
        expand_spec_sw hInv hf
      have hkvx : HasKV mx k v0 := (hiffx k v0).mpr ⟨j0, e0, hj0, hk0e, hv0⟩
      obtain ⟨jx, ex, hjx, hkex, hvex⟩ := hkvx
      have hfix : mx.find_slot_index k ((mx.hash k).1) ((mx.hash k).2) =
          some jx := find_slot_hit hInvx hjx hkex
      obtain ⟨e, he, hek, heq, hInv', hiff⟩ := replace_spec_sw hInvx hfix v
      refine ⟨_, some e.value, ?_, hInv', by simp [hlx, if_pos hov], ?_⟩
      · rw [Map.insert, if_pos hov, hexp, Option.some_bind]
        exact heq
      · intro k' v'
        rw [hiff k' v']
        constructor
        · rintro (⟨rfl, rfl⟩ | ⟨hne, h⟩)
          · exact Or.inl ⟨rfl, rfl⟩
          · exact Or.inr ⟨hne, (hiffx k' v').mp h⟩
        · rintro (⟨rfl, rfl⟩ | ⟨hne, h⟩)
          · exact Or.inl ⟨rfl, rfl⟩
          · exact Or.inr ⟨hne, (hiffx k' v').mpr h⟩
    · have hfi : m.find_slot_index k ((m.hash k).1) ((m.hash k).2) =
          some j0 := find_slot_hit hInv hj0 hk0e
      obtain ⟨e, he, hek, heq, hInv', hiff⟩ := replace_spec_sw hInv hfi v
      refine ⟨_, some e.value, ?_, hInv', by simp [if_neg hov], hiff⟩
      rw [Map.insert, if_neg hov]
      exact heq
  · obtain ⟨m₁, heq, hInv', _, hl1, hiff⟩ :=
      insert_absent_spec_sw hInv v hf hk0
    refine ⟨m₁, none, heq, hInv', hl1, ?_⟩
    intro k' v'
    rw [hiff k' v']
    constructor
    · rintro (⟨rfl, rfl⟩ | h)
      · exact Or.inl ⟨rfl, rfl⟩
      · refine Or.inr ⟨?_, h⟩
        rintro rfl
        exact hk0 ⟨v', h⟩
    · rintro (⟨rfl, rfl⟩ | ⟨_, h⟩)
      · exact Or.inl ⟨rfl, rfl⟩
      · exact Or.inr h

/-- Uniform delete specification for the grouped design. -/
theorem delete_spec_sw {m : Map K V} (hInv : Inv m) (k : K) :
    ∃ m₁ old, m.delete k = some (m₁, old) ∧ Inv m₁ ∧
      ∀ k' v', HasKV m₁ k' v' ↔ (HasKV m k' v' ∧ k' ≠ k) := by
  cases hfi : m.find_slot_index k ((m.hash k).1) ((m.hash k).2) with
  | none =>
    refine ⟨m, none, by simp only [Map.delete, hfi], hInv, ?_⟩
    intro k' v'
    constructor
    · intro h
      refine ⟨h, ?_⟩
      rintro rfl
      exact find_slot_none_not_haskey hInv hfi ⟨v', h⟩
    · exact fun h => h.1
  | some si =>
    obtain ⟨e, c, he, hek, hcpos, hcg, heq, hInv', hiff⟩ :=
      delete_found_spec_sw hInv hfi
    exact ⟨_, some e.value, heq, hInv', hiff⟩

theorem step_spec_sw {m : Map K V} (hInv : Inv m) (op : Op K V) :
    ∃ m₁, m.step op = some m₁ ∧ Inv m₁ := by
  cases op with
  | ins k v hf =>
    obtain ⟨m₁, old, heq, hInv', _, _⟩ := insert_spec_sw hInv hf k v
    exact ⟨m₁, by simp [Map.step, heq], hInv'⟩
  | del k =>
    obtain ⟨m₁, old, heq, hInv', _⟩ := delete_spec_sw hInv k
    exact ⟨m₁, by simp [Map.step, heq], hInv'⟩

theorem step_Inv_sw {m m₁ : Map K V} (hInv : Inv m) {op : Op K V}
    (h : m.step op = some m₁) : Inv m₁ := by
  obtain ⟨m₂, h₂, hI⟩ := step_spec_sw hInv op
  rw [h₂] at h
  cases h
  exact hI

theorem step_preserve_kv_sw {m m₁ : Map K V} (hInv : Inv m) {k : K}
    {v : V} (hkv : HasKV m k v) {op : Op K V} (hav : avoids_sw op k)
    (h : m.step op = some m₁) : HasKV m₁ k v := by
  cases op with
  | ins k' v' hf =>
    obtain ⟨m₂, old, heq, hInv', _, hiff⟩ := insert_spec_sw hInv hf k' v'
    have : m₁ = m₂ := by
      simp only [Map.step, heq, Option.map_some'] at h
      exact (Option.some.inj h).symm
    subst this
    exact (hiff k v).mpr (Or.inr ⟨Ne.symm hav, hkv⟩)
  | del k' =>
    obtain ⟨m₂, old, heq, hInv', hiff⟩ := delete_spec_sw hInv k'
    have : m₁ = m₂ := by
      simp only [Map.step, heq, Option.map_some'] at h
      exact (Option.some.inj h).symm
    subst this
    exact (hiff k v).mpr ⟨hkv, Ne.symm hav⟩

theorem run_total_sw {m : Map K V} (hInv : Inv m) (ops : List (Op K V)) :
    ∃ m', m.run ops = some m' ∧ Inv m' := by
  induction ops generalizing m with
  | nil => exact ⟨m, rfl, hInv⟩
  | cons op t ih =>
    obtain ⟨m₁, h₁, hInv₁⟩ := step_spec_sw hInv op
    obtain ⟨m', h', hInv'⟩ := ih hInv₁
    refine ⟨m', ?_, hInv'⟩
    rw [Map.run, List.foldlM_cons, h₁]
    exact h'

theorem run_Inv_sw {m m' : Map K V} (hInv : Inv m) {ops : List (Op K V)}
    (h : m.run ops = some m') : Inv m' := by
  induction ops generalizing m with
  | nil =>
    cases h
    exact hInv
  | cons op t ih =>
    rw [Map.run, List.foldlM_cons] at h
    cases hstep : m.step op with
    | none => rw [hstep] at h; exact Option.noConfusion h
    | some m₁ =>
      rw [hstep] at h
      exact ih (step_Inv_sw hInv hstep) h

theorem run_preserve_kv_sw {m m' : Map K V} (hInv : Inv m) {k : K}
    {v : V} (hkv : HasKV m k v) {ops : List (Op K V)}
    (hall : ∀ op ∈ ops, avoids_sw op k)
    (h : m.run ops = some m') : HasKV m' k v := by
  induction ops generalizing m with
  | nil =>
    cases h
    exact hkv
  | cons op t ih =>
    rw [Map.run, List.foldlM_cons] at h
    cases hstep : m.step op with
    | none => rw [hstep] at h; exact Option.noConfusion h
    | some m₁ =>
      rw [hstep] at h
      exact ih (step_Inv_sw hInv hstep)
        (step_preserve_kv_sw hInv hkv (hall op (List.mem_cons_self _ _))
          hstep)
        (fun o ho => hall o (List.mem_cons_of_mem _ ho)) h

theorem Reachable_Inv_sw {m : Map K V} (h : Reachable m) : Inv m := by
  obtain ⟨hsh, ops, hrun⟩ := h
  exact run_Inv_sw (Inv_new_sw hsh) hrun

end Swiss

namespace Linear

variable {K V : Type} [DecidableEq K]

theorem overloaded_iff_ratio {m : Map K V} (hlen : 0 < m.slots.length) :
    m.overloaded ↔
      (9 : ℚ) / 10 ≤ (m.count : ℚ) / (m.slots.length : ℚ) := by
  unfold Map.overloaded
  rw [div_le_div_iff (by norm_num) (by exact_mod_cast hlen)]
  constructor
  · intro h
    have h' : (9 * m.slots.length : ℚ) ≤ (10 * m.count : ℚ) := by
      exact_mod_cast h
    push_cast at h' ⊢
    linarith
  · intro h
    have h' : (9 * m.slots.length : ℚ) ≤ (10 * m.count : ℚ) := by
      push_cast
      linarith
    exact_mod_cast h'

theorem find_empty_total_lin {m : Map K V} (hInv : Inv m)
    (hroom : m.count < m.slots.length) (k : K) :
    ∃ i, m.find_empty k = some i := by
  have hlen : 0 < m.slots.length := hInv.len_pos
  have hstart : m.hash k < m.slots.length := hash_lt hlen k
  have hcnt : occCount m.slots < m.slots.length := by
    have := hInv.count_eq
    omega
  cases hfe0 : m.find_empty k with
  | some i => exact ⟨i, rfl⟩
  | none =>
    exfalso
    obtain ⟨j0, s0, hj0, hs0⟩ := occCount_lt_exists_nonOcc hcnt
    have hj0lt : j0 < m.slots.length := getElem?_some_lt hj0
    have hfe0' : findEmptyGo m.slots m.slots.length (m.hash k) = none := hfe0
    have hocc := findEmptyGo_none m.slots.length (m.hash k) hstart hfe0'
      (Cyclic.dist (m.hash k) j0 m.slots.length) (Cyclic.dist_lt hlen)
    rw [Cyclic.add_dist hstart hj0lt] at hocc
    obtain ⟨e0, he0⟩ := hocc
    rw [hj0] at he0
    injection he0 with he0'
    rw [he0'] at hs0
    simp [isOcc] at hs0

/-- 63 distinct fresh keys inserted into a table in the C3 scenario
state: count tracks the inserts and the capacity doubles exactly once,
at the 59th insert. -/
theorem distinct_run_lin :
    ∀ (ks : List K) (vals : K → V) (m : Map K V), Inv m →
      ks.Nodup → (∀ k ∈ ks, ¬ HasKey m k) →
      m.count + ks.length ≤ 63 →
      m.slots.length = (if m.count ≤ 58 then 64 else 128) →
      ∃ m', m.run (ks.map fun k => Op.ins k (vals k)) = some m' ∧
        Inv m' ∧ m'.count = m.count + ks.length ∧
        m'.slots.length = (if m'.count ≤ 58 then 64 else 128) ∧
        (∀ k ∈ ks, HasKV m' k (vals k)) ∧
        (∀ k v, HasKV m k v → HasKV m' k v) := by
  intro ks
  induction ks with
  | nil =>
    intro vals m hInv _ _ _ hlenform
    exact ⟨m, rfl, hInv, by simp, hlenform, by simp, fun _ _ h => h⟩
  | cons k0 rest ih =>
    intro vals m hInv hnd hfresh hbound hlenform
    obtain ⟨hk0nr, hndr⟩ := List.nodup_cons.mp hnd
    obtain ⟨m₁, heq, hInv1, hc1, hl1, hh1, hiff1⟩ :=
      insert_absent_spec hInv (vals k0) (hfresh k0 (List.mem_cons_self _ _))
    have hbound' : m.count ≤ 62 := by
      simp only [List.length_cons] at hbound
      omega
    have hlform1 : m₁.slots.length = (if m₁.count ≤ 58 then 64 else 128) := by
      rw [hl1, hc1]
      by_cases hc : m.count ≤ 58
      · rw [if_pos hc] at hlenform
        by_cases hc57 : m.count ≤ 57
        · have hnov : ¬ m.overloaded := by
            unfold Map.overloaded
            rw [hlenform]
            omega
          rw [if_neg hnov, hlenform, if_pos (by omega)]
        · have hc58 : m.count = 58 := by omega
          have hov : m.overloaded := by
            unfold Map.overloaded
            rw [hlenform, hc58]
            norm_num
          rw [if_pos hov, hlenform, if_neg (by omega)]
      · rw [if_neg hc] at hlenform
        have hnov : ¬ m.overloaded := by
          unfold Map.overloaded
          rw [hlenform]
          omega
        rw [if_neg hnov, hlenform, if_neg (by omega)]
    have hfresh1 : ∀ k ∈ rest, ¬ HasKey m₁ k := by
      rintro k hk ⟨v, hkv⟩
      rcases (hiff1 k v).mp hkv with ⟨rfl, _⟩ | h
      · exact hk0nr hk
      · exact hfresh k (List.mem_cons_of_mem _ hk) ⟨v, h⟩
    have hbound1 : m₁.count + rest.length ≤ 63 := by
      rw [hc1]
      simp only [List.length_cons] at hbound
      omega
    obtain ⟨m', hrun, hInv', hc', hl', hmemkv, hpres⟩ :=
      ih vals m₁ hInv1 hndr hfresh1 hbound1 hlform1
    refine ⟨m', ?_, hInv', ?_, hl', ?_, ?_⟩
    · rw [List.map_cons, Map.run, List.foldlM_cons]
      have hstep : m.step (Op.ins k0 (vals k0)) = some m₁ := by
        simp [Map.step, heq]
      rw [hstep]
      exact hrun
    · rw [hc', hc1]
      simp only [List.length_cons]
      omega
    · intro k hk
      rcases List.mem_cons.mp hk with rfl | hk'
      · exact hpres k (vals k) ((hiff1 k (vals k)).mpr (Or.inl ⟨rfl, rfl⟩))
      · exact hmemkv k hk'
    · intro k v hkv
      exact hpres k v ((hiff1 k v).mpr (Or.inr hkv))

theorem new_not_haskey (h : K → Nat) (k : K) :
    ¬ HasKey (Map.new (V := V) h) k := by
  rintro ⟨v, j, e, hj, _, _⟩
  exact replicate_no_occ j e hj

end Linear

namespace Swiss

variable {K V : Type} [DecidableEq K]

theorem overloaded_iff_ratio_sw {m : Map K V} (hlen : 0 < m.slots.length) :
    m.is_overloaded ↔
      (9 : ℚ) / 10 ≤ (m.count : ℚ) / (m.slots.length : ℚ) := by
  unfold Map.is_overloaded
  rw [div_le_div_iff (by norm_num) (by exact_mod_cast hlen)]
  constructor
  · intro h
    have h' : (9 * m.slots.length : ℚ) ≤ (10 * m.count : ℚ) := by
      exact_mod_cast h
    push_cast at h' ⊢
    linarith
  · intro h
    have h' : (9 * m.slots.length : ℚ) ≤ (10 * m.count : ℚ) := by
      push_cast
      linarith
    exact_mod_cast h'

theorem liveCount_eq_filterMap (slots : List (Option (Entry K V))) :
    liveCount slots = (slots.filterMap id).length := by
  induction slots with
  | nil => rfl
  | cons c t ih =>
    cases c with
    | none => rw [liveCount_cons_none, ih]; simp
    | some e =>
      rw [liveCount_cons_some, ih]
      simp

theorem new_not_haskey_sw (h : K → Nat) (k : K) :
    ¬ HasKey (Map.new (V := V) h) k := by
  rintro ⟨v, j, e, hj, _, _⟩
  exact replicate_none_no_some j e hj

/-- The grouped-design analogue of `distinct_run_lin`. -/
theorem distinct_run_sw :
    ∀ (ks : List K) (vals : K → V) (hfs : K → K → Nat) (m : Map K V),
      Inv m → ks.Nodup → (∀ k ∈ ks, ¬ HasKey m k) →
      m.count + ks.length ≤ 63 →
      m.slots.length = (if m.count ≤ 58 then 64 else 128) →
      ∃ m', m.run (ks.map fun k => Op.ins k (vals k) (hfs k)) = some m' ∧
        Inv m' ∧ m'.count = m.count + ks.length ∧
        m'.slots.length = (if m'.count ≤ 58 then 64 else 128) ∧
        (∀ k ∈ ks, HasKV m' k (vals k)) ∧
        (∀ k v, HasKV m k v → HasKV m' k v) := by
  intro ks
  induction ks with
  | nil =>
    intro vals hfs m hInv _ _ _ hlenform
    exact ⟨m, rfl, hInv, by simp, hlenform, by simp, fun _ _ h => h⟩
  | cons k0 rest ih =>
    intro vals hfs m hInv hnd hfresh hbound hlenform
    obtain ⟨hk0nr, hndr⟩ := List.nodup_cons.mp hnd
    obtain ⟨m₁, heq, hInv1, hc1, hl1, hiff1⟩ :=
      insert_absent_spec_sw hInv (vals k0) (hfs k0)
        (hfresh k0 (List.mem_cons_self _ _))
    have hbound' : m.count ≤ 62 := by
      simp only [List.length_cons] at hbound
      omega
    have hlform1 : m₁.slots.length = (if m₁.count ≤ 58 then 64 else 128) := by
      rw [hl1, hc1]
      by_cases hc : m.count ≤ 58
      · rw [if_pos hc] at hlenform
        by_cases hc57 : m.count ≤ 57
        · have hnov : ¬ m.is_overloaded := by
            unfold Map.is_overloaded
            rw [hlenform]
            omega
          rw [if_neg hnov, hlenform, if_pos (by omega)]
        · have hc58 : m.count = 58 := by omega
          have hov : m.is_overloaded := by
            unfold Map.is_overloaded
            rw [hlenform, hc58]
            norm_num
          rw [if_pos hov, hlenform, if_neg (by omega)]
      · rw [if_neg hc] at hlenform
        have hnov : ¬ m.is_overloaded := by
          unfold Map.is_overloaded
          rw [hlenform]
          omega
        rw [if_neg hnov, hlenform, if_neg (by omega)]
    have hfresh1 : ∀ k ∈ rest, ¬ HasKey m₁ k := by
      rintro k hk ⟨v, hkv⟩
      rcases (hiff1 k v).mp hkv with ⟨rfl, _⟩ | h
      · exact hk0nr hk
      · exact hfresh k (List.mem_cons_of_mem _ hk) ⟨v, h⟩
    have hbound1 : m₁.count + rest.length ≤ 63 := by
      rw [hc1]
      simp only [List.length_cons] at hbound
      omega
    obtain ⟨m', hrun, hInv', hc', hl', hmemkv, hpres⟩ :=
      ih vals hfs m₁ hInv1 hndr hfresh1 hbound1 hlform1
    refine ⟨m', ?_, hInv', ?_, hl', ?_, ?_⟩
    · rw [List.map_cons, Map.run, List.foldlM_cons]
      have hstep : m.step (Op.ins k0 (vals k0) (hfs k0)) = some m₁ := by
        simp [Map.step, heq]
      rw [hstep]
      exact hrun
    · rw [hc', hc1]
      simp only [List.length_cons]
      omega
    · intro k hk
      rcases List.mem_cons.mp hk with rfl | hk'
      · exact hpres k (vals k) ((hiff1 k (vals k)).mpr (Or.inl ⟨rfl, rfl⟩))
      · exact hmemkv k hk'
    · intro k v hkv
      exact hpres k v ((hiff1 k v).mpr (Or.inr hkv))

end Swiss

/-- C7: Grouped-design hash split — for every key, the placement
derivation splits the 64-bit digest `h` into `h2`, the low 7 bits of `h`
(a value in 0–127), and a starting group index `(h >> 7) % group_count`. -/
theorem claim_C7_hash_split {K V : Type} [DecidableEq K]
    (m : Swiss.Map K V) (k : K) :
    (m.hash k).2 = m.hasher k % Swiss.U64 % 2 ^ 7 ∧
    (m.hash k).2 < 128 ∧
    (m.hash k).1 = m.hasher k % Swiss.U64 / 2 ^ 7 % m.group_count :=
  ⟨Swiss.hash_h2_eq m k, Swiss.hash_h2_lt m k, Swiss.hash_h1_eq m k⟩

/-- C9: Delete-absence atomicity (both designs) — deleting a key that is
stored in no occupied slot returns `None` and leaves the table (slots,
count and control bytes) completely unchanged. -/
theorem claim_C9_delete_absent {K V : Type} [DecidableEq K] :
    (∀ (m : Linear.Map K V) (k : K),
      (∀ (j : Nat) (e : Linear.Entry K V),
        m.slots[j]? = some (Linear.Slot.Occupied e) → e.key ≠ k) →
      m.delete k = some (m, none)) ∧
    (∀ (m : Swiss.Map K V) (k : K),
      (∀ (j : Nat) (e : Swiss.Entry K V),
        m.slots[j]? = some (some e) → e.key ≠ k) →
      m.delete k = some (m, none)) := by
  constructor
  · intro m k habs
    have hfi : m.find_index k = none := Linear.find_index_absent habs
    simp only [Linear.Map.delete, hfi]
  · intro m k habs
    have hfi : m.find_slot_index k ((m.hash k).1) ((m.hash k).2) = none :=
      Swiss.find_slot_absent habs _ _
    simp only [Swiss.Map.delete, hfi]

/-- Witness for C9 at a concrete input: deleting key `0` from a fresh
table of either design returns `(table, None)` unchanged. -/
theorem claim_C9_delete_absent_witness :
    (Linear.Map.new (fun _ => 0) : Linear.Map Nat Nat).delete 0 =
      some (Linear.Map.new (fun _ => 0), none) ∧
    (Swiss.Map.new (fun _ => 0) : Swiss.Map Nat Nat).delete 0 =
      some (Swiss.Map.new (fun _ => 0), none) :=
  ⟨claim_C9_delete_absent.1 (Linear.Map.new (fun _ => 0)) 0
      (fun j e hj => absurd hj (Linear.replicate_no_occ j e)),
   claim_C9_delete_absent.2 (Swiss.Map.new (fun _ => 0)) 0
      (fun j e hj => absurd hj (Swiss.replicate_none_no_some j e))⟩

/-- C5 counterexample: the claim describes the `Deleted` sentinel as the
all-ones-except-high-bit byte, i.e. `0b0111_1111 = 127`; but 127 lies
inside the 7-bit short-hash range 0–127 claimed for occupied slots (so
the claimed partition is not disjoint), and the code's actual sentinel
is `0b1111_1110 = 254`, which is not 127. -/
theorem claim_C5_counterexample :
    Swiss.Ctrl.SLOT_DELETED = 254 ∧ Swiss.Ctrl.SLOT_DELETED ≠ 127 ∧
    (127 : Nat) < 128 := by
  refine ⟨rfl, ?_, by norm_num⟩
  intro h
  simp only [Swiss.Ctrl.SLOT_DELETED] at h
  omega

/-- C5 (amended): the control bytes are partitioned into the
high-bit-set sentinel `0b1000_0000 = 128` meaning Empty, the
all-ones-except-the-lowest-bit sentinel `0b1111_1110 = 254` meaning
Deleted, and the 7-bit range 0–127 used as the short-hash tag of
occupied slots; the three kinds are pairwise disjoint, and every control
byte of every reachable table is of one of the three kinds. -/
theorem claim_C5_ctrl_encoding {K V : Type} [DecidableEq K] :
    Swiss.Ctrl.SLOT_EMPTY = 128 ∧ Nat.testBit Swiss.Ctrl.SLOT_EMPTY 7 = true ∧
    Swiss.Ctrl.SLOT_DELETED = 254 ∧
    ¬ Swiss.Ctrl.SLOT_EMPTY < 128 ∧ ¬ Swiss.Ctrl.SLOT_DELETED < 128 ∧
    Swiss.Ctrl.SLOT_EMPTY ≠ Swiss.Ctrl.SLOT_DELETED ∧
    ∀ (m : Swiss.Map K V), Swiss.Reachable m →
      ∀ (si b : Nat), m.byteAt si = some b →
        b < 128 ∨ b = Swiss.Ctrl.SLOT_EMPTY ∨ b = Swiss.Ctrl.SLOT_DELETED := by
    refine ⟨rfl, by decide, rfl, by decide, by decide, by decide, ?_⟩
    intro m hreach si b hb
    have hInv := Swiss.Reachable_Inv_sw hreach
    have hdivlt : si / Swiss.GROUP_SIZE < m.group_count := by
      by_contra hge
      have : m.ctrl[si / Swiss.GROUP_SIZE]? = none :=
        List.getElem?_eq_none (by rw [hInv.ctrl_len]; omega)
      unfold Swiss.Map.byteAt Swiss.byteAtCtrl at hb
      rw [this] at hb
      exact Option.noConfusion hb
    have hsilt : si < m.slots.length := by
      have := hInv.slots_len
      unfold Swiss.GROUP_SIZE at *
      omega
    obtain ⟨s, hs⟩ := Linear.getElem?_total hsilt
    cases s with
    | some e =>
      left
      have := hInv.coh_occ si e hs
      rw [this] at hb
      injection hb with hb'
      have := Swiss.hash_h2_lt m e.key
      omega
    | none =>
      right
      rcases hInv.coh_none si hs with h | h <;> rw [h] at hb <;>
        injection hb with hb'
      · exact Or.inl hb'.symm
      · exact Or.inr hb'.symm

/-- Witness for C5's amended claim at a concrete input: in the fresh
grouped table every byte is the Empty sentinel; byte 0 is classified. -/
theorem claim_C5_ctrl_encoding_witness :
    (128 : Nat) < 128 ∨ (128 : Nat) = Swiss.Ctrl.SLOT_EMPTY ∨
      (128 : Nat) = Swiss.Ctrl.SLOT_DELETED :=
  (claim_C5_ctrl_encoding (K := Nat) (V := Nat)).2.2.2.2.2.2
    (Swiss.Map.new (fun _ => 0)) ⟨fun _ => 0, [], rfl⟩ 0 128 rfl

/-- C4: Grouped-design short-hash consistency — in every reachable
state (including immediately after growths, which re-randomize the
hasher) every occupied slot's control byte equals the low 7 bits of the
current hasher's digest of that slot's key. -/
theorem claim_C4_h2_consistency {K V : Type} [DecidableEq K]
    (m : Swiss.Map K V) (hreach : Swiss.Reachable m) :
    ∀ (si : Nat) (e : Swiss.Entry K V), m.slots[si]? = some (some e) →
      m.byteAt si = some (m.hasher e.key % Swiss.U64 % 2 ^ 7) := by
  intro si e hsi
  have hInv := Swiss.Reachable_Inv_sw hreach
  have := hInv.coh_occ si e hsi
  rw [this, Swiss.hash_h2_eq]

/-- Witness for C4 at a concrete input: after inserting `(0, 1)` into a
fresh grouped table (hasher ≡ 0), slot 0 holds the entry and its control
byte is the low 7 bits of the digest. -/
theorem claim_C4_h2_consistency_witness :
    ∃ m : Swiss.Map Nat Nat, Swiss.Reachable m ∧
      m.slots[0]? = some (some ⟨0, 1⟩) ∧
      m.byteAt 0 = some (m.hasher 0 % Swiss.U64 % 2 ^ 7) := by
  have hrun : (Swiss.Map.new (fun _ => 0) : Swiss.Map Nat Nat).run
      [Swiss.Op.ins 0 1 (fun _ => 0)] =
      some { slots := (List.replicate 64 none).set 0 (some ⟨0, 1⟩), count := 1, group_count := 8, ctrl := (List.replicate 8 Swiss.Ctrl.new).set 0 ⟨(List.replicate 8 128).set 0 0⟩, hasher := fun _ => 0 } := by
    rfl
  refine ⟨_, ⟨fun _ => 0, [Swiss.Op.ins 0 1 (fun _ => 0)], hrun⟩, ?_, ?_⟩
  · rfl
  · exact claim_C4_h2_consistency _
      ⟨fun _ => 0, [Swiss.Op.ins 0 1 (fun _ => 0)], hrun⟩ 0 ⟨0, 1⟩ rfl

/-- C1: Round-trip (both designs) — after `insert(k, v)` on any
reachable table, `get(k)` returns `Some(v)`, and keeps doing so across
any later sequence of operations (including any growth/rehash they
trigger) that contains no `delete(k)` and no overwriting
`insert(k, _)`. -/
theorem claim_C1_roundtrip {K V : Type} [DecidableEq K] :
    (∀ (m : Linear.Map K V), Linear.Reachable m →
      ∀ (k : K) (v : V) (m₁ : Linear.Map K V) (old : Option V),
        m.insert k v = some (m₁, old) →
        ∀ (ops : List (Linear.Op K V)) (m₂ : Linear.Map K V),
          (∀ op ∈ ops, Linear.avoids op k) →
          m₁.run ops = some m₂ → m₂.get k = some v) ∧
    (∀ (m : Swiss.Map K V), Swiss.Reachable m →
      ∀ (hf : K → Nat) (k : K) (v : V) (m₁ : Swiss.Map K V)
        (old : Option V),
        m.insert hf k v = some (m₁, old) →
        ∀ (ops : List (Swiss.Op K V)) (m₂ : Swiss.Map K V),
          (∀ op ∈ ops, Swiss.avoids_sw op k) →
          m₁.run ops = some m₂ → m₂.get k = some v) := by
  constructor
  · intro m hreach k v m₁ old hins ops m₂ hall hrun
    have hInv := Linear.Reachable_Inv hreach
    obtain ⟨m₁', old', hins', hInv1, _, hiff⟩ := Linear.insert_spec hInv k v
    rw [hins'] at hins
    have hm : m₁' = m₁ := congrArg Prod.fst (Option.some.inj hins)
    subst hm
    have hkv1 : Linear.HasKV m₁' k v := (hiff k v).mpr (Or.inl ⟨rfl, rfl⟩)
    have hkv2 := Linear.run_preserve_kv hInv1 hkv1 hall hrun
    have hInv2 := Linear.run_Inv hInv1 hrun
    exact (Linear.get_spec hInv2 k v).mpr hkv2
  · intro m hreach hf k v m₁ old hins ops m₂ hall hrun
    have hInv := Swiss.Reachable_Inv_sw hreach
    obtain ⟨m₁', old', hins', hInv1, _, hiff⟩ :=
      Swiss.insert_spec_sw hInv hf k v
    rw [hins'] at hins
    have hm : m₁' = m₁ := congrArg Prod.fst (Option.some.inj hins)
    subst hm
    have hkv1 : Swiss.HasKV m₁' k v := (hiff k v).mpr (Or.inl ⟨rfl, rfl⟩)
    have hkv2 := Swiss.run_preserve_kv_sw hInv1 hkv1 hall hrun
    have hInv2 := Swiss.run_Inv_sw hInv1 hrun
    exact (Swiss.get_spec_sw hInv2 k v).mpr hkv2

/-- Witness for C1 at a concrete input: inserting `(0, 1)` into a fresh
table of either design (hasher ≡ 0), then running no further operations,
leaves `get 0 = some 1`. -/
theorem claim_C1_roundtrip_witness :
    ({ slots := (List.replicate 64 Linear.Slot.Empty).set 0 (Linear.Slot.Occupied ⟨0, 1⟩), count := 1, hasher := fun _ => 0 } : Linear.Map Nat Nat).get 0 = some 1 ∧
    ({ slots := (List.replicate 64 none).set 0 (some ⟨0, 1⟩), count := 1, group_count := 8, ctrl := (List.replicate 8 Swiss.Ctrl.new).set 0 ⟨(List.replicate 8 128).set 0 0⟩, hasher := fun _ => 0 } : Swiss.Map Nat Nat).get 0 = some 1 := by
  constructor
  · exact claim_C1_roundtrip.1 (Linear.Map.new (fun _ => 0))
      ⟨fun _ => 0, [], rfl⟩ 0 1 _ none rfl [] _ (by simp) rfl
  · exact claim_C1_roundtrip.2 (Swiss.Map.new (fun _ => 0))
      ⟨fun _ => 0, [], rfl⟩ (fun _ => 0) 0 1
      ({ slots := (List.replicate 64 none).set 0 (some ⟨0, 1⟩), count := 1, group_count := 8, ctrl := (List.replicate 8 Swiss.Ctrl.new).set 0 ⟨(List.replicate 8 128).set 0 0⟩, hasher := fun _ => 0 } : Swiss.Map Nat Nat)
      none (by rfl) [] _ (by simp) rfl

/-- C2: Tombstone transparency of the linear-probe lookup — the probe
loop reports "not found" at an `Empty` slot, walks straight past a
`Deleted` slot, reports "found" at an `Occupied` slot whose key matches
(and continues otherwise); `find_index` runs this walk from the home
index with one unit of fuel per slot.  Consequently, on any reachable
table, after `insert(k1, v1)`, `insert(k2, v2)` and `delete(k1)` with
`k1 ≠ k2`, `get(k2)` still returns `Some(v2)`. -/
theorem claim_C2_tombstone_transparency {K V : Type} [DecidableEq K] :
    (∀ (slots : List (Linear.Slot (Linear.Entry K V))) (k : K)
      (fuel i : Nat), slots[i]? = some Linear.Slot.Empty →
        Linear.findIndexGo slots k (fuel + 1) i = none) ∧
    (∀ (slots : List (Linear.Slot (Linear.Entry K V))) (k : K)
      (fuel i : Nat), slots[i]? = some Linear.Slot.Deleted →
        Linear.findIndexGo slots k (fuel + 1) i =
          Linear.findIndexGo slots k fuel ((i + 1) % slots.length)) ∧
    (∀ (slots : List (Linear.Slot (Linear.Entry K V))) (k : K)
      (fuel i : Nat) (e : Linear.Entry K V),
      slots[i]? = some (Linear.Slot.Occupied e) →
        Linear.findIndexGo slots k (fuel + 1) i =
          (if e.key = k then some i
           else Linear.findIndexGo slots k fuel ((i + 1) % slots.length))) ∧
    (∀ (m : Linear.Map K V) (k : K),
      m.find_index k =
        Linear.findIndexGo m.slots k m.slots.length (m.hash k)) ∧
    (∀ (m : Linear.Map K V), Linear.Reachable m →
      ∀ (k1 k2 : K) (v1 v2 : V), k1 ≠ k2 →
        ∀ (ma mb mc : Linear.Map K V) (o1 o2 o3 : Option V),
          m.insert k1 v1 = some (ma, o1) →
          ma.insert k2 v2 = some (mb, o2) →
          mb.delete k1 = some (mc, o3) →
          mc.get k2 = some v2) := by
  refine ⟨?_, ?_, ?_, ?_, ?_⟩
  · intro slots k fuel i h
    simp only [Linear.findIndexGo, h]
  · intro slots k fuel i h
    simp only [Linear.findIndexGo, h]
  · intro slots k fuel i e h
    simp only [Linear.findIndexGo, h]
  · intro m k
    rfl
  · intro m hreach k1 k2 v1 v2 hne ma mb mc o1 o2 o3 h1 h2 h3
    have hInv := Linear.Reachable_Inv hreach
    obtain ⟨ma', oa', ha', hInva, _, hiffa⟩ := Linear.insert_spec hInv k1 v1
    rw [ha'] at h1
    have hma : ma' = ma := congrArg Prod.fst (Option.some.inj h1)
    subst hma
    obtain ⟨mb', ob', hb', hInvb, _, hiffb⟩ := Linear.insert_spec hInva k2 v2
    rw [hb'] at h2
    have hmb : mb' = mb := congrArg Prod.fst (Option.some.inj h2)
    subst hmb
    obtain ⟨mc', oc', hc', hInvc, _, hiffc⟩ := Linear.delete_spec hInvb k1
    rw [hc'] at h3
    have hmc : mc' = mc := congrArg Prod.fst (Option.some.inj h3)
    subst hmc
    have hkvb : Linear.HasKV mb' k2 v2 :=
      (hiffb k2 v2).mpr (Or.inl ⟨rfl, rfl⟩)
    have hkvc : Linear.HasKV mc' k2 v2 :=
      (hiffc k2 v2).mpr ⟨hkvb, Ne.symm hne⟩
    exact (Linear.get_spec hInvc k2 v2).mpr hkvc

/-- Witness for C2 at concrete inputs: the three probe-step behaviours
on one-slot tables, and the colliding scenario insert `(0, 10)`, insert
`(1, 20)` (hasher ≡ 0, so key 1 is probed past key 0's slot), delete
`0`, after which `get 1` still returns `some 20` through the
tombstone. -/
theorem claim_C2_tombstone_transparency_witness :
    Linear.findIndexGo ([Linear.Slot.Empty] : List (Linear.Slot (Linear.Entry Nat Nat))) 0 1 0 = none ∧
    Linear.findIndexGo ([Linear.Slot.Deleted] : List (Linear.Slot (Linear.Entry Nat Nat))) 0 1 0 = none ∧
    Linear.findIndexGo ([Linear.Slot.Occupied ⟨0, 1⟩] : List (Linear.Slot (Linear.Entry Nat Nat))) 0 1 0 = some 0 ∧
    ({ slots := (((List.replicate 64 Linear.Slot.Empty).set 0 (Linear.Slot.Occupied ⟨0, 10⟩)).set 1 (Linear.Slot.Occupied ⟨1, 20⟩)).set 0 Linear.Slot.Deleted, count := 1, hasher := fun _ => 0 } : Linear.Map Nat Nat).get 1 = some 20 := by
  refine ⟨claim_C2_tombstone_transparency.1 _ 0 0 0 rfl,
    claim_C2_tombstone_transparency.2.1 _ 0 0 0 rfl,
    claim_C2_tombstone_transparency.2.2.1
      ([Linear.Slot.Occupied ⟨0, 1⟩] : List (Linear.Slot (Linear.Entry Nat Nat)))
      0 0 0 ⟨0, 1⟩ rfl, ?_⟩
  exact claim_C2_tombstone_transparency.2.2.2.2
    (Linear.Map.new (fun _ => 0)) ⟨fun _ => 0, [], rfl⟩ 0 1 10 20
    (by decide)
    ({ slots := (List.replicate 64 Linear.Slot.Empty).set 0 (Linear.Slot.Occupied ⟨0, 10⟩), count := 1, hasher := fun _ => 0 })
    ({ slots := ((List.replicate 64 Linear.Slot.Empty).set 0 (Linear.Slot.Occupied ⟨0, 10⟩)).set 1 (Linear.Slot.Occupied ⟨1, 20⟩), count := 2, hasher := fun _ => 0 })
    _ none none (some 10) rfl rfl rfl

/-- C3: Growth preserves data (both designs) — from a fresh 64-slot
table, inserting 63 ( = ⌈64 × 0.9⌉ + 5) distinct keys keeps the
capacity at 64 through the first 58 inserts and at 128 from the 59th
insert on (a single doubling), and after any number of the inserts
every previously inserted key is retrievable by `get` with its original
value. -/
theorem claim_C3_growth_preserves_data {K V : Type} [DecidableEq K] :
    (∀ (h : K → Nat) (ks : List K) (vals : K → V), ks.Nodup →
      ks.length = 63 →
      (Linear.Map.new h : Linear.Map K V).slots.length = 64 ∧
      ∀ n, n ≤ 63 →
        ∃ mp, (Linear.Map.new h : Linear.Map K V).run
            ((ks.take n).map fun k => Linear.Op.ins k (vals k)) = some mp ∧
          mp.count = n ∧
          mp.slots.length = (if n ≤ 58 then 64 else 128) ∧
          ∀ k ∈ ks.take n, mp.get k = some (vals k)) ∧
    (∀ (h : K → Nat) (hfs : K → K → Nat) (ks : List K) (vals : K → V),
      ks.Nodup → ks.length = 63 →
      (Swiss.Map.new h : Swiss.Map K V).slots.length = 64 ∧
      ∀ n, n ≤ 63 →
        ∃ mp, (Swiss.Map.new h : Swiss.Map K V).run
            ((ks.take n).map fun k =>
              Swiss.Op.ins k (vals k) (hfs k)) = some mp ∧
          mp.count = n ∧
          mp.slots.length = (if n ≤ 58 then 64 else 128) ∧
          ∀ k ∈ ks.take n, mp.get k = some (vals k)) := by
  constructor
  · intro h ks vals hnd hlen
    refine ⟨by simp [Linear.Map.new, Linear.INITIAL_SIZE], ?_⟩
    intro n hn
    have hInv0 := Linear.Inv_new (V := V) h
    have hndn : (ks.take n).Nodup := hnd.sublist (List.take_sublist n ks)
    have hfresh : ∀ k ∈ ks.take n,
        ¬ Linear.HasKey (Linear.Map.new h : Linear.Map K V) k :=
      fun k _ => Linear.new_not_haskey h k
    have hlenn : (ks.take n).length = n := by
      rw [List.length_take, hlen]
      omega
    have hbound : (Linear.Map.new h : Linear.Map K V).count +
        (ks.take n).length ≤ 63 := by
      rw [hlenn]
      simp [Linear.Map.new]
      omega
    have hform : (Linear.Map.new h : Linear.Map K V).slots.length =
        (if (Linear.Map.new h : Linear.Map K V).count ≤ 58
         then 64 else 128) := by
      simp [Linear.Map.new, Linear.INITIAL_SIZE]
    obtain ⟨m', hrun, hInv', hc', hl', hmem, _⟩ :=
      Linear.distinct_run_lin (ks.take n) vals _ hInv0 hndn hfresh hbound
        hform
    have hcn : m'.count = n := by
      rw [hc', hlenn]
      simp [Linear.Map.new]
    refine ⟨m', hrun, hcn, by rw [hl', hcn],
      fun k hk => (Linear.get_spec hInv' k (vals k)).mpr (hmem k hk)⟩
  · intro h hfs ks vals hnd hlen
    refine ⟨by simp [Swiss.Map.new, Swiss.GROUP_SIZE], ?_⟩
    intro n hn
    have hInv0 := Swiss.Inv_new_sw (V := V) h
    have hndn : (ks.take n).Nodup := hnd.sublist (List.take_sublist n ks)
    have hfresh : ∀ k ∈ ks.take n,
        ¬ Swiss.HasKey (Swiss.Map.new h : Swiss.Map K V) k :=
      fun k _ => Swiss.new_not_haskey_sw h k
    have hlenn : (ks.take n).length = n := by
      rw [List.length_take, hlen]
      omega
    have hbound : (Swiss.Map.new h : Swiss.Map K V).count +
        (ks.take n).length ≤ 63 := by
      rw [hlenn]
      simp [Swiss.Map.new]
      omega
    have hform : (Swiss.Map.new h : Swiss.Map K V).slots.length =
        (if (Swiss.Map.new h : Swiss.Map K V).count ≤ 58
         then 64 else 128) := by
      simp [Swiss.Map.new, Swiss.GROUP_SIZE]
    obtain ⟨m', hrun, hInv', hc', hl', hmem, _⟩ :=
      Swiss.distinct_run_sw (ks.take n) vals hfs _ hInv0 hndn hfresh hbound
        hform
    have hcn : m'.count = n := by
      rw [hc', hlenn]
      simp [Swiss.Map.new]
    refine ⟨m', hrun, hcn, by rw [hl', hcn],
      fun k hk => (Swiss.get_spec_sw hInv' k (vals k)).mpr (hmem k hk)⟩

/-- Witness for C3 at a concrete input: the 63 distinct keys
`0, …, 62` with identity values, inserted into fresh tables of both
designs, end at capacity 128 with every key retrievable. -/
theorem claim_C3_growth_preserves_data_witness :
    (∃ mp, (Linear.Map.new (fun _ => 0) : Linear.Map Nat Nat).run
        (((List.range 63).take 63).map fun k => Linear.Op.ins k k) =
          some mp ∧
      mp.count = 63 ∧ mp.slots.length = (if 63 ≤ 58 then 64 else 128) ∧
      ∀ k ∈ (List.range 63).take 63, mp.get k = some k) ∧
    (∃ mp, (Swiss.Map.new (fun _ => 0) : Swiss.Map Nat Nat).run
        (((List.range 63).take 63).map fun k =>
          Swiss.Op.ins k k (fun _ => 0)) = some mp ∧
      mp.count = 63 ∧ mp.slots.length = (if 63 ≤ 58 then 64 else 128) ∧
      ∀ k ∈ (List.range 63).take 63, mp.get k = some k) := by
  constructor
  · exact (claim_C3_growth_preserves_data.1 (fun _ => 0) (List.range 63)
      (fun k => k) (List.nodup_range 63) (by simp)).2 63 (by omega)
  · exact (claim_C3_growth_preserves_data.2 (fun _ => 0) (fun _ _ => 0)
      (List.range 63) (fun k => k) (List.nodup_range 63) (by simp)).2 63
      (by omega)

/-- C6: Growth policy (both designs) — the initial capacity is 64
slots; the overload check compares the exact occupancy ratio
`count / capacity` with `9/10`, growing exactly when the ratio is at
least `9/10` (equality triggers growth, strictly-less does not); on
insert the capacity becomes exactly twice the old capacity when the
pre-insert state was overloaded and stays unchanged otherwise (linear:
the check only runs when the key is absent, a present key is replaced
in place; grouped: the check runs first on every insert), and the
condition is on the pre-insert state `m`, so the element being inserted
never counts toward the checked ratio. -/
theorem claim_C6_growth_policy {K V : Type} [DecidableEq K] :
    (∀ h : K → Nat,
      (Linear.Map.new h : Linear.Map K V).slots.length = 64) ∧
    (∀ h : K → Nat,
      (Swiss.Map.new h : Swiss.Map K V).slots.length = 64) ∧
    (∀ m : Linear.Map K V, 0 < m.slots.length →
      (m.overloaded ↔
        (9 : ℚ) / 10 ≤ (m.count : ℚ) / (m.slots.length : ℚ))) ∧
    (∀ m : Swiss.Map K V, 0 < m.slots.length →
      (m.is_overloaded ↔
        (9 : ℚ) / 10 ≤ (m.count : ℚ) / (m.slots.length : ℚ))) ∧
    (∀ m : Linear.Map K V, Linear.Inv m →
      ∀ (k : K) (v : V) (m₁ : Linear.Map K V) (old : Option V),
        m.insert k v = some (m₁, old) →
        (¬ Linear.HasKey m k →
          m₁.slots.length =
            (if m.overloaded then 2 * m.slots.length
             else m.slots.length)) ∧
        (Linear.HasKey m k → m₁.slots.length = m.slots.length)) ∧
    (∀ m : Swiss.Map K V, Swiss.Inv m →
      ∀ (hf : K → Nat) (k : K) (v : V) (m₁ : Swiss.Map K V)
        (old : Option V),
        m.insert hf k v = some (m₁, old) →
        m₁.slots.length =
          (if m.is_overloaded then 2 * m.slots.length
           else m.slots.length)) := by
  refine ⟨?_, ?_, ?_, ?_, ?_, ?_⟩
  · intro h
    simp [Linear.Map.new, Linear.INITIAL_SIZE]
  · intro h
    simp [Swiss.Map.new, Swiss.GROUP_SIZE]
  · exact fun m hl => Linear.overloaded_iff_ratio hl
  · exact fun m hl => Swiss.overloaded_iff_ratio_sw hl
  · intro m hInv k v m₁ old hins
    constructor
    · intro habs
      obtain ⟨m₁', heq, _, _, hl1, _, _⟩ :=
        Linear.insert_absent_spec hInv v habs
      rw [heq] at hins
      have hm : m₁' = m₁ := congrArg Prod.fst (Option.some.inj hins)
      subst hm
      exact hl1
    · rintro ⟨v0, j, e, hj, hek, hv⟩
      have hfi := Linear.find_index_hit hInv hj hek
      obtain ⟨e', m₁', he', hek', heq, _, _, hl1, _, _⟩ :=
        Linear.insert_present_spec hInv hfi v
      rw [heq] at hins
      have hm : m₁' = m₁ := congrArg Prod.fst (Option.some.inj hins)
      subst hm
      exact hl1
  · intro m hInv hf k v m₁ old hins
    obtain ⟨m₁', old', heq, _, hl1, _⟩ := Swiss.insert_spec_sw hInv hf k v
    rw [heq] at hins
    have hm : m₁' = m₁ := congrArg Prod.fst (Option.some.inj hins)
    subst hm
    exact hl1

/-- Witness for C6 at concrete inputs: the ratio characterization on
fresh tables of both designs, and the no-growth conclusion for a first
insert (key `5`, value `7`, hasher ≡ 0) into each fresh table. -/
theorem claim_C6_growth_policy_witness :
    ((Linear.Map.new (fun _ => 0) : Linear.Map Nat Nat).overloaded ↔
      (9 : ℚ) / 10 ≤
        (((Linear.Map.new (fun _ => 0) : Linear.Map Nat Nat).count : ℚ) /
          ((Linear.Map.new (fun _ => 0) : Linear.Map Nat Nat).slots.length : ℚ))) ∧
    ((Swiss.Map.new (fun _ => 0) : Swiss.Map Nat Nat).is_overloaded ↔
      (9 : ℚ) / 10 ≤
        (((Swiss.Map.new (fun _ => 0) : Swiss.Map Nat Nat).count : ℚ) /
          ((Swiss.Map.new (fun _ => 0) : Swiss.Map Nat Nat).slots.length : ℚ))) ∧
    ({ slots := (List.replicate 64 Linear.Slot.Empty).set 0 (Linear.Slot.Occupied ⟨5, 7⟩), count := 1, hasher := fun _ => 0 } : Linear.Map Nat Nat).slots.length =
      (if (Linear.Map.new (fun _ => 0) : Linear.Map Nat Nat).overloaded
       then 2 * (Linear.Map.new (fun _ => 0) : Linear.Map Nat Nat).slots.length
       else (Linear.Map.new (fun _ => 0) : Linear.Map Nat Nat).slots.length) ∧
    ({ slots := (List.replicate 64 none).set 0 (some ⟨5, 7⟩), count := 1, group_count := 8, ctrl := (List.replicate 8 Swiss.Ctrl.new).set 0 ⟨(List.replicate 8 128).set 0 0⟩, hasher := fun _ => 0 } : Swiss.Map Nat Nat).slots.length =
      (if (Swiss.Map.new (fun _ => 0) : Swiss.Map Nat Nat).is_overloaded
       then 2 * (Swiss.Map.new (fun _ => 0) : Swiss.Map Nat Nat).slots.length
       else (Swiss.Map.new (fun _ => 0) : Swiss.Map Nat Nat).slots.length) := by
  refine ⟨claim_C6_growth_policy.2.2.1 (Linear.Map.new (fun _ => 0))
      (by simp [Linear.Map.new, Linear.INITIAL_SIZE]),
    claim_C6_growth_policy.2.2.2.1 (Swiss.Map.new (fun _ => 0))
      (by simp [Swiss.Map.new, Swiss.GROUP_SIZE]), ?_, ?_⟩
  · exact (claim_C6_growth_policy.2.2.2.2.1 (Linear.Map.new (fun _ => 0))
      (Linear.Inv_new (fun _ => 0)) 5 7
      ({ slots := (List.replicate 64 Linear.Slot.Empty).set 0 (Linear.Slot.Occupied ⟨5, 7⟩), count := 1, hasher := fun _ => 0 })
      none (by rfl)).1
      (fun hk => absurd hk (Linear.new_not_haskey (fun _ => 0) 5))
  · exact claim_C6_growth_policy.2.2.2.2.2 (Swiss.Map.new (fun _ => 0))
      (Swiss.Inv_new_sw (fun _ => 0)) (fun _ => 0) 5 7
      ({ slots := (List.replicate 64 none).set 0 (some ⟨5, 7⟩), count := 1, group_count := 8, ctrl := (List.replicate 8 Swiss.Ctrl.new).set 0 ⟨(List.replicate 8 128).set 0 0⟩, hasher := fun _ => 0 } : Swiss.Map Nat Nat)
      none (by rfl)

/-- C8: Unreachability of the insert wraparound panic (both designs) —
on every reachable table, the empty-slot search performed during insert
after the growth check finds an empty-or-deleted slot before wrapping
fully around (its fuel never runs out), and in particular `insert`
always returns a value instead of panicking. -/
theorem claim_C8_no_insert_panic {K V : Type} [DecidableEq K] :
    (∀ m : Linear.Map K V, Linear.Reachable m → ∀ (k : K) (v : V),
      (∃ m₂, m.expand = some m₂ ∧ ∃ i, m₂.find_empty k = some i) ∧
      ∃ r, m.insert k v = some r) ∧
    (∀ m : Swiss.Map K V, Swiss.Reachable m →
      ∀ (hf : K → Nat) (k : K) (v : V),
        (∃ m₂,
          (if m.is_overloaded then m.expand hf else some m) = some m₂ ∧
          ∀ g, g < m₂.group_count →
            ∃ si, m₂.find_empty_slot_index g = some si) ∧
        ∃ r, m.insert hf k v = some r) := by
  constructor
  · intro m hreach k v
    have hInv := Linear.Reachable_Inv hreach
    constructor
    · obtain ⟨m₂, hexp, hInv₂, _, _, _, hnov₂, _⟩ := Linear.expand_spec hInv
      have hroom : m₂.count < m₂.slots.length := hInv₂.count_lt
      exact ⟨m₂, hexp, Linear.find_empty_total_lin hInv₂ hroom k⟩
    · obtain ⟨m₁, old, heq, _⟩ := Linear.insert_spec hInv k v
      exact ⟨(m₁, old), heq⟩
  · intro m hreach hf k v
    have hInv := Swiss.Reachable_Inv_sw hreach
    constructor
    · by_cases hov : m.is_overloaded
      · obtain ⟨m₂, hexp, hInv₂, _⟩ := Swiss.expand_spec_sw hInv hf
        refine ⟨m₂, by rw [if_pos hov]; exact hexp, ?_⟩
        intro g hg
        have hroom : Swiss.liveCount m₂.slots < m₂.slots.length := by
          rw [← hInv₂.count_eq]
          exact hInv₂.count_lt
        exact Swiss.find_empty_slot_total hInv₂ hroom hg
      · refine ⟨m, by rw [if_neg hov], ?_⟩
        intro g hg
        have hroom : Swiss.liveCount m.slots < m.slots.length := by
          rw [← hInv.count_eq]
          exact hInv.count_lt
        exact Swiss.find_empty_slot_total hInv hroom hg
    · obtain ⟨m₁, old, heq, _⟩ := Swiss.insert_spec_sw hInv hf k v
      exact ⟨(m₁, old), heq⟩

/-- Witness for C8 at a concrete input: on fresh tables of both designs
(hasher ≡ 0), the empty-slot searches succeed and `insert 0 1` returns
a value. -/
theorem claim_C8_no_insert_panic_witness :
    ((∃ m₂, (Linear.Map.new (fun _ => 0) : Linear.Map Nat Nat).expand =
        some m₂ ∧ ∃ i, m₂.find_empty 0 = some i) ∧
      ∃ r, (Linear.Map.new (fun _ => 0) : Linear.Map Nat Nat).insert 0 1 =
        some r) ∧
    ((∃ m₂,
        (if (Swiss.Map.new (fun _ => 0) : Swiss.Map Nat Nat).is_overloaded
         then (Swiss.Map.new (fun _ => 0) : Swiss.Map Nat Nat).expand
           (fun _ => 0)
         else some (Swiss.Map.new (fun _ => 0))) = some m₂ ∧
        ∀ g, g < m₂.group_count →
          ∃ si, m₂.find_empty_slot_index g = some si) ∧
      ∃ r, (Swiss.Map.new (fun _ => 0) : Swiss.Map Nat Nat).insert
        (fun _ => 0) 0 1 = some r) :=
  ⟨claim_C8_no_insert_panic.1 (Linear.Map.new (fun _ => 0))
      ⟨fun _ => 0, [], rfl⟩ 0 1,
   claim_C8_no_insert_panic.2 (Swiss.Map.new (fun _ => 0))
      ⟨fun _ => 0, [], rfl⟩ (fun _ => 0) 0 1⟩

/-- C10: Implicit grouped-design coherence invariant — on every
reachable table, a slot holds an entry exactly when its control byte is
neither the Empty sentinel nor the Deleted sentinel (i.e. it is a 7-bit
tag), and `count` equals the number of `Some` slots; the unwraps of
looked-up slots in `insert`/`get`/`get_mut`/`delete` therefore always
succeed. -/
theorem claim_C10_slot_ctrl_coherence {K V : Type} [DecidableEq K] :
    ∀ m : Swiss.Map K V, Swiss.Reachable m →
      (∀ (si : Nat) (b : Nat), m.byteAt si = some b →
        ((∃ e, m.slots[si]? = some (some e)) ↔
          (b ≠ Swiss.Ctrl.SLOT_EMPTY ∧ b ≠ Swiss.Ctrl.SLOT_DELETED))) ∧
      m.count = (m.slots.filterMap id).length := by
  intro m hreach
  have hInv := Swiss.Reachable_Inv_sw hreach
  constructor
  · intro si b hb
    have hdivlt : si / Swiss.GROUP_SIZE < m.group_count := by
      by_contra hge
      have hnone : m.ctrl[si / Swiss.GROUP_SIZE]? = none :=
        List.getElem?_eq_none (by rw [hInv.ctrl_len]; omega)
      unfold Swiss.Map.byteAt Swiss.byteAtCtrl at hb
      rw [hnone] at hb
      exact Option.noConfusion hb
    have hsilt : si < m.slots.length := by
      have := hInv.slots_len
      unfold Swiss.GROUP_SIZE at *
      omega
    obtain ⟨s, hs⟩ := Linear.getElem?_total hsilt
    cases s with
    | some e =>
      have hocc := hInv.coh_occ si e hs
      rw [hocc] at hb
      injection hb with hb'
      have hlt := Swiss.hash_h2_lt m e.key
      constructor
      · intro _
        constructor
        · intro hemp
          rw [hemp] at hb'
          unfold Swiss.Ctrl.SLOT_EMPTY at hb'
          omega
        · intro hdel
          rw [hdel] at hb'
          unfold Swiss.Ctrl.SLOT_DELETED at hb'
          omega
      · intro _
        exact ⟨e, hs⟩
    | none =>
      constructor
      · rintro ⟨e, he⟩
        rw [hs] at he
        injection he with he'
        exact Option.noConfusion he'
      · rintro ⟨hne, hnd⟩
        exfalso
        rcases hInv.coh_none si hs with h | h <;> rw [h] at hb <;>
          injection hb with hb'
        · exact hne hb'.symm
        · exact hnd hb'.symm
  · rw [hInv.count_eq, Swiss.liveCount_eq_filterMap]

/-- Witness for C10 at a concrete input: on the fresh grouped table
(hasher ≡ 0), slot 0 is empty, its control byte is the Empty sentinel,
and `count` equals the number of stored entries. -/
theorem claim_C10_slot_ctrl_coherence_witness :
    ((∃ e : Swiss.Entry Nat Nat,
      (Swiss.Map.new (fun _ => 0) : Swiss.Map Nat Nat).slots[0]? =
        some (some e)) ↔
      ((128 : Nat) ≠ Swiss.Ctrl.SLOT_EMPTY ∧
       (128 : Nat) ≠ Swiss.Ctrl.SLOT_DELETED)) ∧
    (Swiss.Map.new (fun _ => 0) : Swiss.Map Nat Nat).count =
      ((Swiss.Map.new (fun _ => 0) : Swiss.Map Nat Nat).slots.filterMap
        id).length := by
  have h := claim_C10_slot_ctrl_coherence
    (Swiss.Map.new (fun _ => 0) : Swiss.Map Nat Nat) ⟨fun _ => 0, [], rfl⟩
  exact ⟨h.1 0 128 rfl, h.2⟩
